import Mathlib

/-!
# A verification model of MDParser (`mdparser/_base.py`, `mdparser/_gmx_nodes.py`,
  `mdparser/topology.py`)

This file gives a shallow embedding of the in-memory topology data structure
(`Topology`, a circular doubly-linked list of keyed nodes over a sentinel root)
and the GROMACS topology parser (`GromacsTopologyParser.read`) of the MDParser
repository, and proves/refutes the frozen claims about it.

Modelling conventions:
* Python object identity is modelled by an explicit heap: a `List HNode`
  indexed by allocation order (`id = index`).  `weakref.proxy(x)` is modelled
  by `Ref.proxy id` — CPython caches weak proxies, so two proxies of the same
  object are identical (`is`), matching equality of `Ref`.
* Mutation is explicit state passing; Python exceptions are `Except PyErr`.
* Python `str` values are Lean `String`; the handful of Python string methods
  the source uses (`strip`, `lstrip(chars)`, `split`, `startswith`, …) are
  implemented below for the ASCII inputs the format deals in.
* Python `float(...)` values are not interpreted: a successfully parsed float
  is represented by its source token (claims never observe float arithmetic,
  only parse success/failure and verbatim raw storage).
-/

set_option maxRecDepth 10000

namespace MDParser

/-! ## Python string primitives -/

/-- Characters Python's no-argument `str.strip`/`str.split` treat as
whitespace (ASCII fragment; the file format is ASCII). -/
def pySpace (c : Char) : Bool :=
  c = ' ' || c = '\t' || c = '\n' || c = '\x0b' || c = '\x0c' || c = '\r'

/-- `s.lstrip()` on a character list. -/
def lstripL (l : List Char) : List Char := l.dropWhile pySpace

/-- `s.rstrip()` on a character list. -/
def rstripL (l : List Char) : List Char := (lstripL l.reverse).reverse

/-- `s.strip()`. -/
def pyStrip (s : String) : String := ⟨rstripL (lstripL s.data)⟩

/-- `s.lstrip(chars)`: remove leading characters contained in `chars`. -/
def pyLstripSet (s : String) (chars : String) : String :=
  ⟨s.data.dropWhile (fun c => chars.data.contains c)⟩

/-- `s.strip(chars)`: remove leading and trailing characters in `chars`. -/
def pyStripSet (s : String) (chars : String) : String :=
  ⟨((s.data.dropWhile (fun c => chars.data.contains c)).reverse.dropWhile
      (fun c => chars.data.contains c)).reverse⟩

/-- `s.split()` — split on whitespace runs, no empty tokens (the
accumulator carries the current token reversed). -/
def pyWordsAux : List Char → List Char → List String
  | [], acc => if acc.isEmpty then [] else [⟨acc.reverse⟩]
  | c :: rest, acc =>
    if pySpace c then
      if acc.isEmpty then pyWordsAux rest []
      else ⟨acc.reverse⟩ :: pyWordsAux rest []
    else pyWordsAux rest (c :: acc)

def pyWordsL (l : List Char) : List String := pyWordsAux l []

/-- `s.split()`. -/
def pyWords (s : String) : List String := pyWordsL s.data

/-- `s.split(maxsplit=1)`: at most one split on a whitespace run; the
remainder keeps its internal spacing (Python discards the separating run). -/
def pySplitMax1 (s : String) : List String :=
  match lstripL s.data with
  | [] => []
  | l =>
    let tok := l.takeWhile (fun d => !pySpace d)
    let rem := lstripL (l.dropWhile (fun d => !pySpace d))
    match rem with
    | [] => [⟨tok⟩]
    | r => [⟨tok⟩, ⟨r⟩]

/-- `split_comment` (topology.py): split at the first `;` when present. -/
def splitComment (s : String) : String × Option String :=
  if s.data.contains ';' then
    let pre := s.data.takeWhile (fun c => c ≠ ';')
    let post := (s.data.dropWhile (fun c => c ≠ ';')).drop 1
    (⟨pre⟩, some ⟨post⟩)
  else (s, none)

/-- `s.startswith(p)`. -/
def pyStarts (s p : String) : Bool := p.data.isPrefixOf s.data

/-- `s.endswith(p)`. -/
def pyEnds (s p : String) : Bool := p.data.reverse.isPrefixOf s.data.reverse

/-- `s[: s.rfind("c")]` for a single character: keep everything strictly
before the last occurrence of `c` (the source only calls this when the
character is known to occur). -/
def cutAtLast (s : String) (c : Char) : String :=
  ⟨((s.data.reverse.dropWhile (fun d => d ≠ c)).drop 1).reverse⟩

/-- ASCII `str.casefold`. -/
def pyLower (s : String) : String := ⟨s.data.map Char.toLower⟩

/-- `s[1:]`. -/
def pyDrop1 (s : String) : String := ⟨s.data.drop 1⟩

/-- Python `int(token)` for a token that came from a whitespace split:
optional sign followed by one or more digits (no underscores/whitespace by
construction of tokens). -/
def pyIntParse (s : String) : Option Int :=
  let l := s.data
  let core := match l with
    | '+' :: r => some (r, (1 : Int))
    | '-' :: r => some (r, (-1 : Int))
    | r => some (r, (1 : Int))
  match core with
  | some (digs, sign) =>
    if digs ≠ [] ∧ digs.all Char.isDigit then
      some (sign * (digs.foldl (fun a c => a * 10 + (c.toNat - '0'.toNat)) 0 : Nat))
    else none
  | none => none

/-- Whether Python `float(token)` succeeds on a split token: an optional
sign, then either digits, digits.digits, .digits or digits., optionally an
exponent (`e`/`E`, optional sign, digits); `inf`/`nan` spellings accepted. -/
def isPyFloat (s : String) : Bool :=
  let l := (pyLower s).data
  let l := match l with
    | '+' :: r => r
    | '-' :: r => r
    | r => r
  if l = "inf".data || l = "infinity".data || l = "nan".data then true
  else
    let intPart := l.takeWhile Char.isDigit
    let rest := l.dropWhile Char.isDigit
    let (fracPart, rest2) := match rest with
      | '.' :: r => (r.takeWhile Char.isDigit, r.dropWhile Char.isDigit)
      | r => ([], r)
    if intPart = [] ∧ fracPart = [] then false
    else
      match rest2 with
      | [] => true
      | 'e' :: r =>
        let r := match r with
          | '+' :: q => q
          | '-' :: q => q
          | q => q
        r ≠ [] ∧ r.all Char.isDigit
      | _ => false

/-! ## The object heap: nodes, references, proxies (`_base.py`) -/

/-- A reference to a heap node: either the node object itself (`proxy :=
false`) or its cached weak proxy (`proxy := true`).  Equality of `Ref` is
Python `is` (CPython caches one proxy per object). -/
structure Ref where
  proxy : Bool
  id : Nat
deriving DecidableEq, Repr

/-- `ensure_proxy` (`_base.py`): proxy an object, avoiding proxy of proxy. -/
def ensureProxy (r : Ref) : Ref := { r with proxy := true }

/-- Python exceptions raised by the modelled code.  `nonTermination` is a
model artefact standing for a non-terminating Python loop (fuel exhaustion);
it is never produced on well-formed states. -/
inductive PyErr where
  | keyError
  | lookupError
  | valueError
  | indexError
  | typeError
  | stopIteration
  | attributeError
  | assertionError
  | nonTermination
deriving DecidableEq, Repr

def orErr {α : Type} (o : Option α) (e : PyErr) : Except PyErr α :=
  match o with
  | some a => .ok a
  | none => .error e

instance {ε α : Type} [DecidableEq ε] [DecidableEq α] :
    DecidableEq (Except ε α) := fun x y =>
  match x, y with
  | .ok a, .ok b =>
    if h : a = b then .isTrue (by rw [h]) else
      .isFalse (fun hc => h (Except.ok.inj hc))
  | .error e, .error f =>
    if h : e = f then .isTrue (by rw [h]) else
      .isFalse (fun hc => h (Except.error.inj hc))
  | .ok _, .error _ => .isFalse (fun hc => Except.noConfusion hc)
  | .error _, .ok _ => .isFalse (fun hc => Except.noConfusion hc)

/-- Value of a `#define`: either a flag (`True`/`False`) or a string. -/
inductive DefineValue where
  | flag (b : Bool)
  | str (s : String)
deriving DecidableEq, Repr

/-- Python truthiness of a definition value. -/
def truthy : DefineValue → Bool
  | .flag b => b
  | .str s => s ≠ ""

/-- A scalar field of a section entry after per-field coercion
(`SectionEntry.__init__`): an `int`, a parsed float (kept as its source
token), or the original string when coercion failed (`except ValueError`
with a `str` value keeps the string). -/
inductive FieldV where
  | vInt (n : Int)
  | vFloat (tok : String)
  | vStr (s : String)
deriving DecidableEq, Repr

/-- Data of a `SectionEntry` (and subclasses): the declared scalar fields in
`_args` order, the variable-length lists (`c` of floats-as-tokens, `f` /
`indices` of ints), the inline comment and the raw fallback text. -/
structure EntryData where
  tag : String
  fields : List (String × Option FieldV)
  cs : Option (List String)
  ints : Option (List Int)
  comment : Option String
  raw : Option String
deriving DecidableEq, Repr

/-- The payload variants of a node (`GenericNodeValue` and the classes of
`_gmx_nodes.py`).  Sections and subsections are identified by their
`_node_key_name` tag; a subsection records the tag of its owning
supersection (the weak back-reference's target). -/
inductive NVData where
  | generic (value : String)
  | defineD (key : String) (value : DefineValue)
  | condition (key : String) (value : Option Bool) (complement : Option Ref)
  | comment (text : String) (char : Option String)
  | includeD (path : String)
  | sectionD (tag : String) (title : String)
  | subsectionD (tag : String) (title : String) (sectionTag : Option String)
  | entry (e : EntryData)
deriving DecidableEq, Repr

/-- A node value instance: its data plus the per-type instance count captured
at construction (`NodeValue.__init__` stores `type(self)._count`). -/
structure NodeValue where
  data : NVData
  count : Nat
deriving DecidableEq, Repr

/-- `_node_key_name` of a value's class. -/
def NVData.tag : NVData → String
  | .generic _ => "generic"
  | .defineD _ _ => "define"
  | .condition _ _ _ => "condition"
  | .comment _ _ => "comment"
  | .includeD _ => "include"
  | .sectionD t _ => t
  | .subsectionD t _ _ => t
  | .entry e => e.tag

/-- `NodeValue._make_node_key`. -/
def NodeValue.makeKey (v : NodeValue) : String := v.data.tag ++ "_" ++ toString v.count

/-- A heap node (`Node` of `_base.py`): key, value, and the two link slots.
The `prev` slot only ever holds proxies (its setter applies `ensure_proxy`);
the `next` slot holds whatever reference was assigned. -/
structure HNode where
  key : Option String := none
  value : Option NodeValue := none
  prev : Option Ref := none
  next : Option Ref := none
deriving DecidableEq, Repr

abbrev Heap := List HNode

/-- Heap lookup (references produced by the modelled code are always in
range; the default is never observed). -/
def getH (h : Heap) (i : Nat) : HNode := h.getD i {}

def setNextF (h : Heap) (i : Nat) (r : Option Ref) : Heap :=
  h.set i { getH h i with next := r }

/-- The `prev` setter applies `ensure_proxy` to non-`None` values. -/
def setPrevF (h : Heap) (i : Nat) (r : Option Ref) : Heap :=
  h.set i { getH h i with prev := r.map ensureProxy }

def setKeyF (h : Heap) (i : Nat) (k : Option String) : Heap :=
  h.set i { getH h i with key := k }

def setValueF (h : Heap) (i : Nat) (v : Option NodeValue) : Heap :=
  h.set i { getH h i with value := v }

/-- `Node.key` property: the stored key, or a key derived from the value. -/
def nodeKeyOf (n : HNode) : Option String :=
  match n.key with
  | some k => some k
  | none => n.value.map NodeValue.makeKey

/-- `Node.connect(other, forward)` (`_base.py`): `self` and `other` are the
references through which the two nodes are being accessed (attribute writes
through a proxy mutate the proxied node). -/
def connectF (h : Heap) (selfR otherR : Ref) (forward : Bool) : Heap :=
  if forward then
    -- self.next = other; other.prev = ensure_proxy(self)
    setPrevF (setNextF h selfR.id (some otherR)) otherR.id (some (ensureProxy selfR))
  else
    -- self.prev = ensure_proxy(other); other.next = self
    setNextF (setPrevF h selfR.id (some (ensureProxy otherR))) otherR.id (some selfR)

/-! ## Ordered dictionaries (Python `dict` / `OrderedDict`) -/

/-- Association-list lookup (first match). -/
def lookupA {α : Type} (l : List (String × α)) (k : String) : Option α :=
  (l.find? (fun e => e.1 = k)).map Prod.snd

/-- `d[k] = v`: update in place when the key exists (keeping its position),
else append — Python dict insertion-order semantics. -/
def odUpdate {α : Type} (l : List (String × α)) (k : String) (v : α) :
    List (String × α) :=
  if (l.find? (fun e => e.1 = k)).isSome then
    l.map (fun e => if e.1 = k then (k, v) else e)
  else l ++ [(k, v)]

/-- `d.pop(k)`: the removed value and the remaining dict, or `none`. -/
def odPop {α : Type} (l : List (String × α)) (k : String) :
    Option (α × List (String × α)) :=
  match lookupA l k with
  | some v => some (v, l.filter (fun e => e.1 ≠ k))
  | none => none

/-! ## The Topology container (`topology.py`) -/

/-- A `Topology`: the object heap (index 0 is always the hard root sentinel)
and the key→node lookup table `_nodes` in insertion order. -/
structure Top where
  heap : Heap
  table : List (String × Nat)
deriving DecidableEq, Repr

/-- `Topology.__init__`: one sentinel root whose `prev`/`next` are its own
proxy (`root.prev = root.next = root` through `self._root`). -/
def emptyTop : Top :=
  { heap := [{ prev := some (Ref.mk true 0), next := some (Ref.mk true 0) }],
    table := [] }

def nextOfT (t : Top) (i : Nat) : Option Ref := (getH t.heap i).next
def prevOfT (t : Top) (i : Nat) : Option Ref := (getH t.heap i).prev

/-- The reference `self._root` (a weak proxy of the hard root). -/
def rootRef : Ref := Ref.mk true 0

/-- One step of `Topology.__iter__`: yield `current.next` until it `is` the
root proxy.  Returns the list of yielded references. -/
def fwdRefsAux (h : Heap) : Nat → Ref → Except PyErr (List Ref)
  | 0, _ => .error .nonTermination
  | fuel + 1, cur => do
    let nx ← orErr (getH h cur.id).next .attributeError
    if nx = rootRef then .ok []
    else do
      let rest ← fwdRefsAux h fuel nx
      .ok (nx :: rest)

/-- The references yielded by `Topology.__iter__`. -/
def fwdRefs (t : Top) : Except PyErr (List Ref) :=
  fwdRefsAux t.heap (t.heap.length + 1) rootRef

/-- The references yielded by `Topology.__reversed__` (following `prev`). -/
def bwdRefsAux (h : Heap) : Nat → Ref → Except PyErr (List Ref)
  | 0, _ => .error .nonTermination
  | fuel + 1, cur => do
    let pv ← orErr (getH h cur.id).prev .attributeError
    if pv = rootRef then .ok []
    else do
      let rest ← bwdRefsAux h fuel pv
      .ok (pv :: rest)

def bwdRefs (t : Top) : Except PyErr (List Ref) :=
  bwdRefsAux t.heap (t.heap.length + 1) rootRef

/-- `unproxy_node` wrapped in `__getitem__`'s `try/except AttributeError`:
`node.prev.next`.  When `prev` is `None` the `AttributeError` is swallowed
and the reference is returned unchanged; a `None` in the final `next` slot
yields Python `None` (`none` here). -/
def unproxyTry (t : Top) (r : Ref) : Option Ref :=
  match (getH t.heap r.id).prev with
  | none => some r
  | some p => (getH t.heap p.id).next

/-- `Topology.__getitem__` with an `int` query (negative indices traverse in
reverse).  Returns the node reference actually handed to the caller (or
Python `None`, see `unproxyTry`). -/
def getItemInt (t : Top) (q : Int) : Except PyErr (Option Ref) := do
  if q < 0 then
    let idx := ((-q) - 1).toNat
    let l ← bwdRefs t
    match l[idx]? with
    | none => .error .indexError
    | some r => .ok (unproxyTry t r)
  else
    let l ← fwdRefs t
    match l[q.toNat]? with
    | none => .error .indexError
    | some r => .ok (unproxyTry t r)

/-- `Topology._add_node` for a node that already carries its key (`add`,
`insert` and `relative_insert` always construct the node with an explicit
key): raise `KeyError` when the key is in the table, else register it.
The check happens before any mutation of the topology. -/
def addNodeCheck (t : Top) (k : String) : Except PyErr Unit :=
  if (lookupA t.table k).isSome then .error .keyError else .ok ()

/-- Plain (non-proxy) reference to a heap node. -/
def realRef (i : Nat) : Ref := ⟨false, i⟩

/-- `Topology.add(key, value)`: append before the root sentinel. -/
def Top.add (t : Top) (k : String) (v : NodeValue) : Except PyErr Top := do
  -- last = root.prev
  let last ← orErr (getH t.heap 0).prev .attributeError
  -- node = Node(key=key, value=value); self._add_node(node)
  addNodeCheck t k
  let nid := t.heap.length
  let h0 := t.heap ++ [{ key := some k, value := some v : HNode }]
  let tbl := odUpdate t.table k nid
  -- node.connect(last, forward=False); node.connect(root)
  let h1 := connectF h0 (realRef nid) last false
  let h2 := connectF h1 (realRef nid) rootRef true
  .ok { heap := h2, table := tbl }

/-- `Topology.pop(key)`: unlink and return the node. -/
def Top.pop (t : Top) (k : String) : Except PyErr (Top × Nat) := do
  let (i, tbl) ← orErr (odPop t.table k) .keyError
  -- node.prev.next = node.next
  let nd := getH t.heap i
  let p ← orErr nd.prev .attributeError
  let h1 := setNextF t.heap p.id nd.next
  -- node.next.prev = node.prev  (attribute chain re-evaluated after the
  -- first statement, as in Python)
  let nd1 := getH h1 i
  let nx ← orErr nd1.next .attributeError
  let h2 := setPrevF h1 nx.id nd1.prev
  .ok ({ heap := h2, table := tbl }, i)

/-- `Topology.discard(key)`: like `pop` but a no-op when the key is absent. -/
def Top.discard (t : Top) (k : String) : Except PyErr Top := do
  match odPop t.table k with
  | none => .ok t
  | some (i, tbl) => do
    let nd := getH t.heap i
    let p ← orErr nd.prev .attributeError
    let h1 := setNextF t.heap p.id nd.next
    let nd1 := getH h1 i
    let nx ← orErr nd1.next .attributeError
    let h2 := setPrevF h1 nx.id nd1.prev
    .ok { heap := h2, table := tbl }

/-- `Topology.replace(key, value)`: a fresh node takes over the key and the
links of the old node in place. -/
def Top.replace (t : Top) (k : String) (v : NodeValue) : Except PyErr Top := do
  let (i, tbl) ← orErr (odPop t.table k) .keyError
  let old := getH t.heap i
  let nid := t.heap.length
  -- new_node.prev, new_node.next = old_node.prev, old_node.next
  -- (the prev setter re-applies ensure_proxy)
  let h0 := t.heap ++ [{ key := some k, value := some v,
                         prev := old.prev.map ensureProxy, next := old.next : HNode }]
  let tbl1 := odUpdate tbl k nid
  -- new_node.prev.next = new_node
  let p ← orErr (getH h0 nid).prev .attributeError
  let h1 := setNextF h0 p.id (some (realRef nid))
  -- new_node.next.prev = weakref.proxy(new_node)
  let nx ← orErr (getH h1 nid).next .attributeError
  let h2 := setPrevF h1 nx.id (some (Ref.mk true nid))
  .ok { heap := h2, table := tbl1 }

/-- `get_node_path(start, end)` (`_base.py`): follow `next` from `start`
collecting nodes until `end`; raise when `end` is unreachable (cycle seen or
chain ends).  Stepping onto a weak proxy raises `TypeError` (proxies are
unhashable, `start in seen_nodes` fails). -/
def getNodePathAux (h : Heap) (e : Nat) : Nat → Nat → List Nat →
    Except PyErr (List Nat)
  | 0, _, _ => .error .nonTermination
  | fuel + 1, cur, seen => do
    match (getH h cur).next with
    | none => .error .valueError
    | some nx =>
      if nx.proxy then .error .typeError
      else if seen.contains nx.id then .error .valueError
      else if nx.id = e then .ok ((seen ++ [nx.id]).reverse.reverse)
      else getNodePathAux h e fuel nx.id (seen ++ [nx.id])

def getNodePath (h : Heap) (s e : Nat) : Except PyErr (List Nat) :=
  if s = e then .ok [s]
  else getNodePathAux h e (h.length + 1) s [s]

/-- `Topology._batch_add_nodes`: check every chain key against the existing
table, then register them one after the other (plain dict assignment — a key
repeated inside the chain silently overwrites its earlier entry). -/
def batchAdd (t : Top) (pairs : List (String × Nat)) : Except PyErr Top :=
  if pairs.any (fun e => (lookupA t.table e.1).isSome) then .error .keyError
  else .ok { t with table := pairs.foldl (fun a e => odUpdate a e.1 e.2) t.table }

/-- `Topology.insert(index, key, value)`: insert before `index`, appending
when the index is beyond the end. -/
def Top.insert (t : Top) (index : Nat) (k : String) (v : NodeValue) :
    Except PyErr Top := do
  addNodeCheck t k
  let nid := t.heap.length
  let h0 := t.heap ++ [{ key := some k, value := some v : HNode }]
  let tbl := odUpdate t.table k nid
  let t0 : Top := { heap := h0, table := tbl }
  let refs ← fwdRefs t0
  let (prevR, nextR) ←
    match refs[index]? with
    | some nx => do
      let p ← orErr (getH h0 nx.id).prev .assertionError
      pure (p, nx)
    | none => do
      -- for-else: prev = root.prev; next_node = prev.next
      let p ← orErr (getH h0 0).prev .assertionError
      let nx ← orErr (getH h0 p.id).next .attributeError
      pure (p, nx)
  -- prev.connect(node); node.connect(next_node)
  let h1 := connectF h0 prevR (realRef nid) true
  let h2 := connectF h1 (realRef nid) nextR true
  .ok { heap := h2, table := tbl }

/-- `Topology.relative_insert(node, key, value, forward)`.  The anchor node
is the caller's (unproxied) reference, here resolved by its key in the
table. -/
def Top.relativeInsert (t : Top) (anchor : String) (k : String) (v : NodeValue)
    (forward : Bool) : Except PyErr Top := do
  let a ← orErr (lookupA t.table anchor) .keyError
  addNodeCheck t k
  let nid := t.heap.length
  let h0 := t.heap ++ [{ key := some k, value := some v : HNode }]
  let tbl := odUpdate t.table k nid
  if forward then do
    let anx ← orErr (getH h0 a).next .assertionError
    -- new_node.connect(node.next); new_node.connect(node, forward=False)
    let h1 := connectF h0 (realRef nid) anx true
    let h2 := connectF h1 (realRef nid) (realRef a) false
    .ok { heap := h2, table := tbl }
  else do
    let apv ← orErr (getH h0 a).prev .assertionError
    -- node.prev.connect(new_node); new_node.connect(node)
    let h1 := connectF h0 apv (realRef nid) true
    let h2 := connectF h1 (realRef nid) (realRef a) true
    .ok { heap := h2, table := tbl }

/-- Allocate a caller-built pre-linked chain (`Node()` construction plus
consecutive forward `connect`s, the way `test_topology.set_up` and
`copy_nodes` build blocks): fresh nodes, linked start→…→end, loose at both
ends.  Returns the extended heap and the chain's ids. -/
def allocChain (h : Heap) (chain : List (String × NodeValue)) : Heap × List Nat :=
  let base := h.length
  let nodes := chain.enum.map (fun e =>
    ({ key := some e.2.1, value := some e.2.2,
       prev := if e.1 = 0 then none else some (Ref.mk true (base + e.1 - 1)),
       next := if e.1 = chain.length - 1 then none
               else some (realRef (base + e.1 + 1)) : HNode }))
  (h ++ nodes, (List.range chain.length).map (base + ·))

/-- `Topology.block_insert(index, block_start, block_end)`: splice a
pre-linked chain before `index`.  The chain is given as the list of
(key, value) pairs of the caller-built block. -/
def Top.blockInsert (t : Top) (index : Nat) (chain : List (String × NodeValue)) :
    Except PyErr Top := do
  -- the caller must hand over block_start and block_end nodes
  let s ← orErr chain.head? .valueError
  let _ := s
  let (h0, ids) := allocChain t.heap chain
  let sid ← orErr ids.head? .valueError
  let eid ← orErr ids.getLast? .valueError
  let path ← getNodePath h0 sid eid
  let t0 : Top := { heap := h0, table := t.table }
  let t1 ← batchAdd t0 ((path.map (fun i => ((getH h0 i).key, i))).filterMap
      (fun e => e.1.map (fun k => (k, e.2))))
  let refs ← fwdRefs t1
  let (prevR, nextR) ←
    match refs[index]? with
    | some nx => do
      let p ← orErr (getH t1.heap nx.id).prev .assertionError
      pure (p, nx)
    | none => do
      let p ← orErr (getH t1.heap 0).prev .assertionError
      let nx ← orErr (getH t1.heap p.id).next .attributeError
      pure (p, nx)
  -- prev.connect(block_start); block_end.connect(next_node)
  let h1 := connectF t1.heap prevR (realRef sid) true
  let h2 := connectF h1 (realRef eid) nextR true
  .ok { heap := h2, table := t1.table }

/-- `Topology.relative_block_insert(node, block_start, block_end, forward)`. -/
def Top.relativeBlockInsert (t : Top) (anchor : String)
    (chain : List (String × NodeValue)) (forward : Bool) : Except PyErr Top := do
  let a ← orErr (lookupA t.table anchor) .keyError
  let s ← orErr chain.head? .valueError
  let _ := s
  let (h0, ids) := allocChain t.heap chain
  let sid ← orErr ids.head? .valueError
  let eid ← orErr ids.getLast? .valueError
  let path ← getNodePath h0 sid eid
  let t0 : Top := { heap := h0, table := t.table }
  let t1 ← batchAdd t0 ((path.map (fun i => ((getH h0 i).key, i))).filterMap
      (fun e => e.1.map (fun k => (k, e.2))))
  if forward then do
    let anx ← orErr (getH t1.heap a).next .assertionError
    -- block_end.connect(node.next); node.connect(block_start)
    let h1 := connectF t1.heap (realRef eid) anx true
    let h2 := connectF h1 (realRef a) (realRef sid) true
    .ok { heap := h2, table := t1.table }
  else do
    let apv ← orErr (getH t1.heap a).prev .assertionError
    -- node.prev.connect(block_start); block_end.connect(node)
    let h1 := connectF t1.heap apv (realRef sid) true
    let h2 := connectF h1 (realRef eid) (realRef a) true
    .ok { heap := h2, table := t1.table }

/-- `Topology.block_discard(block_start, block_end)`: boundary nodes resolved
by key (the caller's references to nodes inside the topology). -/
def Top.blockDiscard (t : Top) (startKey endKey : String) : Except PyErr Top := do
  let s ← orErr (lookupA t.table startKey) .keyError
  let e ← orErr (lookupA t.table endKey) .keyError
  -- is_backward_connected / is_forward_connected checks
  let prevR ← orErr (getH t.heap s).prev .valueError
  let nextR ← orErr (getH t.heap e).next .valueError
  -- block_start.disconnect(backward=True): self.prev.next = None; self.prev = None
  let h1 := setPrevF (setNextF t.heap prevR.id none) s none
  -- block_end.disconnect(forward=True): self.next.prev = None; self.next = None
  let eNext ← orErr (getH h1 e).next .attributeError
  let h2 := setNextF (setPrevF h1 eNext.id none) e none
  -- prev.connect(next_node)
  let h3 := connectF h2 prevR nextR true
  let path ← getNodePath h3 s e
  -- del self._nodes[node.key] for every block node with a key
  let tbl ← path.foldlM (fun acc i => do
      match nodeKeyOf (getH h3 i) with
      | none => pure acc
      | some k => do
        let (_, rest) ← orErr (odPop acc k) .keyError
        pure rest) t.table
  .ok { heap := h3, table := tbl }

/-! ## Container operation sequences -/

/-- One public container operation of `Topology`, with node arguments given
the way callers obtain them (anchors by key, blocks as caller-built
pre-linked chains). -/
inductive Op where
  | add (key : String) (value : NodeValue)
  | insert (index : Nat) (key : String) (value : NodeValue)
  | relativeInsert (anchor key : String) (value : NodeValue) (forward : Bool)
  | blockInsert (index : Nat) (chain : List (String × NodeValue))
  | relativeBlockInsert (anchor : String) (chain : List (String × NodeValue))
      (forward : Bool)
  | replaceOp (key : String) (value : NodeValue)
  | pop (key : String)
  | discard (key : String)
  | blockDiscard (startKey endKey : String)
deriving Repr

def applyOp (t : Top) : Op → Except PyErr Top
  | .add k v => t.add k v
  | .insert i k v => t.insert i k v
  | .relativeInsert a k v f => t.relativeInsert a k v f
  | .blockInsert i c => t.blockInsert i c
  | .relativeBlockInsert a c f => t.relativeBlockInsert a c f
  | .replaceOp k v => t.replace k v
  | .pop k => (t.pop k).map Prod.fst
  | .discard k => t.discard k
  | .blockDiscard s e => t.blockDiscard s e

/-- Run a sequence of container operations from a fresh `Topology()`. -/
def runOps (ops : List Op) : Except PyErr Top :=
  ops.foldlM applyOp emptyTop

/-! ## Well-formedness of a topology

A well-formed topology is a circular doubly-linked chain
`root → n₁ → … → n_k → root` over a duplicate-free id list `order`.  The
construction discipline of the source fixes the exact shape of the stored
references: a `next` slot holds the plain node — except that a reference to
the root is always `self._root`'s weak proxy — and a `prev` slot always holds
a weak proxy (its setter applies `ensure_proxy`). -/

/-- The `next` field of node `i`. -/
def nextF (h : Heap) (i : Nat) : Option Ref := (getH h i).next

/-- The `prev` field of node `i`. -/
def prevF (h : Heap) (i : Nat) : Option Ref := (getH h i).prev

/-- The `key` field of node `i`. -/
def keyF (h : Heap) (i : Nat) : Option String := (getH h i).key

/-- The `value` field of node `i`. -/
def valueF (h : Heap) (i : Nat) : Option NodeValue := (getH h i).value

/-- The reference stored in a `next` slot pointing at node `j`. -/
def fwdRef (j : Nat) : Ref := if j = 0 then Ref.mk true 0 else Ref.mk false j

/-- Adjacency `a → b` in the linked chain: `a.next` is (the canonical
reference to) `b` and `b.prev` is the proxy of `a`. -/
def Adj (h : Heap) (a b : Nat) : Prop :=
  nextF h a = some (fwdRef b) ∧ prevF h b = some (Ref.mk true a)

instance (h : Heap) (a b : Nat) : Decidable (Adj h a b) :=
  inferInstanceAs (Decidable (nextF h a = some (fwdRef b) ∧ prevF h b = some (Ref.mk true a)))

/-- Boolean evaluator for adjacency chains (kernel-reducible decider). -/
def adjChainB (h : Heap) : List Nat → Bool
  | [] => true
  | [_] => true
  | a :: b :: l => decide (Adj h a b) && adjChainB h (b :: l)

theorem adjChainB_iff (h : Heap) :
    ∀ l, adjChainB h l = true ↔ List.Chain' (Adj h) l
  | [] => by simp [adjChainB]
  | [a] => by simp [adjChainB]
  | a :: b :: l => by
    rw [List.chain'_cons, ← adjChainB_iff h (b :: l)]
    simp [adjChainB]

instance (h : Heap) (l : List Nat) : Decidable (List.Chain' (Adj h) l) :=
  decidable_of_iff (adjChainB h l = true) (adjChainB_iff h l)

/-- The chain invariant: node ids `order` (allocation ids of the linked
non-root nodes, in link order) form a doubly-linked cycle through the root. -/
def ChainOK (t : Top) (order : List Nat) : Prop :=
  0 < t.heap.length ∧
  (∀ i ∈ order, i ≠ 0 ∧ i < t.heap.length) ∧
  order.Nodup ∧
  List.Chain' (Adj t.heap) (0 :: (order ++ [0]))

/-- The table soundness invariant that survives *every* successful container
operation: keys are unique, no two keys map to the same node, and every
table entry points at a linked node. -/
instance (t : Top) (order : List Nat) : Decidable (ChainOK t order) :=
  inferInstanceAs (Decidable (0 < t.heap.length ∧
    (∀ i ∈ order, i ≠ 0 ∧ i < t.heap.length) ∧ order.Nodup ∧
    List.Chain' (Adj t.heap) (0 :: (order ++ [0]))))

def TableSub (t : Top) (order : List Nat) : Prop :=
  (t.table.map Prod.fst).Nodup ∧ (t.table.map Prod.snd).Nodup ∧
  ∀ e ∈ t.table, e.2 ∈ order

/-- The full lookup-table bijection: additionally every *linked* node is
registered (table values are exactly `order`) under its own key. -/
def TableOK (t : Top) (order : List Nat) : Prop :=
  (t.table.map Prod.fst).Nodup ∧ (t.table.map Prod.snd).Perm order ∧
  ∀ e ∈ t.table, (getH t.heap e.2).key = some e.1

instance (t : Top) (order : List Nat) : Decidable (TableOK t order) :=
  inferInstanceAs (Decidable ((t.table.map Prod.fst).Nodup ∧
    (t.table.map Prod.snd).Perm order ∧
    ∀ e ∈ t.table, (getH t.heap e.2).key = some e.1))

/-! ### Heap lookup/update toolkit -/

theorem getH_set_eq (h : Heap) (i : Nat) (n : HNode) (hi : i < h.length) :
    getH (h.set i n) i = n := by
  simp [getH, List.getD, List.getElem?_set_self', hi]

theorem getH_set_ne (h : Heap) (i j : Nat) (n : HNode) (hij : i ≠ j) :
    getH (h.set i n) j = getH h j := by
  simp [getH, List.getD, List.getElem?_set_ne hij]

theorem getH_append_lt (h l : Heap) (i : Nat) (hi : i < h.length) :
    getH (h ++ l) i = getH h i := by
  simp [getH, List.getD, List.getElem?_append_left hi]

theorem getH_append_len (h : Heap) (n : HNode) :
    getH (h ++ [n]) h.length = n := by
  simp [getH, List.getD]

@[simp] theorem setNextF_length (h : Heap) (i r) :
    (setNextF h i r).length = h.length := by simp [setNextF]

@[simp] theorem setPrevF_length (h : Heap) (i r) :
    (setPrevF h i r).length = h.length := by simp [setPrevF]

@[simp] theorem setValueF_length (h : Heap) (i v) :
    (setValueF h i v).length = h.length := by simp [setValueF]

theorem getH_of_length_le (h : Heap) (i : Nat) (hi : h.length ≤ i) :
    getH h i = {} := by
  simp [getH, List.getD, List.getElem?_eq_none hi]

/-- Updating one field leaves the others alone, whether in- or out-of-range. -/
theorem getH_set_cases (h : Heap) (i j : Nat) (n : HNode) :
    getH (h.set i n) j = if i = j ∧ i < h.length then n else getH h j := by
  split
  · next hc => exact hc.1 ▸ getH_set_eq _ _ _ hc.2
  · next hc =>
    by_cases hij : i = j
    · have : h.length ≤ i := by omega
      rw [List.set_eq_of_length_le this]
    · exact getH_set_ne _ _ _ _ hij

@[simp] theorem nextF_setPrevF (h : Heap) (i j r) :
    nextF (setPrevF h i r) j = nextF h j := by
  simp only [nextF, setPrevF, getH_set_cases]
  split
  · next hc => rw [hc.1]
  · rfl

@[simp] theorem prevF_setNextF (h : Heap) (i j r) :
    prevF (setNextF h i r) j = prevF h j := by
  simp only [prevF, setNextF, getH_set_cases]
  split
  · next hc => rw [hc.1]
  · rfl

@[simp] theorem keyF_setNextF (h : Heap) (i j r) :
    keyF (setNextF h i r) j = keyF h j := by
  simp only [keyF, setNextF, getH_set_cases]
  split
  · next hc => rw [hc.1]
  · rfl

@[simp] theorem keyF_setPrevF (h : Heap) (i j r) :
    keyF (setPrevF h i r) j = keyF h j := by
  simp only [keyF, setPrevF, getH_set_cases]
  split
  · next hc => rw [hc.1]
  · rfl

@[simp] theorem valueF_setNextF (h : Heap) (i j r) :
    valueF (setNextF h i r) j = valueF h j := by
  simp only [valueF, setNextF, getH_set_cases]
  split
  · next hc => rw [hc.1]
  · rfl

@[simp] theorem valueF_setPrevF (h : Heap) (i j r) :
    valueF (setPrevF h i r) j = valueF h j := by
  simp only [valueF, setPrevF, getH_set_cases]
  split
  · next hc => rw [hc.1]
  · rfl

@[simp] theorem nextF_setValueF (h : Heap) (i j v) :
    nextF (setValueF h i v) j = nextF h j := by
  simp only [nextF, setValueF, getH_set_cases]
  split
  · next hc => rw [hc.1]
  · rfl

@[simp] theorem prevF_setValueF (h : Heap) (i j v) :
    prevF (setValueF h i v) j = prevF h j := by
  simp only [prevF, setValueF, getH_set_cases]
  split
  · next hc => rw [hc.1]
  · rfl

@[simp] theorem keyF_setValueF (h : Heap) (i j v) :
    keyF (setValueF h i v) j = keyF h j := by
  simp only [keyF, setValueF, getH_set_cases]
  split
  · next hc => rw [hc.1]
  · rfl

theorem nextF_setNextF_eq {h : Heap} {i : Nat} {r : Option Ref} (hi : i < h.length) :
    nextF (setNextF h i r) i = r := by
  simp [nextF, setNextF, getH_set_eq _ _ _ hi]

theorem nextF_setNextF_ne {h : Heap} {i j : Nat} {r : Option Ref} (hij : i ≠ j) :
    nextF (setNextF h i r) j = nextF h j := by
  simp [nextF, setNextF, getH_set_ne _ _ _ _ hij]

theorem prevF_setPrevF_eq {h : Heap} {i : Nat} {r : Option Ref} (hi : i < h.length) :
    prevF (setPrevF h i r) i = r.map ensureProxy := by
  simp [prevF, setPrevF, getH_set_eq _ _ _ hi]

theorem prevF_setPrevF_ne {h : Heap} {i j : Nat} {r : Option Ref} (hij : i ≠ j) :
    prevF (setPrevF h i r) j = prevF h j := by
  simp [prevF, setPrevF, getH_set_ne _ _ _ _ hij]

theorem valueF_setValueF_eq {h : Heap} {i : Nat} {v : Option NodeValue} (hi : i < h.length) :
    valueF (setValueF h i v) i = v := by
  simp [valueF, setValueF, getH_set_eq _ _ _ hi]

theorem valueF_setValueF_ne {h : Heap} {i j : Nat} {v : Option NodeValue} (hij : i ≠ j) :
    valueF (setValueF h i v) j = valueF h j := by
  simp [valueF, setValueF, getH_set_ne _ _ _ _ hij]

theorem nextF_append_lt {h l : Heap} {i : Nat} (hi : i < h.length) :
    nextF (h ++ l) i = nextF h i := by
  simp [nextF, getH_append_lt _ _ _ hi]

theorem prevF_append_lt {h l : Heap} {i : Nat} (hi : i < h.length) :
    prevF (h ++ l) i = prevF h i := by
  simp [prevF, getH_append_lt _ _ _ hi]

theorem keyF_append_lt {h l : Heap} {i : Nat} (hi : i < h.length) :
    keyF (h ++ l) i = keyF h i := by
  simp [keyF, getH_append_lt _ _ _ hi]

theorem valueF_append_lt {h l : Heap} {i : Nat} (hi : i < h.length) :
    valueF (h ++ l) i = valueF h i := by
  simp [valueF, getH_append_lt _ _ _ hi]

/-! ### Setter commutation -/

theorem setNextF_setNextF_comm {h : Heap} {i j : Nat} (hij : i ≠ j) (r s) :
    setNextF (setNextF h i r) j s = setNextF (setNextF h j s) i r := by
  simp only [setNextF, getH_set_ne _ _ _ _ hij, getH_set_ne _ _ _ _ (Ne.symm hij)]
  exact List.set_comm _ _ _ hij

theorem setPrevF_setPrevF_comm {h : Heap} {i j : Nat} (hij : i ≠ j) (r s) :
    setPrevF (setPrevF h i r) j s = setPrevF (setPrevF h j s) i r := by
  simp only [setPrevF, getH_set_ne _ _ _ _ hij, getH_set_ne _ _ _ _ (Ne.symm hij)]
  exact List.set_comm _ _ _ hij

theorem setPrevF_setNextF_comm {h : Heap} {i j : Nat} (hij : i ≠ j) (r s) :
    setPrevF (setNextF h i r) j s = setNextF (setPrevF h j s) i r := by
  simp only [setPrevF, setNextF, getH_set_ne _ _ _ _ hij,
    getH_set_ne _ _ _ _ (Ne.symm hij)]
  exact List.set_comm _ _ _ hij

theorem setNextF_setPrevF_comm {h : Heap} {i j : Nat} (hij : i ≠ j) (r s) :
    setNextF (setPrevF h i r) j s = setPrevF (setNextF h j s) i r :=
  (setPrevF_setNextF_comm (Ne.symm hij) s r).symm

theorem setPrevF_setNextF_same (h : Heap) (i : Nat) (r s) :
    setPrevF (setNextF h i r) i s = setNextF (setPrevF h i s) i r := by
  by_cases hi : i < h.length
  · simp only [setPrevF, setNextF, List.set_set, getH_set_eq _ _ _ hi]
  · have hle : h.length ≤ i := Nat.le_of_not_lt hi
    simp only [setPrevF, setNextF]
    rw [List.set_eq_of_length_le hle, List.set_eq_of_length_le hle,
      List.set_eq_of_length_le hle]

/-! ### `Except` computation toolkit -/

@[simp] theorem orErr_some {α : Type} (a : α) (e : PyErr) :
    orErr (some a) e = Except.ok a := rfl

@[simp] theorem exbind_ok {α β : Type} {x : Except PyErr α} {f : α → Except PyErr β}
    {b : β} : (x >>= f) = .ok b ↔ ∃ a, x = .ok a ∧ f a = .ok b := by
  cases x <;> simp [Bind.bind, Except.bind]

@[simp] theorem orErr_ok {α : Type} {o : Option α} {e : PyErr} {a : α} :
    orErr o e = .ok a ↔ o = some a := by
  cases o <;> simp [orErr]

@[simp] theorem exbind_pure_ok {α β : Type} (a : α) (f : α → Except PyErr β) :
    (Except.ok a >>= f) = f a := rfl

@[simp] theorem expure_ok {α : Type} (a : α) :
    (pure a : Except PyErr α) = Except.ok a := rfl

@[simp] theorem exmap_ok {α β : Type} {x : Except PyErr α} {f : α → β} {b : β} :
    x.map f = .ok b ↔ ∃ a, x = .ok a ∧ f a = b := by
  cases x <;> simp [Except.map]

/-! ### Chain transfer machinery -/

@[simp] theorem fwdRef_zero : fwdRef 0 = rootRef := rfl

theorem fwdRef_pos {j : Nat} (h : j ≠ 0) : fwdRef j = realRef j := by
  simp [fwdRef, realRef, h]

@[simp] theorem ensureProxy_eq (b : Bool) (i : Nat) :
    ensureProxy (Ref.mk b i) = Ref.mk true i := rfl

@[simp] theorem realRef_eq (i : Nat) : realRef i = Ref.mk false i := rfl

@[simp] theorem fwdRef_id (j : Nat) : (fwdRef j).id = j := by
  unfold fwdRef
  split <;> simp_all

/-- A chain of adjacencies survives a heap modification that does not touch
the `next` slot of any non-final chain element nor the `prev` slot of any
non-initial chain element. -/
theorem chain'_adj_transfer {h h' : Heap} {l : List Nat} (hnd : l.Nodup)
    (hne : l ≠ [])
    (hc : List.Chain' (Adj h) l)
    (hnext : ∀ x ∈ l, x ≠ l.getLast hne → nextF h' x = nextF h x)
    (hprev : ∀ x ∈ l, x ≠ l.head hne → prevF h' x = prevF h x) :
    List.Chain' (Adj h') l := by
  rw [List.chain'_iff_get] at hc ⊢
  simp only [List.get_eq_getElem] at hc ⊢
  intro i hi
  have hlt : i < l.length := by omega
  have hlt1 : i + 1 < l.length := by omega
  obtain ⟨hcn, hcp⟩ := hc i hi
  constructor
  · rw [hnext l[i] (l.getElem_mem hlt) ?_]
    · exact hcn
    · rw [List.getLast_eq_getElem]
      intro hcontra
      have := (@List.Nodup.getElem_inj_iff _ _ hnd _ hlt _ (by omega)).mp hcontra
      omega
  · rw [hprev l[i + 1] (l.getElem_mem hlt1) ?_]
    · exact hcp
    · rw [List.head_eq_getElem_zero hne]
      intro hcontra
      have := (@List.Nodup.getElem_inj_iff _ _ hnd _ hlt1 _ (by omega)).mp hcontra
      omega

theorem ChainOK.chain_split {t : Top} {order : List Nat} (hC : ChainOK t order) :
    List.Chain' (Adj t.heap) (0 :: order) ∧
      Adj t.heap ((0 :: order).getLast (by simp)) 0 := by
  obtain ⟨_, _, _, hchain⟩ := hC
  rw [show (0 :: (order ++ [0])) = (0 :: order) ++ [0] by simp] at hchain
  obtain ⟨h1, _, h3⟩ := List.chain'_append.1 hchain
  refine ⟨h1, ?_⟩
  have := h3 ((0 :: order).getLast (by simp)) (by simp [List.getLast?_eq_getLast]) 0
  simpa using this

theorem ChainOK.nodup_cons {t : Top} {order : List Nat} (hC : ChainOK t order) :
    (0 :: order).Nodup := by
  obtain ⟨_, hb, hnd, _⟩ := hC
  exact List.nodup_cons.2 ⟨fun hx => (hb 0 hx).1 rfl, hnd⟩

theorem ChainOK.mem_lt {t : Top} {order : List Nat} (hC : ChainOK t order)
    {x : Nat} (hx : x ∈ 0 :: order) : x < t.heap.length := by
  obtain ⟨hl, hb, _, _⟩ := hC
  rcases List.mem_cons.1 hx with h | h
  · omega
  · exact (hb x h).2

theorem nodup_bound_length {l : List Nat} {n : Nat} (hnd : l.Nodup)
    (hb : ∀ i ∈ l, i < n) : l.length ≤ n := by
  classical
  have h1 : l.toFinset.card = l.length := List.toFinset_card_of_nodup hnd
  have h2 : l.toFinset ⊆ Finset.range n := by
    intro x hx
    simp only [List.mem_toFinset] at hx
    simpa using hb x hx
  have := Finset.card_le_card h2
  simpa [h1] using this

/-- Forward iteration yields exactly the plain references to the chain
nodes, in order. -/
theorem fwdRefsAux_spec {h : Heap} (l : List Nat) (cur : Ref) (fuel : Nat)
    (hchain : List.Chain' (Adj h) (cur.id :: (l ++ [0])))
    (hfuel : l.length + 1 ≤ fuel)
    (hl0 : ∀ x ∈ l, x ≠ 0) :
    fwdRefsAux h fuel cur = .ok (l.map realRef) := by
  induction l generalizing cur fuel with
  | nil =>
    obtain ⟨hadj, -⟩ := List.chain'_cons.1 hchain
    rcases fuel with _ | fuel
    · omega
    · simp only [fwdRefsAux]
      rw [show (getH h cur.id).next = nextF h cur.id from rfl, hadj.1]
      simp
  | cons b l ih =>
    obtain ⟨hadj, htail⟩ := List.chain'_cons.1 hchain
    rcases fuel with _ | fuel
    · simp at hfuel
    · have hb0 : b ≠ 0 := hl0 b (by simp)
      simp only [fwdRefsAux]
      rw [show (getH h cur.id).next = nextF h cur.id from rfl, hadj.1,
        fwdRef_pos hb0]
      have hne : realRef b ≠ rootRef := by simp [realRef, rootRef]
      simp only [orErr, exbind_pure_ok, if_neg hne]
      rw [ih (realRef b) fuel (by simpa using htail) (by simpa using hfuel)
        (fun x hx => hl0 x (by simp [hx]))]
      simp

theorem fwdRefs_spec {t : Top} {order : List Nat} (hC : ChainOK t order) :
    fwdRefs t = .ok (order.map realRef) := by
  obtain ⟨hlen, hb, hnd, hchain⟩ := hC
  refine fwdRefsAux_spec order rootRef _ (by simpa [rootRef] using hchain) ?_
    (fun x hx => (hb x hx).1)
  have := nodup_bound_length hnd (fun i hi => (hb i hi).2)
  omega

/-- Backward iteration yields the proxies of the chain nodes, reversed. -/
theorem bwdRefsAux_spec {h : Heap} (l : List Nat) (cur : Ref) (fuel : Nat)
    (hchain : List.Chain' (Adj h) ((0 :: l) ++ [cur.id]))
    (hfuel : l.length + 1 ≤ fuel)
    (hl0 : ∀ x ∈ l, x ≠ 0) :
    bwdRefsAux h fuel cur = .ok ((l.reverse).map (Ref.mk true)) := by
  induction l using List.reverseRecOn generalizing cur fuel with
  | nil =>
    obtain ⟨hadj, -⟩ := List.chain'_cons.1 hchain
    rcases fuel with _ | fuel
    · omega
    · simp only [bwdRefsAux]
      rw [show (getH h cur.id).prev = prevF h cur.id from rfl, hadj.2]
      simp [rootRef]
  | append_singleton l b ih =>
    rcases fuel with _ | fuel
    · simp at hfuel
    · have hb0 : b ≠ 0 := hl0 b (by simp)
      have hre : (0 :: (l ++ [b])) ++ [cur.id]
          = ((0 :: l) ++ [b]) ++ [cur.id] := by simp
      rw [hre] at hchain
      obtain ⟨hinit, -, hlink⟩ := List.chain'_append.1 hchain
      have hadj : Adj h b cur.id := by
        have := hlink b (by simp [List.getLast?_eq_getLast]) cur.id (by simp)
        exact this
      simp only [bwdRefsAux]
      rw [show (getH h cur.id).prev = prevF h cur.id from rfl, hadj.2]
      have hne : Ref.mk true b ≠ rootRef := by simp [rootRef, hb0]
      simp only [orErr, exbind_pure_ok, if_neg hne]
      rw [ih (Ref.mk true b) fuel (by simpa using hinit)
        (by simp at hfuel ⊢; omega) (fun x hx => hl0 x (by simp [hx]))]
      simp

theorem bwdRefs_spec {t : Top} {order : List Nat} (hC : ChainOK t order) :
    bwdRefs t = .ok ((order.reverse).map (Ref.mk true)) := by
  obtain ⟨hlen, hb, hnd, hchain⟩ := hC
  refine bwdRefsAux_spec order rootRef _ (by simpa [rootRef] using hchain) ?_
    (fun x hx => (hb x hx).1)
  have := nodup_bound_length hnd (fun i hi => (hb i hi).2)
  omega

/-! ### Characterizations of the successful container operations -/

theorem add_ok_elim {t : Top} {k : String} {v : NodeValue} {t' : Top}
    (hop : t.add k v = .ok t') :
    ∃ last, (getH t.heap 0).prev = some last ∧ lookupA t.table k = none ∧
      t' = { heap := connectF (connectF (t.heap ++ [{ key := some k, value := some v }])
                        (realRef t.heap.length) last false)
                     (realRef t.heap.length) rootRef true,
             table := odUpdate t.table k t.heap.length } := by
  unfold Top.add addNodeCheck at hop
  rcases hp : (getH t.heap 0).prev with _ | last <;> rw [hp] at hop
  · simp at hop
  · by_cases hk : (lookupA t.table k).isSome <;> simp [hk] at hop
    refine ⟨last, rfl, ?_, hop.symm⟩
    rcases hcase : lookupA t.table k with _ | w
    · rfl
    · simp [hcase] at hk

/-- Everything `add` does on a well-formed topology: the key was free, the
node is allocated at the end of the heap, registered, and linked as the new
last chain element; no other node's key/value changes. -/
theorem add_shape {t : Top} {order : List Nat} {k : String} {v : NodeValue}
    {t' : Top} (hC : ChainOK t order) (hop : t.add k v = .ok t') :
    lookupA t.table k = none ∧
    t'.heap.length = t.heap.length + 1 ∧
    t'.table = odUpdate t.table k t.heap.length ∧
    ChainOK t' (order ++ [t.heap.length]) ∧
    keyF t'.heap t.heap.length = some k ∧
    valueF t'.heap t.heap.length = some v ∧
    (∀ i, i < t.heap.length →
      keyF t'.heap i = keyF t.heap i ∧ valueF t'.heap i = valueF t.heap i) := by
  obtain ⟨last, hlast, hfree, ht'⟩ := add_ok_elim hop
  obtain ⟨hsplit, hadjlast⟩ := hC.chain_split
  have hndc := hC.nodup_cons
  have hmem : ∀ x ∈ (0 : Nat) :: order, x < t.heap.length := fun x hx => hC.mem_lt hx
  obtain ⟨hlen, hbnd, hnd, _⟩ := hC
  set nid := t.heap.length with hnid
  set a := ((0 : Nat) :: order).getLast (by simp) with ha
  have halt : a < t.heap.length := hmem a (List.getLast_mem _)
  have hlastval : last = Ref.mk true a := by
    have : prevF t.heap 0 = some (Ref.mk true a) := hadjlast.2
    rw [prevF] at this
    rw [hlast] at this
    exact (Option.some_inj.1 this)
  subst hlastval
  -- the four heap updates of the two connects
  have hh : t'.heap =
      setPrevF (setNextF (setNextF (setPrevF
        (t.heap ++ [{ key := some k, value := some v }]) nid
          (some (Ref.mk true a))) a (some (realRef nid))) nid (some rootRef))
        0 (some (ensureProxy (realRef nid))) := by
    rw [ht']
    simp [connectF, ensureProxy, rootRef]
  have hlen0 : (t.heap ++ [{ key := some k, value := some v : HNode }]).length
      = nid + 1 := by simp
  have hlen' : t'.heap.length = t.heap.length + 1 := by rw [hh]; simp
  -- field computations
  have hnext_new : nextF t'.heap nid = some rootRef := by
    rw [hh]
    rw [nextF_setPrevF, nextF_setNextF_eq (by simp)]
  have hprev_new : prevF t'.heap nid = some (Ref.mk true a) := by
    rw [hh]
    rw [prevF_setPrevF_ne (by omega : (0 : Nat) ≠ nid), prevF_setNextF,
      prevF_setNextF, prevF_setPrevF_eq (by simp)]
    rfl
  have hnext_a : nextF t'.heap a = some (realRef nid) := by
    rw [hh]
    rw [nextF_setPrevF, nextF_setNextF_ne (by omega : nid ≠ a),
      nextF_setNextF_eq (by simp; omega)]

  have hprev_0 : prevF t'.heap 0 = some (Ref.mk true nid) := by
    rw [hh]
    rw [prevF_setPrevF_eq (by simp)]
    rfl
  have hnext_old : ∀ x, x < t.heap.length → x ≠ a → nextF t'.heap x = nextF t.heap x := by
    intro x hx hxa
    rw [hh]
    rw [nextF_setPrevF, nextF_setNextF_ne (by omega : nid ≠ x),
      nextF_setNextF_ne (fun hc => hxa hc.symm), nextF_setPrevF,
      nextF_append_lt hx]
  have hprev_old : ∀ x, x < t.heap.length → x ≠ 0 → prevF t'.heap x = prevF t.heap x := by
    intro x hx hx0
    rw [hh]
    rw [prevF_setPrevF_ne (fun hc => hx0 hc.symm), prevF_setNextF,
      prevF_setNextF, prevF_setPrevF_ne (by omega : nid ≠ x),
      prevF_append_lt hx]
  have hkeys : ∀ i, i < t.heap.length →
      keyF t'.heap i = keyF t.heap i ∧ valueF t'.heap i = valueF t.heap i := by
    intro i hi
    rw [hh]
    constructor
    · rw [keyF_setPrevF, keyF_setNextF, keyF_setNextF, keyF_setPrevF,
        keyF_append_lt hi]
    · rw [valueF_setPrevF, valueF_setNextF, valueF_setNextF, valueF_setPrevF,
        valueF_append_lt hi]
  have hknew : keyF t'.heap nid = some k := by
    rw [hh]
    rw [keyF_setPrevF, keyF_setNextF, keyF_setNextF, keyF_setPrevF, keyF, hnid,
      getH_append_len]
  have hvnew : valueF t'.heap nid = some v := by
    rw [hh]
    rw [valueF_setPrevF, valueF_setNextF, valueF_setNextF, valueF_setPrevF,
      valueF, hnid, getH_append_len]
  refine ⟨hfree, hlen', by rw [ht'], ?_, hknew, hvnew, hkeys⟩
  -- the new chain invariant
  refine ⟨by omega, ?_, ?_, ?_⟩
  · intro i hi
    rcases List.mem_append.1 hi with h | h
    · have := hbnd i h
      omega
    · simp at h
      omega
  · refine List.Nodup.append hnd (List.nodup_singleton _) ?_
    intro x hx hy
    simp at hy
    have := hbnd x hx
    omega
  · rw [show ((0 : Nat) :: ((order ++ [nid]) ++ [0]))
        = ((0 :: order) ++ [nid, 0]) by simp]
    refine List.chain'_append.2 ⟨?_, ?_, ?_⟩
    · refine chain'_adj_transfer hndc (by simp) hsplit ?_ ?_
      · intro x hx hxl
        exact hnext_old x (hmem x hx) (fun hc => hxl (hc ▸ ha ▸ rfl))
      · intro x hx hxh
        have hx0 : x ≠ 0 := by simpa using hxh
        exact hprev_old x (hmem x hx) hx0
    · refine List.chain'_pair.2 ?_
      exact ⟨by rw [hnext_new]; rfl, by rw [hprev_0]⟩
    · intro x hx y hy
      rw [List.getLast?_eq_getLast _ (by simp)] at hx
      rw [Option.mem_def, Option.some_inj] at hx
      simp only [List.head?_cons, Option.mem_def, Option.some_inj] at hy
      subst hx
      subst hy
      rw [← ha]
      refine ⟨?_, by rw [hprev_new]⟩
      rw [hnext_a, fwdRef_pos (by omega)]

/-- Unlinking a single chain node (the surgery shared by `pop` and
`discard`): rerouting the predecessor's `next` and the successor's `prev`
removes exactly the chosen node from the cycle. -/
theorem chain_unlink {t : Top} {L R : List Nat} {i pre nR : Nat}
    (hC : ChainOK t (L ++ i :: R))
    (hpre : pre = ((0 : Nat) :: L).getLast (by simp))
    (hnR : nR = (R ++ [0]).head (by simp)) :
    prevF t.heap i = some (Ref.mk true pre) ∧
    nextF t.heap i = some (fwdRef nR) ∧
    pre ≠ i ∧ nR ≠ i ∧
    ∀ tbl, ChainOK
      { heap := setPrevF (setNextF t.heap pre (some (fwdRef nR))) nR
          (some (Ref.mk true pre)),
        table := tbl } (L ++ R) := by
  obtain ⟨hlen, hbnd, hnd, hchain⟩ := hC
  have hnd0 : ((0 : Nat) :: (L ++ i :: R)).Nodup :=
    List.nodup_cons.2 ⟨fun hx => (hbnd 0 hx).1 rfl, hnd⟩
  have hdisj : List.Disjoint L (i :: R) := List.disjoint_of_nodup_append hnd
  have hiR : i ∉ R := by
    have := (List.Nodup.of_append_right hnd)
    exact (List.nodup_cons.1 this).1
  have hiL : i ∉ L := fun hx => hdisj hx (by simp)
  have hi0 : i ≠ 0 := (hbnd i (by simp)).1
  have hilt : i < t.heap.length := (hbnd i (by simp)).2
  -- split the cycle around i
  have hch2 : List.Chain' (Adj t.heap) ((0 :: L) ++ [i])
      ∧ List.Chain' (Adj t.heap) (i :: (R ++ [0])) := by
    have hre : ((0 : Nat) :: ((L ++ i :: R) ++ [0]))
        = ((0 :: L) ++ i :: (R ++ [0])) := by simp
    rw [hre] at hchain
    exact List.chain'_split.1 hchain
  have hpremem : pre ∈ (0 : Nat) :: L := hpre ▸ List.getLast_mem _
  have hnRmem : nR ∈ R ++ [0] := hnR ▸ List.head_mem _
  have hAdjPre : Adj t.heap pre i := by
    obtain ⟨-, -, h3⟩ := List.chain'_append.1 hch2.1
    exact h3 pre (by rw [hpre]; simp [List.getLast?_eq_getLast]) i (by simp)
  have hBhead : (R ++ [0]).head? = some nR := by
    rw [hnR, List.head?_eq_head]
  obtain ⟨hAdjNxtF, hBchain⟩ := List.chain'_cons'.1 hch2.2
  have hAdjNxt : Adj t.heap i nR := hAdjNxtF nR hBhead
  have hprelt : pre < t.heap.length := by
    rcases List.mem_cons.1 hpremem with h0 | hL
    · omega
    · exact (hbnd pre (by simp [hL])).2
  have hnRlt : nR < t.heap.length := by
    rcases List.mem_append.1 hnRmem with hR | h0
    · exact (hbnd nR (by simp [hR])).2
    · simp at h0
      omega
  have hprei : pre ≠ i := by
    rcases List.mem_cons.1 hpremem with h0 | hL
    · omega
    · exact fun hc => hiL (hc ▸ hL)
  have hnRi : nR ≠ i := by
    rcases List.mem_append.1 hnRmem with hR | h0
    · exact fun hc => hiR (hc ▸ hR)
    · simp at h0
      omega
  refine ⟨hAdjPre.2, hAdjNxt.1, hprei, hnRi, ?_⟩
  intro tbl
  set h' := setPrevF (setNextF t.heap pre (some (fwdRef nR))) nR
      (some (Ref.mk true pre)) with hh'
  have hlen' : h'.length = t.heap.length := by rw [hh']; simp
  -- field facts on the new heap
  have hnext' : ∀ x, x ≠ pre → nextF h' x = nextF t.heap x := by
    intro x hx
    rw [hh', nextF_setPrevF, nextF_setNextF_ne (fun hc => hx hc.symm)]
  have hprev' : ∀ x, x ≠ nR → prevF h' x = prevF t.heap x := by
    intro x hx
    rw [hh', prevF_setPrevF_ne (fun hc => hx hc.symm), prevF_setNextF]
  have hnextPre : nextF h' pre = some (fwdRef nR) := by
    rw [hh', nextF_setPrevF, nextF_setNextF_eq hprelt]
  have hprevNR : prevF h' nR = some (Ref.mk true pre) := by
    rw [hh', prevF_setPrevF_eq (by simpa using hnRlt)]
    rfl
  have hLnodup : ((0 : Nat) :: L).Nodup := by
    have : List.Sublist ((0 : Nat) :: L) (0 :: (L ++ i :: R)) :=
      List.cons_sublist_cons.2 (List.sublist_append_left L (i :: R))
    exact hnd0.sublist this
  have hBnodup : (R ++ [0]).Nodup := by
    have hs : List.Sublist (R ++ [0]) ((L ++ i :: R) ++ [0]) := by
      refine List.Sublist.append ?_ (List.Sublist.refl _)
      exact (List.sublist_cons_self i R).trans (List.sublist_append_right L (i :: R))
    have hnd1 : ((L ++ i :: R) ++ [0]).Nodup := by
      refine List.Nodup.append hnd (List.nodup_singleton _) ?_
      intro x hx hy
      simp at hy
      subst hy
      rcases List.mem_append.1 hx with hxl | hxr
      · exact (hbnd 0 (by simp [hxl])).1 rfl
      · exact (hbnd 0 (by simp; right; simpa using hxr)).1 rfl
    exact hnd1.sublist hs
  refine ⟨by simp only []; omega, ?_, ?_, ?_⟩
  · intro x hx
    have : x ∈ L ++ i :: R := by
      rcases List.mem_append.1 hx with h | h
      · simp [h]
      · simp [h]
    have := hbnd x this
    simp only []
    omega
  · have hs : List.Sublist (L ++ R) (L ++ i :: R) :=
      (List.sublist_cons_self i R).append_left L
    exact hnd.sublist hs
  · rw [show ((0 : Nat) :: ((L ++ R) ++ [0])) = ((0 :: L) ++ (R ++ [0]))
      by simp]
    refine List.chain'_append.2 ⟨?_, ?_, ?_⟩
    · refine chain'_adj_transfer hLnodup (by simp) (List.chain'_append.1 hch2.1).1
        ?_ ?_
      · intro x hx hxl
        refine hnext' x ?_
        rw [hpre]
        exact hxl
      · intro x hx hxh
        have hx0 : x ≠ 0 := by simpa using hxh
        refine hprev' x ?_
        intro hc
        subst hc
        rcases List.mem_append.1 hnRmem with hR | h0
        · rcases List.mem_cons.1 hx with h | hL
          · exact hx0 h
          · exact hdisj hL (by simp [hR])
        · simp at h0
          exact hx0 h0
    · refine chain'_adj_transfer hBnodup (by simp) hBchain ?_ ?_
      · intro x hx hxl
        rw [List.getLast_append _] at hxl
        have hxR : x ∈ R := by
          rcases List.mem_append.1 hx with hR | h0
          · exact hR
          · exact absurd (by simpa using h0) hxl
        refine hnext' x ?_
        intro hc
        rcases List.mem_cons.1 hpremem with h0 | hL
        · exact hxl (hc.trans h0)
        · exact hdisj hL (by simp [hc ▸ hxR])
      · intro x hx hxh
        refine hprev' x ?_
        intro hc
        apply hxh
        rw [hc, hnR]
    · intro x hx y hy
      rw [List.getLast?_eq_getLast _ (by simp)] at hx
      rw [Option.mem_def, Option.some_inj] at hx
      rw [hBhead] at hy
      rw [Option.mem_def, Option.some_inj] at hy
      subst hy
      have hxpre : x = pre := by rw [← hx, hpre]
      subst hxpre
      exact ⟨hnextPre, hprevNR⟩

theorem pop_ok_elim {t : Top} {k : String} {t' : Top} {i : Nat}
    (hop : t.pop k = .ok (t', i)) :
    ∃ tbl p nx, odPop t.table k = some (i, tbl) ∧
      (getH t.heap i).prev = some p ∧
      (getH (setNextF t.heap p.id (getH t.heap i).next) i).next = some nx ∧
      t' = { heap := setPrevF (setNextF t.heap p.id (getH t.heap i).next) nx.id
               (getH (setNextF t.heap p.id (getH t.heap i).next) i).prev,
             table := tbl } := by
  unfold Top.pop at hop
  rcases hpop : odPop t.table k with _ | ⟨i0, tbl⟩ <;> rw [hpop] at hop
  · simp [orErr] at hop
  · simp only [orErr, exbind_pure_ok] at hop
    rcases hpv : (getH t.heap i0).prev with _ | p <;> rw [hpv] at hop
    · simp [orErr] at hop
    · simp only [orErr, exbind_pure_ok] at hop
      rcases hnv : (getH (setNextF t.heap p.id (getH t.heap i0).next) i0).next
          with _ | nx <;> rw [hnv] at hop
      · simp [orErr] at hop
      · simp only [orErr, exbind_pure_ok, Except.ok.injEq, Prod.mk.injEq] at hop
        obtain ⟨ht', hi⟩ := hop
        subst hi
        exact ⟨tbl, p, nx, rfl, hpv, hnv, ht'.symm⟩

theorem odPop_some {α : Type} {l : List (String × α)} {k : String} {v : α}
    {rest : List (String × α)} (h : odPop l k = some (v, rest)) :
    lookupA l k = some v ∧ rest = l.filter (fun e => e.1 ≠ k) := by
  unfold odPop at h
  rcases hl : lookupA l k with _ | w <;> rw [hl] at h
  · simp at h
  · simp only [Option.some.injEq, Prod.mk.injEq] at h
    exact ⟨by rw [h.1], h.2.symm⟩

theorem discard_eq_pop_of_present {t : Top} {k : String} {i0 : Nat}
    {tbl : List (String × Nat)} (hpop : odPop t.table k = some (i0, tbl)) :
    t.discard k = (t.pop k).map Prod.fst := by
  unfold Top.discard Top.pop
  rw [hpop]
  simp only [orErr, exbind_pure_ok]
  rcases (getH t.heap i0).prev with _ | p
  · rfl
  · simp only [orErr, exbind_pure_ok]
    rcases (getH (setNextF t.heap p.id (getH t.heap i0).next) i0).next with _ | nx
    · rfl
    · rfl

/-- Everything `pop` does on a well-formed topology: the key's table entry
goes away, the node's neighbours are linked to each other, and no key or
value of any heap cell changes. -/
theorem pop_shape {t : Top} {order : List Nat} {k : String} {t' : Top} {i : Nat}
    (hC : ChainOK t order) (hop : t.pop k = .ok (t', i)) :
    lookupA t.table k = some i ∧
    t'.table = t.table.filter (fun e => e.1 ≠ k) ∧
    t'.heap.length = t.heap.length ∧
    (∀ L R, order = L ++ i :: R → ChainOK t' (L ++ R)) ∧
    (∀ j, keyF t'.heap j = keyF t.heap j ∧ valueF t'.heap j = valueF t.heap j) := by
  obtain ⟨tbl, p, nx, hpop, hp, hnx, ht'⟩ := pop_ok_elim hop
  obtain ⟨hlook, htbl⟩ := odPop_some hpop
  refine ⟨hlook, by rw [ht', htbl], by rw [ht']; simp, ?_, ?_⟩
  · intro L R hsplit
    subst hsplit
    obtain ⟨hpi, hni, hprei, hnRi, hCK⟩ := chain_unlink hC rfl rfl
    set pre := ((0 : Nat) :: L).getLast (by simp) with hpre
    set nR : Nat := (R ++ [0]).head (by simp) with hnRd
    have hpval : p = Ref.mk true pre := by
      rw [show (getH t.heap i).prev = prevF t.heap i from rfl, hpi] at hp
      exact (Option.some_inj.1 hp).symm
    have hndsame : getH (setNextF t.heap p.id (getH t.heap i).next) i
        = getH t.heap i := by
      rw [hpval]
      exact getH_set_ne _ _ _ _ (by simpa using hprei)
    have hnxval : nx = fwdRef nR := by
      rw [hndsame, show (getH t.heap i).next = nextF t.heap i from rfl, hni] at hnx
      exact (Option.some_inj.1 hnx).symm
    have hheap : t'.heap = setPrevF (setNextF t.heap pre (some (fwdRef nR))) nR
        (some (Ref.mk true pre)) := by
      rw [ht']
      show setPrevF (setNextF t.heap p.id (getH t.heap i).next) nx.id
        (getH (setNextF t.heap p.id (getH t.heap i).next) i).prev = _
      rw [hndsame]
      rw [show (getH t.heap i).next = nextF t.heap i from rfl, hni,
        show (getH t.heap i).prev = prevF t.heap i from rfl, hpi,
        hpval, hnxval]
      simp
    have := hCK t'.table
    have hteq : t' = { heap := t'.heap, table := t'.table } := rfl
    rw [hteq, hheap]
    exact this
  · intro j
    rw [ht']
    exact ⟨by simp, by simp⟩

/-- `discard` on a present key behaves like `pop`; on an absent key it is a
no-op. -/
theorem discard_shape {t : Top} {order : List Nat} {k : String} {t' : Top}
    (hC : ChainOK t order) (hop : t.discard k = .ok t') :
    (lookupA t.table k = none ∧ t' = t) ∨
    (∃ i, lookupA t.table k = some i ∧
      t'.table = t.table.filter (fun e => e.1 ≠ k) ∧
      t'.heap.length = t.heap.length ∧
      (∀ L R, order = L ++ i :: R → ChainOK t' (L ++ R)) ∧
      (∀ j, keyF t'.heap j = keyF t.heap j ∧ valueF t'.heap j = valueF t.heap j)) := by
  rcases hpop : odPop t.table k with _ | ⟨i0, tbl⟩
  · left
    unfold Top.discard at hop
    rw [hpop] at hop
    have ht : t' = t := by
      simpa using hop.symm
    unfold odPop at hpop
    rcases hl : lookupA t.table k with _ | w <;> rw [hl] at hpop
    · exact ⟨rfl, ht⟩
    · simp at hpop
  · right
    have hde : t.discard k = (t.pop k).map Prod.fst :=
      discard_eq_pop_of_present hpop
    rw [hde, exmap_ok] at hop
    obtain ⟨⟨t'', i⟩, hpok, ht''⟩ := hop
    subst ht''
    have := pop_shape hC hpok
    exact ⟨i, this.1, this.2.1, this.2.2.1, this.2.2.2.1, this.2.2.2.2⟩

/-- In the cycle of `L ++ R`, the last node of `0 :: L` and the first node of
`R ++ [0]` are adjacent. -/
theorem chain_gap {t : Top} {L R : List Nat} (hC : ChainOK t (L ++ R)) :
    Adj t.heap (((0 : Nat) :: L).getLast (by simp)) ((R ++ [0]).head (by simp)) := by
  obtain ⟨-, -, -, hchain⟩ := hC
  rw [show ((0 : Nat) :: ((L ++ R) ++ [0])) = ((0 :: L) ++ (R ++ [0])) by simp]
    at hchain
  obtain ⟨-, -, hlink⟩ := List.chain'_append.1 hchain
  exact hlink _ (by simp [List.getLast?_eq_getLast]) _ (by simp [List.head?_eq_head])

/-- Boundary links of a non-empty run `D` inside the cycle of `L ++ D ++ R`. -/
theorem chain_boundary {t : Top} {L D R : List Nat} (hC : ChainOK t (L ++ D ++ R))
    (hD : D ≠ []) :
    prevF t.heap (D.head hD) =
      some (Ref.mk true (((0 : Nat) :: L).getLast (by simp))) ∧
    nextF t.heap (D.getLast hD) = some (fwdRef ((R ++ [0]).head (by simp))) := by
  obtain ⟨-, -, -, hchain⟩ := hC
  rw [show ((0 : Nat) :: ((L ++ D ++ R) ++ [0]))
      = ((0 :: L) ++ (D ++ (R ++ [0]))) by simp] at hchain
  obtain ⟨h1, h2, hlink⟩ := List.chain'_append.1 hchain
  constructor
  · have hmem : D.head hD ∈ (D ++ (R ++ [0])).head? := by
      rcases D with _ | ⟨d, D'⟩
      · exact absurd rfl hD
      · simp
    have := hlink (((0 : Nat) :: L).getLast (by simp))
      (by simp [List.getLast?_eq_getLast]) (D.head hD) hmem
    exact this.2
  · obtain ⟨-, h4, hlink2⟩ := List.chain'_append.1 h2
    have := hlink2 (D.getLast hD) (by simp [List.getLast?_eq_getLast _ hD])
      ((R ++ [0]).head (by simp)) (by simp [List.head?_eq_head])
    exact this.1

/-- The general chain surgery: replace the run `D` of the cycle `L ++ D ++ R`
by freshly allocated nodes `M`, given that the new heap keeps all links of the
outer segments and carries a correct path `pre → M → nR` across the gap. -/
theorem chain_surgery {t : Top} {G : Heap} {W : List (String × Nat)}
    {L D R M : List Nat}
    (hC : ChainOK t (L ++ D ++ R))
    (hlen' : t.heap.length ≤ G.length)
    (hfresh : ∀ m ∈ M, t.heap.length ≤ m ∧ m < G.length)
    (hMnd : M.Nodup)
    (hupd_next : ∀ x, x < t.heap.length →
      x ≠ ((0 : Nat) :: L).getLast (by simp) → x ∉ D →
      nextF G x = nextF t.heap x)
    (hupd_prev : ∀ x, x < t.heap.length → x ≠ (R ++ [0]).head (by simp) →
      x ∉ D → prevF G x = prevF t.heap x)
    (h5 : List.Chain' (Adj G) ((((0 : Nat) :: L).getLast (by simp)) ::
      (M ++ [(R ++ [0]).head (by simp)]))) :
    ChainOK { heap := G, table := W } (L ++ M ++ R) := by
  obtain ⟨hlen, hbnd, hnd, hchain⟩ := hC
  set pre := ((0 : Nat) :: L).getLast (by simp) with hpre
  set nR : Nat := (R ++ [0]).head (by simp) with hnR
  have hLbnd : ∀ x ∈ L, x ≠ 0 ∧ x < t.heap.length := fun x hx =>
    hbnd x (by simp [hx])
  have hRbnd : ∀ x ∈ R, x ≠ 0 ∧ x < t.heap.length := fun x hx =>
    hbnd x (by simp [hx])
  have hchain2 := hchain
  rw [show ((0 : Nat) :: ((L ++ D ++ R) ++ [0]))
      = ((0 :: L) ++ (D ++ (R ++ [0]))) by simp] at hchain2
  obtain ⟨hchL, hchDR, -⟩ := List.chain'_append.1 hchain2
  obtain ⟨-, hchR, -⟩ := List.chain'_append.1 hchDR
  have hassoc : L ++ D ++ R = L ++ (D ++ R) := by simp
  have hnd2 : (L ++ (D ++ R)).Nodup := hassoc ▸ hnd
  obtain ⟨hLnd, hDRnd, hdisjLDR⟩ := List.nodup_append.1 hnd2
  obtain ⟨hDnd, hRnd, hdisjDR⟩ := List.nodup_append.1 hDRnd
  have h0L : (0 : Nat) ∉ L := fun hx => (hLbnd 0 hx).1 rfl
  have h0R : (0 : Nat) ∉ R := fun hx => (hRbnd 0 hx).1 rfl
  have hLnodup : ((0 : Nat) :: L).Nodup := List.nodup_cons.2 ⟨h0L, hLnd⟩
  have hBnodup : (R ++ [0]).Nodup := by
    refine List.nodup_append.2 ⟨hRnd, List.nodup_singleton _, ?_⟩
    intro x hx hy
    simp at hy
    subst hy
    exact h0R hx
  have hpremem : pre ∈ (0 : Nat) :: L := hpre ▸ List.getLast_mem _
  have hnRmem : nR ∈ R ++ [0] := hnR ▸ List.head_mem _
  have hMfresh : ∀ m ∈ M, m ∉ (0 : Nat) :: L ∧ m ∉ R ++ [0] := by
    intro m hm
    obtain ⟨hge, -⟩ := hfresh m hm
    constructor
    · intro hmem
      rcases List.mem_cons.1 hmem with h | h
      · omega
      · have := (hLbnd m h).2
        omega
    · intro hmem
      rcases List.mem_append.1 hmem with h | h
      · have := (hRbnd m h).2
        omega
      · simp at h
        omega
  have hBhead : (R ++ [0]).head? = some nR := by
    rw [hnR]
    simp [List.head?_eq_head]
  have hLlast : ((0 : Nat) :: L).getLast? = some pre := by
    rw [hpre]
    simp [List.getLast?_eq_getLast]
  have h5' : List.Chain' (Adj G) ((pre :: M) ++ [nR]) := by
    simpa using h5
  obtain ⟨hchPM, -, hlinkPM⟩ := List.chain'_append.1 h5'
  obtain ⟨hheadPM, hchM⟩ := List.chain'_cons'.1 hchPM
  have h0D : (0 : Nat) ∉ D := fun hx => (hbnd 0 (by simp [hx])).1 rfl
  have h1 : ∀ x ∈ (0 : Nat) :: L, x ≠ pre → nextF G x = nextF t.heap x := by
    intro x hx hxp
    rcases List.mem_cons.1 hx with h | h
    · exact hupd_next x (h ▸ hlen) hxp (h ▸ h0D)
    · exact hupd_next x (hLbnd x h).2 hxp (fun hd => hdisjLDR h (by simp [hd]))
  have h2 : ∀ x ∈ (0 : Nat) :: L, x ≠ 0 → prevF G x = prevF t.heap x := by
    intro x hx hx0
    rcases List.mem_cons.1 hx with h | h
    · exact absurd h hx0
    · refine hupd_prev x (hLbnd x h).2 ?_ (fun hd => hdisjLDR h (by simp [hd]))
      intro hc
      rcases List.mem_append.1 (hc ▸ hnRmem) with hR | hz
      · exact hdisjLDR h (by simp [hR])
      · simp at hz
        exact hx0 hz
  have h3 : ∀ x ∈ R ++ [0], x ≠ 0 → nextF G x = nextF t.heap x := by
    intro x hx hx0
    have hxR : x ∈ R := by
      rcases List.mem_append.1 hx with h | h
      · exact h
      · simp at h
        exact absurd h hx0
    refine hupd_next x (hRbnd x hxR).2 ?_ (fun hd => hdisjDR hd hxR)
    intro hc
    rcases List.mem_cons.1 (hc ▸ hpremem) with hz | hL
    · exact hx0 hz
    · exact hdisjLDR hL (by simp [hxR])
  have h4 : ∀ x ∈ R ++ [0], x ≠ nR → prevF G x = prevF t.heap x := by
    intro x hx hxn
    rcases List.mem_append.1 hx with h | h
    · exact hupd_prev x (hRbnd x h).2 hxn (fun hd => hdisjDR hd h)
    · simp at h
      exact hupd_prev x (h ▸ hlen) hxn (h ▸ h0D)
  refine ⟨by simp only []; omega, ?_, ?_, ?_⟩
  · intro x hx
    simp only []
    rcases List.mem_append.1 hx with hx | hxR
    · rcases List.mem_append.1 hx with hxL | hxM
      · have := hLbnd x hxL
        omega
      · have := hfresh x hxM
        have hle := hlen
        omega
    · have := hRbnd x hxR
      omega
  · refine List.nodup_append.2 ⟨List.nodup_append.2 ⟨hLnd, hMnd, ?_⟩, hRnd, ?_⟩
    · intro x hxL hxM
      exact (hMfresh x hxM).1 (by simp [hxL])
    · intro x hx hxR
      rcases List.mem_append.1 hx with hxL | hxM
      · exact hdisjLDR hxL (by simp [hxR])
      · exact (hMfresh x hxM).2 (by simp [hxR])
  · rw [show ((0 : Nat) :: ((L ++ M ++ R) ++ [0]))
        = ((0 :: L) ++ (M ++ (R ++ [0]))) by simp]
    refine List.chain'_append.2 ⟨?_, ?_, ?_⟩
    · exact chain'_adj_transfer hLnodup (by simp) hchL
        (fun x hx hxl => h1 x hx (by rw [hpre]; exact hxl))
        (fun x hx hxh => h2 x hx (by simpa using hxh))
    · refine List.chain'_append.2 ⟨hchM, ?_, ?_⟩
      · exact chain'_adj_transfer hBnodup (by simp) hchR
          (fun x hx hxl => h3 x hx (by
            rw [List.getLast_append _] at hxl
            exact hxl))
          (fun x hx hxh => h4 x hx (by rw [hnR]; exact hxh))
      · intro x hx y hy
        have hyR : y = nR := by
          rw [hBhead] at hy
          rw [Option.mem_def, Option.some_inj] at hy
          exact hy.symm
        subst hyR
        rcases M with _ | ⟨m0, M'⟩
        · simp at hx
        · have hMne : (m0 :: M') ≠ [] := by simp
          have hxlast : x = (m0 :: M').getLast hMne := by
            rw [List.getLast?_eq_getLast _ hMne] at hx
            rw [Option.mem_def, Option.some_inj] at hx
            exact hx.symm
          subst hxlast
          have := hlinkPM ((pre :: m0 :: M').getLast (by simp))
            (by simp [List.getLast?_eq_getLast]) nR (by simp)
          rw [List.getLast_cons hMne] at this
          exact this
    · intro x hx y hy
      have hxpre : x = pre := by
        rw [hLlast] at hx
        rw [Option.mem_def, Option.some_inj] at hx
        exact hx.symm
      subst hxpre
      rcases M with _ | ⟨m0, M'⟩
      · simp only [List.nil_append] at hy
        have hynR : y = nR := by
          rw [hBhead] at hy
          rw [Option.mem_def, Option.some_inj] at hy
          exact hy.symm
        subst hynR
        have := hlinkPM pre (by simp) nR (by simp)
        exact this
      · simp only [List.cons_append, List.head?_cons, Option.mem_def,
          Option.some_inj] at hy
        subst hy
        exact hheadPM m0 (by simp)

theorem replace_ok_elim {t : Top} {k : String} {v : NodeValue} {t' : Top}
    (hop : t.replace k v = .ok t') :
    ∃ i tbl p nx, odPop t.table k = some (i, tbl) ∧
      ((getH (t.heap ++ [{ key := some k, value := some v, prev := (getH t.heap i).prev.map ensureProxy, next := (getH t.heap i).next : HNode }]) t.heap.length).prev = some p) ∧
      ((getH (setNextF (t.heap ++ [{ key := some k, value := some v, prev := (getH t.heap i).prev.map ensureProxy, next := (getH t.heap i).next : HNode }]) p.id (some (realRef t.heap.length))) t.heap.length).next = some nx) ∧
      t' = { heap := setPrevF (setNextF (t.heap ++ [{ key := some k, value := some v, prev := (getH t.heap i).prev.map ensureProxy, next := (getH t.heap i).next : HNode }]) p.id (some (realRef t.heap.length))) nx.id (some (Ref.mk true t.heap.length)), table := odUpdate tbl k t.heap.length } := by
  unfold Top.replace at hop
  rcases hpop : odPop t.table k with _ | ⟨i0, tbl⟩ <;> rw [hpop] at hop
  · simp [orErr] at hop
  · simp only [orErr, exbind_pure_ok] at hop
    rcases hpv : (getH (t.heap ++ [{ key := some k, value := some v, prev := (getH t.heap i0).prev.map ensureProxy, next := (getH t.heap i0).next : HNode }]) t.heap.length).prev
        with _ | p <;> rw [hpv] at hop
    · simp [orErr] at hop
    · simp only [orErr, exbind_pure_ok] at hop
      rcases hnv : (getH (setNextF (t.heap ++ [{ key := some k, value := some v, prev := (getH t.heap i0).prev.map ensureProxy, next := (getH t.heap i0).next : HNode }]) p.id (some (realRef t.heap.length))) t.heap.length).next
          with _ | nx <;> rw [hnv] at hop
      · simp [orErr] at hop
      · simp only [orErr, exbind_pure_ok, Except.ok.injEq] at hop
        exact ⟨i0, tbl, p, nx, rfl, hpv, hnv, hop.symm⟩

/-- Everything `replace` does on a well-formed topology: the key must be
present; a fresh node with the same key and the new value takes over the old
node's position; all other nodes are untouched. -/
theorem replace_shape {t : Top} {order : List Nat} {k : String} {v : NodeValue}
    {t' : Top} (hC : ChainOK t order) (hop : t.replace k v = .ok t') :
    ∃ i, lookupA t.table k = some i ∧
    t'.table = odUpdate (t.table.filter (fun e => e.1 ≠ k)) k t.heap.length ∧
    t'.heap.length = t.heap.length + 1 ∧
    (∀ L R, order = L ++ i :: R → ChainOK t' (L ++ t.heap.length :: R)) ∧
    keyF t'.heap t.heap.length = some k ∧
    valueF t'.heap t.heap.length = some v ∧
    (∀ j, j < t.heap.length →
      keyF t'.heap j = keyF t.heap j ∧ valueF t'.heap j = valueF t.heap j) := by
  obtain ⟨i, tbl, p, nx, hpop, hpv, hnv, ht'⟩ := replace_ok_elim hop
  obtain ⟨hlook, htbl⟩ := odPop_some hpop
  set nid := t.heap.length with hnid
  set nd : HNode := { key := some k, value := some v, prev := (getH t.heap i).prev.map ensureProxy, next := (getH t.heap i).next : HNode } with hnd
  have hself : getH (t.heap ++ [nd]) nid = nd := by
    rw [hnid, getH_append_len]
  refine ⟨i, hlook, by rw [ht', htbl], by rw [ht']; simp, ?_, ?_, ?_, ?_⟩
  · intro L R hsplit
    subst hsplit
    have hCb : ChainOK t (L ++ [i] ++ R) := by simpa using hC
    obtain ⟨hbprev, hbnext⟩ := chain_boundary hCb (by simp)
    simp only [List.head_cons, List.getLast_singleton] at hbprev hbnext
    set pre := ((0 : Nat) :: L).getLast (by simp) with hpre
    set nR : Nat := (R ++ [0]).head (by simp) with hnRd
    obtain ⟨hlen, hbnd, -, -⟩ := hC
    have hilt : i < t.heap.length := (hbnd i (by simp)).2
    have hprelt : pre < t.heap.length := by
      have := chain_gap (t := t) (L := L) (R := R ++ [i] ++ R)
      rcases List.mem_cons.1 (hpre ▸ List.getLast_mem
        (l := (0 : Nat) :: L) (by simp)) with h | h
      · omega
      · exact (hbnd pre (by simp [h])).2
    have hnRlt : nR < t.heap.length := by
      rcases List.mem_append.1 (hnRd ▸ List.head_mem
        (l := R ++ [0]) (by simp)) with h | h
      · exact (hbnd nR (by simp [h])).2
      · simp at h
        omega
    have hpval : p = Ref.mk true pre := by
      rw [hself] at hpv
      rw [hnd] at hpv
      simp only [] at hpv
      rw [show (getH t.heap i).prev = prevF t.heap i from rfl, hbprev] at hpv
      simpa using hpv.symm
    have hprene : p.id ≠ nid := by
      rw [hpval]
      simp only []
      omega
    have hnxval : nx = fwdRef nR := by
      rw [show getH (setNextF (t.heap ++ [nd]) p.id (some (realRef nid))) nid
          = getH (t.heap ++ [nd]) nid from
            getH_set_ne _ _ _ _ hprene, hself, hnd] at hnv
      simp only [] at hnv
      rw [show (getH t.heap i).next = nextF t.heap i from rfl, hbnext] at hnv
      simpa using hnv.symm
    have hheap : t'.heap = setPrevF (setNextF (t.heap ++ [nd]) pre
        (some (realRef nid))) nR (some (Ref.mk true nid)) := by
      rw [ht']
      show setPrevF (setNextF (t.heap ++ [nd]) p.id (some (realRef nid)))
        nx.id (some (Ref.mk true nid)) = _
      rw [hpval, hnxval]
      simp
    have hres := chain_surgery (G := t'.heap) (W := t'.table)
      (M := [nid]) hCb (by rw [hheap]; simp)
      (by
        intro m hm
        simp at hm
        subst hm
        rw [hheap]
        constructor
        · omega
        · simp)
      (List.nodup_singleton _)
      (by
        intro x hx hxp hxD
        rw [hheap, nextF_setPrevF,
          nextF_setNextF_ne (fun hc => hxp (by rw [← hc, hpre])),
          nextF_append_lt hx])
      (by
        intro x hx hxn hxD
        rw [hheap, prevF_setPrevF_ne (fun hc => hxn (by rw [← hc, hnRd])),
          prevF_setNextF, prevF_append_lt hx])
      (by
        show List.Chain' (Adj t'.heap) [pre, nid, nR]
        refine List.chain'_cons.2 ⟨?_, List.chain'_pair.2 ?_⟩
        · constructor
          · rw [hheap, nextF_setPrevF, nextF_setNextF_eq (by simp; omega),
              fwdRef_pos (by omega)]
          · rw [hheap, prevF_setPrevF_ne (by omega : nR ≠ nid), prevF_setNextF,
              show prevF (t.heap ++ [nd]) nid = nd.prev from by
                rw [prevF, hself], hnd]
            simp only []
            rw [show (getH t.heap i).prev = prevF t.heap i from rfl, hbprev]
            rfl
        · constructor
          · rw [hheap, nextF_setPrevF,
              nextF_setNextF_ne (by omega : pre ≠ nid),
              show nextF (t.heap ++ [nd]) nid = nd.next from by
                rw [nextF, hself], hnd]
            simp only []
            rw [show (getH t.heap i).next = nextF t.heap i from rfl, hbnext]
          · rw [hheap, prevF_setPrevF_eq (by simp; omega)]
            rfl)
    have : t' = { heap := t'.heap, table := t'.table } := rfl
    rw [this]
    simpa using hres
  · rw [ht']
    show keyF (setPrevF (setNextF (t.heap ++ [nd]) p.id
      (some (realRef nid))) nx.id (some (Ref.mk true nid))) nid = some k
    rw [keyF_setPrevF, keyF_setNextF, keyF, hself]
  · rw [ht']
    show valueF (setPrevF (setNextF (t.heap ++ [nd]) p.id
      (some (realRef nid))) nx.id (some (Ref.mk true nid))) nid = some v
    rw [valueF_setPrevF, valueF_setNextF, valueF, hself]
  · intro j hj
    rw [ht']
    constructor
    · show keyF (setPrevF (setNextF (t.heap ++ [nd]) p.id
        (some (realRef nid))) nx.id (some (Ref.mk true nid))) j = _
      rw [keyF_setPrevF, keyF_setNextF, keyF_append_lt hj]
    · show valueF (setPrevF (setNextF (t.heap ++ [nd]) p.id
        (some (realRef nid))) nx.id (some (Ref.mk true nid))) j = _
      rw [valueF_setPrevF, valueF_setNextF, valueF_append_lt hj]

theorem Adj.append {h l : Heap} {a b : Nat} (ha : Adj h a b) : Adj (h ++ l) a b := by
  have halt : a < h.length := by
    by_contra hcon
    have hget := getH_of_length_le h a (by omega)
    have hn : nextF h a = none := by rw [nextF, hget]
    have h1 := ha.1
    rw [hn] at h1
    simp at h1
  have hblt : b < h.length := by
    by_contra hcon
    have hget := getH_of_length_le h b (by omega)
    have hn : prevF h b = none := by rw [prevF, hget]
    have h1 := ha.2
    rw [hn] at h1
    simp at h1
  exact ⟨by rw [nextF_append_lt halt]; exact ha.1,
    by rw [prevF_append_lt hblt]; exact ha.2⟩

/-- Appending fresh (still unlinked) cells to the heap and changing the table
does not disturb the chain invariant. -/
theorem ChainOK.append_heap {t : Top} {order : List Nat} (hC : ChainOK t order)
    (l : Heap) (tbl : List (String × Nat)) :
    ChainOK { heap := t.heap ++ l, table := tbl } order := by
  obtain ⟨hlen, hbnd, hnd, hchain⟩ := hC
  refine ⟨by simp only []; simp; omega, ?_, hnd, ?_⟩
  · intro x hx
    have := hbnd x hx
    simp only []
    simp
    omega
  · exact hchain.imp (fun a b hab => hab.append)

/-- The link surgery performed by `insert` (both the found-index case and
the append-at-end case): the new node is spliced between the last node of
the first `index` positions and the rest. -/
theorem insert_link_shape {t : Top} {order : List Nat} {index : Nat}
    {k : String} {v : NodeValue} {t' : Top} {pre nR : Nat}
    (hC : ChainOK t order)
    (hpre : pre = ((0 : Nat) :: order.take index).getLast (by simp))
    (hnR : nR = ((order.drop index) ++ [0]).head (by simp))
    (htbl : t'.table = odUpdate t.table k t.heap.length)
    (hheap : t'.heap = setPrevF (setNextF (setPrevF (setNextF
      (t.heap ++ [{ key := some k, value := some v : HNode }])
      pre (some (realRef t.heap.length))) t.heap.length
      (some (Ref.mk true pre))) t.heap.length (some (fwdRef nR))) nR
      (some (Ref.mk true t.heap.length))) :
    t'.heap.length = t.heap.length + 1 ∧
    ChainOK t' (order.take index ++ t.heap.length :: order.drop index) ∧
    keyF t'.heap t.heap.length = some k ∧
    valueF t'.heap t.heap.length = some v ∧
    (∀ j, j < t.heap.length →
      keyF t'.heap j = keyF t.heap j ∧ valueF t'.heap j = valueF t.heap j) := by
  subst hpre
  subst hnR
  set pre := ((0 : Nat) :: order.take index).getLast (by simp) with hpre
  set nR : Nat := ((order.drop index) ++ [0]).head (by simp) with hnR
  set nid := t.heap.length with hnid
  have hCsplit : ChainOK t (order.take index ++ [] ++ order.drop index) := by
    rw [List.append_nil, List.take_append_drop]
    exact hC
  obtain ⟨hlen, hbnd, -, -⟩ := hC
  have hpremem : pre ∈ (0 : Nat) :: order.take index :=
    hpre ▸ List.getLast_mem _
  have hprelt : pre < t.heap.length := by
    rcases List.mem_cons.1 hpremem with h | h
    · omega
    · exact (hbnd pre (List.mem_of_mem_take h)).2
  have hnRmem : nR ∈ (order.drop index) ++ [0] := hnR ▸ List.head_mem _
  have hnRlt : nR < t.heap.length := by
    rcases List.mem_append.1 hnRmem with h | h
    · exact (hbnd nR (List.mem_of_mem_drop h)).2
    · simp at h
      omega
  have hlen' : t'.heap.length = t.heap.length + 1 := by rw [hheap]; simp
  have hkeynew : keyF t'.heap nid = some k := by
    rw [hheap, keyF_setPrevF, keyF_setNextF, keyF_setPrevF, keyF_setNextF,
      keyF, hnid, getH_append_len]
  have hvalnew : valueF t'.heap nid = some v := by
    rw [hheap, valueF_setPrevF, valueF_setNextF, valueF_setPrevF,
      valueF_setNextF, valueF, hnid, getH_append_len]
  have hkvold : ∀ j, j < t.heap.length →
      keyF t'.heap j = keyF t.heap j ∧ valueF t'.heap j = valueF t.heap j := by
    intro j hj
    constructor
    · rw [hheap, keyF_setPrevF, keyF_setNextF, keyF_setPrevF, keyF_setNextF,
        keyF_append_lt hj]
    · rw [hheap, valueF_setPrevF, valueF_setNextF, valueF_setPrevF,
        valueF_setNextF, valueF_append_lt hj]
  refine ⟨hlen', ?_, hkeynew, hvalnew, hkvold⟩
  have hres := chain_surgery (G := t'.heap) (W := t'.table)
    (M := [nid]) hCsplit (by omega)
    (by
      intro m hm
      simp at hm
      subst hm
      omega)
    (List.nodup_singleton _)
    (by
      intro x hx hxp hxD
      rw [hheap, nextF_setPrevF, nextF_setNextF_ne (by omega : nid ≠ x),
        nextF_setPrevF, nextF_setNextF_ne (fun hc => hxp (by rw [← hc, hpre])),
        nextF_append_lt hx])
    (by
      intro x hx hxn hxD
      rw [hheap, prevF_setPrevF_ne (fun hc => hxn (by rw [← hc, hnR])),
        prevF_setNextF, prevF_setPrevF_ne (by omega : nid ≠ x),
        prevF_setNextF, prevF_append_lt hx])
    (by
      refine List.chain'_cons.2 ⟨?_, List.chain'_pair.2 ?_⟩
      · constructor
        · rw [hheap, nextF_setPrevF, nextF_setNextF_ne (by omega : nid ≠ pre),
            nextF_setPrevF, nextF_setNextF_eq (by simp; omega),
            fwdRef_pos (by omega)]
        · rw [hheap, prevF_setPrevF_ne (by omega : nR ≠ nid), prevF_setNextF,
            prevF_setPrevF_eq (by simp)]
          rfl
      · constructor
        · rw [hheap, nextF_setPrevF, nextF_setNextF_eq (by simp)]
        · rw [hheap, prevF_setPrevF_eq (by simp; omega)]
          rfl)
  have : t' = { heap := t'.heap, table := t'.table } := rfl
  rw [this]
  simpa using hres

/-- Everything `insert` does on a well-formed topology: the key was free and
the node lands immediately before position `index` (at the end if `index`
is past the last position). -/
theorem insert_shape {t : Top} {order : List Nat} {index : Nat} {k : String}
    {v : NodeValue} {t' : Top} (hC : ChainOK t order)
    (hop : t.insert index k v = .ok t') :
    lookupA t.table k = none ∧
    t'.table = odUpdate t.table k t.heap.length ∧
    t'.heap.length = t.heap.length + 1 ∧
    ChainOK t' (order.take index ++ t.heap.length :: order.drop index) ∧
    keyF t'.heap t.heap.length = some k ∧
    valueF t'.heap t.heap.length = some v ∧
    (∀ j, j < t.heap.length →
      keyF t'.heap j = keyF t.heap j ∧ valueF t'.heap j = valueF t.heap j) := by
  unfold Top.insert addNodeCheck at hop
  set nid := t.heap.length with hnid
  set nd : HNode := { key := some k, value := some v : HNode } with hnd
  by_cases hk : (lookupA t.table k).isSome
  · rw [if_pos hk] at hop
    simp at hop
  · rw [if_neg hk] at hop
    have hfree : lookupA t.table k = none := by
      rcases hcase : lookupA t.table k with _ | w
      · rfl
      · simp [hcase] at hk
    have hC0 : ChainOK { heap := t.heap ++ [nd], table := odUpdate t.table k nid }
        order := hC.append_heap _ _
    simp only [exbind_pure_ok] at hop
    rw [fwdRefs_spec hC0] at hop
    simp only [exbind_pure_ok] at hop
    rcases hidx : (order.map realRef)[index]? with _ | nx <;> rw [hidx] at hop
    · -- for-else: append at the end
      have hge : order.length ≤ index := by
        have := List.getElem?_eq_none_iff.1 (by simpa using hidx)
        simpa using this
      obtain ⟨hsplit0, hadj0⟩ := hC.chain_split
      obtain ⟨hlen, hbnd, -, -⟩ := id hC
      set a := ((0 : Nat) :: order).getLast (by simp) with ha
      have halt : a < t.heap.length := by
        rcases List.mem_cons.1 (ha ▸ List.getLast_mem
          (l := (0 : Nat) :: order) (by simp)) with h | h
        · omega
        · exact (hbnd a h).2
      have hroot : (getH (t.heap ++ [nd]) 0).prev = some (Ref.mk true a) := by
        rw [show (getH (t.heap ++ [nd]) 0).prev = prevF (t.heap ++ [nd]) 0
          from rfl, prevF_append_lt hlen]
        exact hadj0.2
      rw [hroot] at hop
      simp only [orErr, exbind_pure_ok] at hop
      have hnexta : (getH (t.heap ++ [nd]) (Ref.mk true a).id).next
          = some rootRef := by
        rw [show (getH (t.heap ++ [nd]) (Ref.mk true a).id).next
          = nextF (t.heap ++ [nd]) a from rfl, nextF_append_lt halt]
        exact hadj0.1
      rw [hnexta] at hop
      simp only [orErr, expure_ok, exbind_pure_ok, Except.ok.injEq] at hop
      have ht' : t' = { heap := connectF (connectF (t.heap ++ [nd]) (Ref.mk true a) (realRef nid) true) (realRef nid) rootRef true, table := odUpdate t.table k nid } := hop.symm
      have hheap : t'.heap = setPrevF (setNextF (setPrevF (setNextF
          (t.heap ++ [nd]) a (some (realRef nid))) nid
          (some (Ref.mk true a))) nid (some (fwdRef 0))) 0
          (some (Ref.mk true nid)) := by
        rw [ht']
        simp [connectF, ensureProxy, rootRef, fwdRef]
      have hres := @insert_link_shape _ _ index k v _ a 0 hC
        (by rw [ha, List.take_of_length_le hge])
        (by
          have h1 : ((order.drop index) ++ [0]).head? = some 0 := by
            rw [List.drop_eq_nil_of_le hge]
            rfl
          rw [List.head?_eq_head (by simp)] at h1
          exact (Option.some.inj h1).symm)
        (by rw [ht'])
        hheap
      exact ⟨hfree, by rw [ht'], hres.1, hres.2.1, hres.2.2.1, hres.2.2.2.1,
        hres.2.2.2.2⟩
    · -- found position `index`
      have hex : ∃ hlt : index < (order.map realRef).length,
          (order.map realRef)[index] = nx := by
        rw [List.getElem?_eq_some] at hidx
        exact hidx
      obtain ⟨hlt0, hnxval⟩ := hex
      have hlt : index < order.length := by simpa using hlt0
      have hnx : nx = realRef (order[index]) := by
        rw [← hnxval]
        simp
      obtain ⟨hlen, hbnd, -, -⟩ := id hC
      have hCsplit : ChainOK t (order.take index ++ order.drop index) := by
        rw [List.take_append_drop]
        exact hC
      have hgap := chain_gap hCsplit
      set pre := ((0 : Nat) :: order.take index).getLast (by simp) with hpre
      have hdropc : order.drop index = (order[index]) :: order.drop (index + 1) :=
        List.drop_eq_getElem_cons hlt
      have hheadd : ((order.drop index) ++ [0]).head (by simp)
          = order[index] := by
        have h1 : ((order.drop index) ++ [0]).head? = some (order[index]) := by
          rw [hdropc]
          rfl
        rw [List.head?_eq_head (by simp)] at h1
        exact Option.some.inj h1
      have hixbnd := hbnd (order[index]) (List.getElem_mem hlt)
      have hprev_ix : (getH (t.heap ++ [nd]) nx.id).prev
          = some (Ref.mk true pre) := by
        rw [hnx]
        rw [show (getH (t.heap ++ [nd]) (realRef (order[index])).id).prev
          = prevF (t.heap ++ [nd]) (order[index]) from rfl,
          prevF_append_lt hixbnd.2]
        have := hgap.2
        rw [hheadd] at this
        exact this
      have hop2 : (orErr (getH (t.heap ++ [nd]) nx.id).prev PyErr.assertionError >>=
          fun p => Except.ok { heap := connectF (connectF (t.heap ++ [nd]) p (realRef nid) true) (realRef nid) nx true, table := odUpdate t.table k nid }) = Except.ok t' := hop
      rw [hprev_ix] at hop2
      simp only [orErr, expure_ok, exbind_pure_ok, Except.ok.injEq] at hop2
      have ht' : t' = { heap := connectF (connectF (t.heap ++ [nd]) (Ref.mk true pre) (realRef nid) true) (realRef nid) nx true, table := odUpdate t.table k nid } := hop2.symm
      have hheap : t'.heap = setPrevF (setNextF (setPrevF (setNextF
          (t.heap ++ [nd]) pre (some (realRef nid))) nid
          (some (Ref.mk true pre))) nid (some (fwdRef (order[index]))))
          (order[index]) (some (Ref.mk true nid)) := by
        rw [ht', hnx]
        simp [connectF, ensureProxy, fwdRef_pos hixbnd.1]
      have hres := @insert_link_shape _ _ index k v _ pre (order[index]) hC
        hpre
        (by rw [hheadd])
        (by rw [ht'])
        hheap
      exact ⟨hfree, by rw [ht'], hres.1, hres.2.1, hres.2.2.1, hres.2.2.2.1,
        hres.2.2.2.2⟩

/-- Everything `relative_insert(node, key, value)` (forward) does on a
well-formed topology: the key was free and the new node lands immediately
after the anchor node. -/
theorem relativeInsert_shape_fwd {t : Top} {order : List Nat}
    {anchor k : String} {v : NodeValue} {t' : Top} {i a : Nat}
    (hC : ChainOK t order) (hia : order[i]? = some a)
    (ha : lookupA t.table anchor = some a)
    (hop : t.relativeInsert anchor k v true = .ok t') :
    lookupA t.table k = none ∧
    t'.table = odUpdate t.table k t.heap.length ∧
    t'.heap.length = t.heap.length + 1 ∧
    ChainOK t' (order.take (i + 1) ++ t.heap.length :: order.drop (i + 1)) ∧
    keyF t'.heap t.heap.length = some k ∧
    valueF t'.heap t.heap.length = some v ∧
    (∀ j, j < t.heap.length →
      keyF t'.heap j = keyF t.heap j ∧ valueF t'.heap j = valueF t.heap j) := by
  unfold Top.relativeInsert addNodeCheck at hop
  set nid := t.heap.length with hnid
  set nd : HNode := { key := some k, value := some v : HNode } with hnd
  rw [ha] at hop
  simp only [orErr_some, exbind_pure_ok] at hop
  obtain ⟨hi, hai⟩ := List.getElem?_eq_some.1 hia
  have hamem : a ∈ order := hai ▸ List.getElem_mem hi
  by_cases hk : (lookupA t.table k).isSome
  · rw [if_pos hk] at hop
    simp at hop
  · rw [if_neg hk] at hop
    have hfree : lookupA t.table k = none := by
      rcases hcase : lookupA t.table k with _ | w
      · rfl
      · simp [hcase] at hk
    simp only [exbind_pure_ok] at hop
    rw [if_true] at hop
    obtain ⟨hlen, hbnd, hndord, -⟩ := id hC
    have haib := hbnd a hamem
    have htk : order.take (i + 1) = order.take i ++ [a] := by
      rw [List.take_succ, hia]
      rfl
    have hpre' : ((0 : Nat) :: order.take (i + 1)).getLast (by simp) = a := by
      have h1 : ((0 : Nat) :: order.take (i + 1)).getLast? = some a := by
        rw [htk, ← List.cons_append]
        exact List.getLast?_concat _
      rw [List.getLast?_eq_getLast _ (by simp)] at h1
      exact Option.some.inj h1
    have hCsplit : ChainOK t (order.take (i + 1) ++ order.drop (i + 1)) := by
      rw [List.take_append_drop]
      exact hC
    have hgap := chain_gap hCsplit
    set b := ((order.drop (i + 1)) ++ [0]).head (by simp) with hb
    have hbmem : b ∈ (order.drop (i + 1)) ++ [0] := hb ▸ List.head_mem _
    have hblt : b < t.heap.length := by
      rcases List.mem_append.1 hbmem with h | h
      · exact (hbnd b (List.mem_of_mem_drop h)).2
      · simp at h
        omega
    have hab : a ≠ b := by
      rcases List.mem_append.1 hbmem with h | h
      · intro he
        have hmemtk : a ∈ order.take (i + 1) := by
          rw [htk]
          exact List.mem_append_right _ (by simp)
        have h3 : order.take (i + 1) ++ order.drop (i + 1) = order :=
          List.take_append_drop _ _
        have hdisj := (List.nodup_append.1 (by rw [h3]; exact hndord)).2.2
        have h2 : a ∈ order.drop (i + 1) := by
          rw [he]
          exact h
        exact hdisj hmemtk h2
      · simp at h
        intro he
        exact haib.1 (he.trans h)
    have hnexta : nextF t.heap a = some (fwdRef b) := by
      have h1 := hgap.1
      rw [hpre'] at h1
      exact h1
    have hanext0 : (getH (t.heap ++ [nd]) a).next = some (fwdRef b) := by
      rw [show (getH (t.heap ++ [nd]) a).next = nextF (t.heap ++ [nd]) a
        from rfl, nextF_append_lt haib.2]
      exact hnexta
    rw [hanext0] at hop
    simp only [orErr_some, exbind_pure_ok, Except.ok.injEq] at hop
    have ht' : t' = { heap := connectF (connectF (t.heap ++ [nd]) (realRef nid) (fwdRef b) true) (realRef nid) (realRef a) false, table := odUpdate t.table k nid } := hop.symm
    have hbnid : b ≠ nid := by omega
    have hnida : nid ≠ a := by omega
    have hba : b ≠ a := Ne.symm hab
    have hheap0 : t'.heap = setNextF (setPrevF (setPrevF (setNextF
        (t.heap ++ [nd]) nid (some (fwdRef b))) b (some (Ref.mk true nid)))
        nid (some (Ref.mk true a))) a (some (realRef nid)) := by
      rw [ht']
      simp [connectF, ensureProxy, realRef]
    have hheap : t'.heap = setPrevF (setNextF (setPrevF (setNextF
        (t.heap ++ [nd]) a (some (realRef nid))) nid
        (some (Ref.mk true a))) nid (some (fwdRef b))) b
        (some (Ref.mk true nid)) := by
      rw [hheap0, setPrevF_setPrevF_comm hbnid, setNextF_setPrevF_comm hba,
        setPrevF_setNextF_same, setNextF_setNextF_comm hnida,
        setNextF_setPrevF_comm hnida]
    have hres := @insert_link_shape _ _ (i + 1) k v _ a b hC hpre'.symm hb (by rw [ht']) hheap
    exact ⟨hfree, by rw [ht'], hres.1, hres.2.1, hres.2.2.1, hres.2.2.2.1,
      hres.2.2.2.2⟩

/-- Everything `relative_insert(node, key, value, forward=False)` does on a
well-formed topology: the key was free and the new node lands immediately
before the anchor node. -/
theorem relativeInsert_shape_bwd {t : Top} {order : List Nat}
    {anchor k : String} {v : NodeValue} {t' : Top} {i a : Nat}
    (hC : ChainOK t order) (hia : order[i]? = some a)
    (ha : lookupA t.table anchor = some a)
    (hop : t.relativeInsert anchor k v false = .ok t') :
    lookupA t.table k = none ∧
    t'.table = odUpdate t.table k t.heap.length ∧
    t'.heap.length = t.heap.length + 1 ∧
    ChainOK t' (order.take i ++ t.heap.length :: order.drop i) ∧
    keyF t'.heap t.heap.length = some k ∧
    valueF t'.heap t.heap.length = some v ∧
    (∀ j, j < t.heap.length →
      keyF t'.heap j = keyF t.heap j ∧ valueF t'.heap j = valueF t.heap j) := by
  unfold Top.relativeInsert addNodeCheck at hop
  set nid := t.heap.length with hnid
  set nd : HNode := { key := some k, value := some v : HNode } with hnd
  rw [ha] at hop
  simp only [orErr_some, exbind_pure_ok] at hop
  obtain ⟨hi, hai⟩ := List.getElem?_eq_some.1 hia
  have hamem : a ∈ order := hai ▸ List.getElem_mem hi
  by_cases hk : (lookupA t.table k).isSome
  · rw [if_pos hk] at hop
    simp at hop
  · rw [if_neg hk] at hop
    have hfree : lookupA t.table k = none := by
      rcases hcase : lookupA t.table k with _ | w
      · rfl
      · simp [hcase] at hk
    simp only [exbind_pure_ok] at hop
    rw [if_neg (by simp)] at hop
    obtain ⟨hlen, hbnd, hndord, -⟩ := id hC
    have haib := hbnd a hamem
    have hCsplit : ChainOK t (order.take i ++ order.drop i) := by
      rw [List.take_append_drop]
      exact hC
    have hgap := chain_gap hCsplit
    set pre := ((0 : Nat) :: order.take i).getLast (by simp) with hpre
    have hdropc : order.drop i = a :: order.drop (i + 1) := by
      rw [List.drop_eq_getElem_cons hi, hai]
    have hheadd : ((order.drop i) ++ [0]).head (by simp) = a := by
      have h1 : ((order.drop i) ++ [0]).head? = some a := by
        rw [hdropc]
        rfl
      rw [List.head?_eq_head (by simp)] at h1
      exact Option.some.inj h1
    have hprevA : prevF t.heap a = some (Ref.mk true pre) := by
      have h2 := hgap.2
      rw [hheadd] at h2
      exact h2
    have hprev0 : (getH (t.heap ++ [nd]) a).prev = some (Ref.mk true pre) := by
      rw [show (getH (t.heap ++ [nd]) a).prev = prevF (t.heap ++ [nd]) a
        from rfl, prevF_append_lt haib.2]
      exact hprevA
    rw [hprev0] at hop
    simp only [orErr_some, exbind_pure_ok, Except.ok.injEq] at hop
    have ht' : t' = { heap := connectF (connectF (t.heap ++ [nd]) (Ref.mk true pre) (realRef nid) true) (realRef nid) (realRef a) true, table := odUpdate t.table k nid } := hop.symm
    have hheap : t'.heap = setPrevF (setNextF (setPrevF (setNextF
        (t.heap ++ [nd]) pre (some (realRef nid))) nid
        (some (Ref.mk true pre))) nid (some (fwdRef a))) a
        (some (Ref.mk true nid)) := by
      rw [ht']
      simp [connectF, ensureProxy, realRef, fwdRef_pos haib.1]
    have hres := @insert_link_shape _ _ i k v _ pre a hC hpre
      (by rw [hheadd])
      (by rw [ht'])
      hheap
    exact ⟨hfree, by rw [ht'], hres.1, hres.2.1, hres.2.2.1, hres.2.2.2.1,
      hres.2.2.2.2⟩

/-! ### Caller-built chains: allocation and walking -/

theorem allocChain_fst (h : Heap) (chain : List (String × NodeValue)) :
    (allocChain h chain).1 = h ++ chain.enum.map (fun e =>
      ({ key := some e.2.1, value := some e.2.2,
         prev := if e.1 = 0 then none else some (Ref.mk true (h.length + e.1 - 1)),
         next := if e.1 = chain.length - 1 then none
                 else some (realRef (h.length + e.1 + 1)) : HNode })) := rfl

theorem allocChain_snd (h : Heap) (chain : List (String × NodeValue)) :
    (allocChain h chain).2 = List.range' h.length chain.length := by
  rw [show (allocChain h chain).2
    = (List.range chain.length).map (h.length + ·) from rfl,
    ← List.range'_eq_map_range]

theorem allocChain_length (h : Heap) (chain : List (String × NodeValue)) :
    (allocChain h chain).1.length = h.length + chain.length := by
  rw [allocChain_fst]
  simp

theorem allocChain_getH (h : Heap) (chain : List (String × NodeValue))
    {j : Nat} (hj : j < chain.length) :
    getH (allocChain h chain).1 (h.length + j) =
      { key := some ((chain[j]).1), value := some ((chain[j]).2),
        prev := if j = 0 then none else some (Ref.mk true (h.length + j - 1)),
        next := if j = chain.length - 1 then none
                else some (realRef (h.length + j + 1)) } := by
  rw [allocChain_fst, getH, List.getD, List.get?_eq_getElem?,
    List.getElem?_append_right (by omega),
    show h.length + j - h.length = j by omega, List.getElem?_map,
    List.getElem?_enum, List.getElem?_eq_getElem hj]
  rfl

/-- `_get_node_path`, walking a pre-established `next`-link chain: starting
just before `D` and stopping at `D`'s last element, the walk returns the
accumulated `seen` extended by `D`. -/
theorem getNodePathAux_chain {hp : Heap} {e : Nat} :
    ∀ (D : List Nat) (cur : Nat) (seen : List Nat) (fuel : Nat)
      (hne : D ≠ [])
      (hadj : List.Chain' (fun a b => nextF hp a = some (realRef b)) (cur :: D))
      (hlast : D.getLast hne = e)
      (hnd : D.Nodup)
      (hseen : ∀ x ∈ D, x ∉ seen)
      (hfuel : D.length ≤ fuel),
      getNodePathAux hp e fuel cur seen = .ok (seen ++ D) := by
  intro D
  induction D with
  | nil => intro _ _ _ hne; exact absurd rfl hne
  | cons d D ih =>
    intro cur seen fuel hne hadj hlast hnd hseen hfuel
    rcases fuel with _ | f
    · simp at hfuel
    have hstep : (getH hp cur).next = some (realRef d) :=
      (List.chain'_cons.1 hadj).1
    have hcont : seen.contains d = false := by
      simpa using hseen d (by simp)
    rcases D with _ | ⟨d2, D2⟩
    · -- last step: d is the endpoint
      have hde : d = e := hlast
      subst hde
      rw [getNodePathAux, hstep]
      simp [realRef, hseen d (by simp)]
    · -- keep walking
      have hdne : d ≠ e := by
        have hmem : e ∈ d2 :: D2 := by
          rw [← hlast, List.getLast_cons (by simp)]
          exact List.getLast_mem _
        intro hc
        rw [← hc] at hmem
        exact (List.nodup_cons.1 hnd).1 hmem
      have hres := ih d (seen ++ [d]) f (by simp)
        (List.chain'_cons.1 hadj).2
        ((List.getLast_cons (by simp)).symm.trans hlast)
        (List.nodup_cons.1 hnd).2
        (by
          intro x hx
          simp only [List.mem_append, List.mem_singleton]
          rintro (hxs | hxd)
          · exact hseen x (by simp [hx]) hxs
          · exact (List.nodup_cons.1 hnd).1 (hxd ▸ hx))
        (by simpa using hfuel)
      rw [getNodePathAux, hstep]
      simp [hdne, realRef, hres, hseen d (by simp)]

/-- `_get_node_path` on a whole pre-linked chain: it returns exactly the
chain. -/
theorem getNodePath_chain {H : Heap} {D : List Nat} (hne : D ≠ [])
    (hadj : List.Chain' (fun a b => nextF H a = some (realRef b)) D)
    (hnd : D.Nodup) (hfuel : D.length ≤ H.length + 2) :
    getNodePath H (D.head hne) (D.getLast hne) = .ok D := by
  rcases D with _ | ⟨d0, D1⟩
  · exact absurd rfl hne
  rcases D1 with _ | ⟨d1, D2⟩
  · simp [getNodePath]
  · have hlne : (d1 :: D2) ≠ [] := by simp
    have hlast : ((d0 :: d1 :: D2).getLast hne) = (d1 :: D2).getLast hlne :=
      List.getLast_cons _
    have hmemlast : (d0 :: d1 :: D2).getLast hne ∈ d1 :: D2 := by
      rw [hlast]
      exact List.getLast_mem _
    have hd0ne : d0 ≠ (d0 :: d1 :: D2).getLast hne := by
      intro hc
      rw [← hc] at hmemlast
      exact (List.nodup_cons.1 hnd).1 hmemlast
    rw [getNodePath, if_neg (by simpa using hd0ne)]
    have hres := getNodePathAux_chain (d1 :: D2) d0 [d0] (H.length + 1)
      hlne hadj hlast.symm (List.nodup_cons.1 hnd).2
      (by
        intro x hx
        simp only [List.mem_singleton]
        intro hc
        exact (List.nodup_cons.1 hnd).1 (hc ▸ hx))
      (by simp at hfuel ⊢; omega)
    simp only [List.head_cons]
    rw [hres]
    rfl

theorem range'_ne_nil {s n : Nat} (hn : n ≠ 0) : List.range' s n ≠ [] := by
  simp [hn]

theorem range'_head {s n : Nat} (hn : n ≠ 0) :
    (List.range' s n).head (range'_ne_nil hn) = s := by
  rcases n with _ | m
  · exact absurd rfl hn
  · rfl

theorem range'_getLast {s n : Nat} (hn : n ≠ 0) :
    (List.range' s n).getLast (range'_ne_nil hn) = s + n - 1 := by
  rw [List.getLast_eq_getElem]
  simp
  omega

/-- A freshly allocated chain is consecutively `next`-linked. -/
theorem chain'_next_range' {hp : Heap} {b n : Nat}
    (hnext : ∀ j, j < n - 1 → nextF hp (b + j) = some (realRef (b + j + 1))) :
    List.Chain' (fun a c => nextF hp a = some (realRef c)) (List.range' b n) := by
  induction n generalizing b with
  | zero => simp
  | succ m ih =>
    rcases Nat.eq_zero_or_pos m with hm | hm
    · subst hm
      simp
    · rw [show List.range' b (m + 1) = b :: List.range' (b + 1) m from rfl]
      rcases m with _ | m2
      · omega
      rw [show List.range' (b + 1) (m2 + 1) = (b + 1) :: List.range' (b + 2) m2
        from rfl]
      refine List.chain'_cons.2 ⟨?_, ?_⟩
      · have := hnext 0 (by omega)
        simpa using this
      · rw [show ((b + 1) :: List.range' (b + 2) m2)
          = List.range' (b + 1) (m2 + 1) from rfl]
        refine ih ?_
        intro j hj
        have := hnext (j + 1) (by omega)
        have he1 : b + (j + 1) = b + 1 + j := by omega
        rw [he1] at this
        exact this

/-- Splicing a run between two neighbours: the assembled list is linked as
soon as the entry edge, the interior edges and the exit edge hold. -/
theorem chain'_cons_range'_append {R : Nat → Nat → Prop} {p q b n : Nat}
    (hn : 1 ≤ n) (h1 : R p b) (h2 : ∀ j, j < n - 1 → R (b + j) (b + j + 1))
    (h3 : R (b + n - 1) q) :
    List.Chain' R (p :: (List.range' b n ++ [q])) := by
  induction n generalizing p b with
  | zero => omega
  | succ m ih =>
    rcases Nat.eq_zero_or_pos m with hm | hm
    · subst hm
      refine List.chain'_cons.2 ⟨h1, ?_⟩
      refine List.chain'_cons.2 ⟨?_, by simp⟩
      simpa using h3
    · rw [show List.range' b (m + 1) = b :: List.range' (b + 1) m from rfl]
      refine List.chain'_cons.2 ⟨h1, ?_⟩
      refine ih hm ?_ ?_ ?_
      · have := h2 0 (by omega)
        simpa using this
      · intro j hj
        have := h2 (j + 1) (by omega)
        have he1 : b + (j + 1) = b + 1 + j := by omega
        rw [he1] at this
        exact this
      · have he : b + (m + 1) - 1 = b + 1 + m - 1 := by omega
        rw [he] at h3
        exact h3

/-- The key/id pairs `block_insert` hands to `_batch_add_nodes`. -/
theorem blockPairs_eq {hp : Heap} :
    ∀ (cl : List (String × NodeValue)) (b : Nat)
      (hkey : ∀ j, (hj : j < cl.length) →
        (getH hp (b + j)).key = some ((cl[j]).1)),
      ((List.range' b cl.length).map (fun i => ((getH hp i).key, i))).filterMap
          (fun e => e.1.map (fun k => (k, e.2)))
        = (cl.map Prod.fst).zip (List.range' b cl.length) := by
  intro cl
  induction cl with
  | nil => intro b _; rfl
  | cons kv cl ih =>
    intro b hkey
    have h0 : (getH hp b).key = some kv.1 := by
      have := hkey 0 (by simp)
      simpa using this
    rw [show List.range' b (kv :: cl).length
      = b :: List.range' (b + 1) cl.length from rfl, List.map_cons,
      List.filterMap_cons, h0]
    simp only [Option.map_some]
    have hk : ∀ j, (hj : j < cl.length) →
        (getH hp (b + 1 + j)).key = some ((cl[j]).1) := by
      intro j hj
      have := hkey (j + 1) (by simpa using Nat.succ_lt_succ hj)
      have he : b + (j + 1) = b + 1 + j := by omega
      rw [he] at this
      exact this
    rw [ih (b + 1) hk]
    rfl

/-- The link surgery performed by `block_insert` (and, with the right
neighbours, by `relative_block_insert`): the freshly allocated chain is
spliced between the last node of the first `index` positions and the rest. -/
theorem block_link_shape {t : Top} {order : List Nat} {index : Nat}
    {chain : List (String × NodeValue)} {t' : Top} {pre nR : Nat}
    (hC : ChainOK t order) (hchne : chain ≠ [])
    (hpre : pre = ((0 : Nat) :: order.take index).getLast (by simp))
    (hnR : nR = ((order.drop index) ++ [0]).head (by simp))
    (hheap : t'.heap = setPrevF (setNextF (setPrevF (setNextF
      (allocChain t.heap chain).1 pre (some (realRef t.heap.length)))
      t.heap.length (some (Ref.mk true pre)))
      (t.heap.length + chain.length - 1) (some (fwdRef nR))) nR
      (some (Ref.mk true (t.heap.length + chain.length - 1)))) :
    t'.heap.length = t.heap.length + chain.length ∧
    ChainOK t' (order.take index ++ List.range' t.heap.length chain.length
      ++ order.drop index) ∧
    (∀ j, (hj : j < chain.length) →
      keyF t'.heap (t.heap.length + j) = some ((chain[j]).1) ∧
      valueF t'.heap (t.heap.length + j) = some ((chain[j]).2)) ∧
    (∀ j, j < t.heap.length →
      keyF t'.heap j = keyF t.heap j ∧ valueF t'.heap j = valueF t.heap j) := by
  subst hpre
  subst hnR
  set pre := ((0 : Nat) :: order.take index).getLast (by simp) with hpre
  set nR : Nat := ((order.drop index) ++ [0]).head (by simp) with hnR
  have hn1 : 1 ≤ chain.length := List.length_pos.2 hchne
  have hCsplit : ChainOK t (order.take index ++ [] ++ order.drop index) := by
    rw [List.append_nil, List.take_append_drop]
    exact hC
  obtain ⟨hlen, hbnd, -, -⟩ := id hC
  have hpremem : pre ∈ (0 : Nat) :: order.take index :=
    hpre ▸ List.getLast_mem _
  have hprelt : pre < t.heap.length := by
    rcases List.mem_cons.1 hpremem with h | h
    · omega
    · exact (hbnd pre (List.mem_of_mem_take h)).2
  have hnRmem : nR ∈ (order.drop index) ++ [0] := hnR ▸ List.head_mem _
  have hnRlt : nR < t.heap.length := by
    rcases List.mem_append.1 hnRmem with h | h
    · exact (hbnd nR (List.mem_of_mem_drop h)).2
    · simp at h
      omega
  have hlen2 : t'.heap.length = t.heap.length + chain.length := by
    rw [hheap]
    simp [allocChain_length]
  have hkv : ∀ j, (hj : j < chain.length) →
      keyF t'.heap (t.heap.length + j) = some ((chain[j]).1) ∧
      valueF t'.heap (t.heap.length + j) = some ((chain[j]).2) := by
    intro j hj
    constructor
    · rw [hheap, keyF_setPrevF, keyF_setNextF, keyF_setPrevF, keyF_setNextF]
      show (getH (allocChain t.heap chain).1 (t.heap.length + j)).key = _
      rw [allocChain_getH _ _ hj]
    · rw [hheap, valueF_setPrevF, valueF_setNextF, valueF_setPrevF,
        valueF_setNextF]
      show (getH (allocChain t.heap chain).1 (t.heap.length + j)).value = _
      rw [allocChain_getH _ _ hj]
  have hold : ∀ j, j < t.heap.length →
      keyF t'.heap j = keyF t.heap j ∧ valueF t'.heap j = valueF t.heap j := by
    intro j hj
    constructor
    · rw [hheap, keyF_setPrevF, keyF_setNextF, keyF_setPrevF, keyF_setNextF,
        allocChain_fst, keyF_append_lt hj]
    · rw [hheap, valueF_setPrevF, valueF_setNextF, valueF_setPrevF,
        valueF_setNextF, allocChain_fst, valueF_append_lt hj]
  refine ⟨hlen2, ?_, hkv, hold⟩
  have hres := chain_surgery (G := t'.heap) (W := t'.table)
    (M := List.range' t.heap.length chain.length) hCsplit
    (by rw [hlen2]; omega)
    (by
      intro m hm
      have := List.mem_range'_1.1 hm
      exact ⟨this.1, by rw [hlen2]; omega⟩)
    (List.nodup_range' _ _ _ (by omega))
    (by
      intro x hx hxp hxD
      rw [hheap, nextF_setPrevF,
        nextF_setNextF_ne (show t.heap.length + chain.length - 1 ≠ x by omega),
        nextF_setPrevF,
        nextF_setNextF_ne (fun hc => hxp (by rw [← hc, hpre])),
        allocChain_fst, nextF_append_lt hx])
    (by
      intro x hx hxn hxD
      rw [hheap, prevF_setPrevF_ne (fun hc => hxn (by rw [← hc, hnR])),
        prevF_setNextF,
        prevF_setPrevF_ne (show t.heap.length ≠ x by omega),
        prevF_setNextF, allocChain_fst, prevF_append_lt hx])
    (by
      refine chain'_cons_range'_append hn1 ⟨?_, ?_⟩ ?_ ⟨?_, ?_⟩
      · -- next of pre points at the chain head
        rw [hheap, nextF_setPrevF,
          nextF_setNextF_ne (show t.heap.length + chain.length - 1 ≠ pre
            by omega),
          nextF_setPrevF, nextF_setNextF_eq (by simp [allocChain_length]; omega),
          fwdRef_pos (by omega)]
      · -- prev of the chain head is the proxy of pre
        rw [hheap, prevF_setPrevF_ne (show nR ≠ t.heap.length by omega),
          prevF_setNextF,
          prevF_setPrevF_eq (by simp [allocChain_length]; omega)]
        rfl
      · -- interior links of the chain
        intro j hj
        have hj' : j < chain.length := by omega
        constructor
        · rw [hheap, nextF_setPrevF,
            nextF_setNextF_ne (show t.heap.length + chain.length - 1
              ≠ t.heap.length + j by omega),
            nextF_setPrevF,
            nextF_setNextF_ne (show pre ≠ t.heap.length + j by omega)]
          show (getH (allocChain t.heap chain).1 (t.heap.length + j)).next = _
          rw [allocChain_getH _ _ hj']
          show (if j = chain.length - 1 then none
            else some (realRef (t.heap.length + j + 1)))
            = some (fwdRef (t.heap.length + j + 1))
          rw [if_neg (show j ≠ chain.length - 1 by omega),
            fwdRef_pos (by omega)]
        · rw [hheap,
            prevF_setPrevF_ne (show nR ≠ t.heap.length + j + 1 by omega),
            prevF_setNextF,
            prevF_setPrevF_ne (show t.heap.length ≠ t.heap.length + j + 1
              by omega),
            prevF_setNextF]
          show (getH (allocChain t.heap chain).1 (t.heap.length + j + 1)).prev
            = _
          have he : t.heap.length + j + 1 = t.heap.length + (j + 1) := by omega
          rw [he, allocChain_getH _ _ (show j + 1 < chain.length by omega)]
          show (if j + 1 = 0 then none
            else some (Ref.mk true (t.heap.length + (j + 1) - 1)))
            = some (Ref.mk true (t.heap.length + j))
          rw [if_neg (show j + 1 ≠ 0 by omega),
            show t.heap.length + (j + 1) - 1 = t.heap.length + j by omega]
      · -- next of the chain tail points past the block
        rw [hheap, nextF_setPrevF,
          nextF_setNextF_eq (by simp [allocChain_length]; omega)]
      · -- prev of the successor is the proxy of the chain tail
        rw [hheap, prevF_setPrevF_eq (by simp [allocChain_length]; omega)]
        rfl)
  have hcast : t' = { heap := t'.heap, table := t'.table } := rfl
  rw [hcast]
  simpa using hres

/-- Everything `block_insert` does on a well-formed topology: the chain keys
were all free against the existing table, every chain node is registered
(later chain duplicates overwriting earlier ones), and the whole chain lands
before position `index`. -/
theorem blockInsert_shape {t : Top} {order : List Nat} {index : Nat}
    {chain : List (String × NodeValue)} {t' : Top} (hC : ChainOK t order)
    (hop : t.blockInsert index chain = .ok t') :
    chain ≠ [] ∧
    (∀ kv ∈ chain, lookupA t.table kv.1 = none) ∧
    t'.table = ((chain.map Prod.fst).zip
        (List.range' t.heap.length chain.length)).foldl
        (fun a e => odUpdate a e.1 e.2) t.table ∧
    t'.heap.length = t.heap.length + chain.length ∧
    ChainOK t' (order.take index ++ List.range' t.heap.length chain.length
      ++ order.drop index) ∧
    (∀ j, (hj : j < chain.length) →
      keyF t'.heap (t.heap.length + j) = some ((chain[j]).1) ∧
      valueF t'.heap (t.heap.length + j) = some ((chain[j]).2)) ∧
    (∀ j, j < t.heap.length →
      keyF t'.heap j = keyF t.heap j ∧ valueF t'.heap j = valueF t.heap j) := by
  unfold Top.blockInsert batchAdd at hop
  rcases hh : chain.head? with _ | c0
  · rw [hh] at hop
    simp [orErr] at hop
  rw [hh] at hop
  have hchne : chain ≠ [] := by
    intro hc
    rw [hc] at hh
    simp at hh
  have hn1 : 1 ≤ chain.length := List.length_pos.2 hchne
  obtain ⟨hlen, hbnd, -, -⟩ := id hC
  rw [show allocChain t.heap chain
    = ((allocChain t.heap chain).1, (allocChain t.heap chain).2) from rfl,
    allocChain_snd] at hop
  simp only [orErr_some, exbind_pure_ok] at hop
  have hhead : (List.range' t.heap.length chain.length).head?
      = some t.heap.length := by
    rcases hcl : chain.length with _ | m
    · omega
    · rfl
  have hlastq : (List.range' t.heap.length chain.length).getLast?
      = some (t.heap.length + chain.length - 1) := by
    rw [List.getLast?_eq_getLast _ (range'_ne_nil (by omega)),
      range'_getLast (by omega)]
  have hpath := getNodePath_chain
    (H := (allocChain t.heap chain).1)
    (D := List.range' t.heap.length chain.length)
    (range'_ne_nil (by omega))
    (chain'_next_range' (by
      intro j hj
      show (getH (allocChain t.heap chain).1 (t.heap.length + j)).next = _
      rw [allocChain_getH _ _ (show j < chain.length by omega)]
      show (if j = chain.length - 1 then none
        else some (realRef (t.heap.length + j + 1)))
        = some (realRef (t.heap.length + j + 1))
      rw [if_neg (show j ≠ chain.length - 1 by omega)]))
    (List.nodup_range' _ _ _ (by omega))
    (by simp [allocChain_length]; omega)
  rw [range'_head (by omega), range'_getLast (by omega)] at hpath
  rw [hhead, hlastq] at hop
  simp only [orErr_some, exbind_pure_ok] at hop
  rw [hpath] at hop
  simp only [exbind_pure_ok] at hop
  have hkey : ∀ j, (hj : j < chain.length) →
      (getH (allocChain t.heap chain).1 (t.heap.length + j)).key
        = some ((chain[j]).1) := by
    intro j hj
    rw [allocChain_getH _ _ hj]
  rw [blockPairs_eq chain t.heap.length hkey] at hop
  by_cases hany : ((chain.map Prod.fst).zip
      (List.range' t.heap.length chain.length)).any
      (fun e => (lookupA t.table e.1).isSome)
  · rw [if_pos hany] at hop
    simp at hop
  rw [if_neg hany] at hop
  simp only [exbind_pure_ok] at hop
  have hfresh : ∀ kv ∈ chain, lookupA t.table kv.1 = none := by
    intro kv hkv
    obtain ⟨j, hj, hkvj⟩ := List.mem_iff_getElem.1 hkv
    have hjz1 : j < (chain.map Prod.fst).length := by simpa using hj
    have hjz2 : j < (List.range' t.heap.length chain.length).length := by
      simpa using hj
    have hjz : j < ((chain.map Prod.fst).zip
        (List.range' t.heap.length chain.length)).length := by
      rw [List.length_zip]
      omega
    have h1 : ((chain.map Prod.fst)[j]) = kv.1 := by
      rw [List.getElem_map, hkvj]
    have h2 : ((List.range' t.heap.length chain.length)[j])
        = t.heap.length + j := by
      simp [List.getElem_range']
    have hpj : (((chain.map Prod.fst).zip
        (List.range' t.heap.length chain.length))[j])
        = (kv.1, t.heap.length + j) := by
      rw [List.getElem_zip, h1, h2]
    have hmem : (kv.1, t.heap.length + j) ∈ (chain.map Prod.fst).zip
        (List.range' t.heap.length chain.length) := hpj ▸ List.getElem_mem hjz
    by_contra hcn
    have hsome : (lookupA t.table kv.1).isSome = true := by
      rcases hcase : lookupA t.table kv.1 with _ | w
      · exact absurd hcase hcn
      · rfl
    exact hany (List.any_eq_true.2 ⟨(kv.1, t.heap.length + j), hmem, hsome⟩)
  have hC1 : ∀ tbl, ChainOK { heap := (allocChain t.heap chain).1, table := tbl } order := by
    intro tbl
    have hap := hC.append_heap (chain.enum.map (fun e =>
      ({ key := some e.2.1, value := some e.2.2, prev := if e.1 = 0 then none else some (Ref.mk true (t.heap.length + e.1 - 1)), next := if e.1 = chain.length - 1 then none else some (realRef (t.heap.length + e.1 + 1)) : HNode }))) tbl
    rw [← allocChain_fst] at hap
    exact hap
  rw [fwdRefs_spec (hC1 _)] at hop
  simp only [exbind_pure_ok] at hop
  rcases hidx : (order.map realRef)[index]? with _ | nx <;> rw [hidx] at hop
  · -- for-else: splice at the very end
    have hge : order.length ≤ index := by
      have := List.getElem?_eq_none_iff.1 (by simpa using hidx)
      simpa using this
    obtain ⟨hsplit0, hadj0⟩ := hC.chain_split
    set a := ((0 : Nat) :: order).getLast (by simp) with ha
    have halt : a < t.heap.length := by
      rcases List.mem_cons.1 (ha ▸ List.getLast_mem
        (l := (0 : Nat) :: order) (by simp)) with h | h
      · omega
      · exact (hbnd a h).2
    have hroot : (getH (allocChain t.heap chain).1 0).prev
        = some (Ref.mk true a) := by
      show prevF (allocChain t.heap chain).1 0 = _
      rw [allocChain_fst, prevF_append_lt hlen]
      exact hadj0.2
    rw [hroot] at hop
    simp only [orErr_some, exbind_pure_ok] at hop
    have hnexta : (getH (allocChain t.heap chain).1 (Ref.mk true a).id).next
        = some rootRef := by
      show nextF (allocChain t.heap chain).1 a = _
      rw [allocChain_fst, nextF_append_lt halt]
      exact hadj0.1
    rw [hnexta] at hop
    simp only [orErr_some, expure_ok, exbind_pure_ok, Except.ok.injEq] at hop
    have ht' : t' = { heap := connectF (connectF (allocChain t.heap chain).1 (Ref.mk true a) (realRef t.heap.length) true) (realRef (t.heap.length + chain.length - 1)) rootRef true, table := ((chain.map Prod.fst).zip (List.range' t.heap.length chain.length)).foldl (fun a e => odUpdate a e.1 e.2) t.table } := hop.symm
    have hheap : t'.heap = setPrevF (setNextF (setPrevF (setNextF
        (allocChain t.heap chain).1 a (some (realRef t.heap.length)))
        t.heap.length (some (Ref.mk true a)))
        (t.heap.length + chain.length - 1) (some (fwdRef 0))) 0
        (some (Ref.mk true (t.heap.length + chain.length - 1))) := by
      rw [ht']
      simp [connectF, ensureProxy, rootRef, fwdRef]
    have hres := @block_link_shape _ _ index _ _ a 0 hC hchne
      (by rw [ha, List.take_of_length_le hge])
      (by
        have h1 : ((order.drop index) ++ [0]).head? = some 0 := by
          rw [List.drop_eq_nil_of_le hge]
          rfl
        rw [List.head?_eq_head (by simp)] at h1
        exact (Option.some.inj h1).symm)
      hheap
    exact ⟨hchne, hfresh, by rw [ht'], hres.1, hres.2.1, hres.2.2.1,
      hres.2.2.2⟩
  · -- found position `index`
    have hex : ∃ hlt : index < (order.map realRef).length,
        (order.map realRef)[index] = nx := by
      rw [List.getElem?_eq_some] at hidx
      exact hidx
    obtain ⟨hlt0, hnxval⟩ := hex
    have hlt : index < order.length := by simpa using hlt0
    have hnx : nx = realRef (order[index]) := by
      rw [← hnxval]
      simp
    have hCsplit : ChainOK t (order.take index ++ order.drop index) := by
      rw [List.take_append_drop]
      exact hC
    have hgap := chain_gap hCsplit
    set pre := ((0 : Nat) :: order.take index).getLast (by simp) with hpre
    have hdropc : order.drop index
        = (order[index]) :: order.drop (index + 1) :=
      List.drop_eq_getElem_cons hlt
    have hheadd : ((order.drop index) ++ [0]).head (by simp)
        = order[index] := by
      have h1 : ((order.drop index) ++ [0]).head?
          = some (order[index]) := by
        rw [hdropc]
        rfl
      rw [List.head?_eq_head (by simp)] at h1
      exact Option.some.inj h1
    have hixbnd := hbnd (order[index]) (List.getElem_mem hlt)
    have hprev_ix : (getH (allocChain t.heap chain).1 nx.id).prev
        = some (Ref.mk true pre) := by
      rw [hnx]
      show prevF (allocChain t.heap chain).1 (order[index]) = _
      rw [allocChain_fst, prevF_append_lt hixbnd.2]
      have h2 := hgap.2
      rw [hheadd] at h2
      exact h2
    have hop2 : (orErr (getH (allocChain t.heap chain).1 nx.id).prev
        PyErr.assertionError >>= fun p => Except.ok
        { heap := connectF (connectF (allocChain t.heap chain).1 p (realRef t.heap.length) true) (realRef (t.heap.length + chain.length - 1)) nx true, table := ((chain.map Prod.fst).zip (List.range' t.heap.length chain.length)).foldl (fun a e => odUpdate a e.1 e.2) t.table } : Except PyErr Top) = Except.ok t' := hop
    rw [hprev_ix] at hop2
    simp only [orErr_some, expure_ok, exbind_pure_ok, Except.ok.injEq] at hop2
    have ht' : t' = { heap := connectF (connectF (allocChain t.heap chain).1 (Ref.mk true pre) (realRef t.heap.length) true) (realRef (t.heap.length + chain.length - 1)) nx true, table := ((chain.map Prod.fst).zip (List.range' t.heap.length chain.length)).foldl (fun a e => odUpdate a e.1 e.2) t.table } := hop2.symm
    have hheap : t'.heap = setPrevF (setNextF (setPrevF (setNextF
        (allocChain t.heap chain).1 pre (some (realRef t.heap.length)))
        t.heap.length (some (Ref.mk true pre)))
        (t.heap.length + chain.length - 1)
        (some (fwdRef (order[index])))) (order[index])
        (some (Ref.mk true (t.heap.length + chain.length - 1))) := by
      rw [ht', hnx]
      simp [connectF, ensureProxy, fwdRef_pos hixbnd.1]
    have hres := @block_link_shape _ _ index _ _ pre (order[index]) hC hchne hpre
      (by rw [hheadd])
      hheap
    exact ⟨hchne, hfresh, by rw [ht'], hres.1, hres.2.1, hres.2.2.1,
      hres.2.2.2⟩

/-- Everything `relative_block_insert(node, start, end)` (forward) does on a
well-formed topology: the chain lands immediately after the anchor node. -/
theorem relativeBlockInsert_shape_fwd {t : Top} {order : List Nat}
    {anchor : String} {chain : List (String × NodeValue)} {t' : Top}
    {i a : Nat} (hC : ChainOK t order) (hia : order[i]? = some a)
    (ha : lookupA t.table anchor = some a)
    (hop : t.relativeBlockInsert anchor chain true = .ok t') :
    chain ≠ [] ∧
    (∀ kv ∈ chain, lookupA t.table kv.1 = none) ∧
    t'.table = ((chain.map Prod.fst).zip
        (List.range' t.heap.length chain.length)).foldl
        (fun a e => odUpdate a e.1 e.2) t.table ∧
    t'.heap.length = t.heap.length + chain.length ∧
    ChainOK t' (order.take (i + 1) ++ List.range' t.heap.length chain.length
      ++ order.drop (i + 1)) ∧
    (∀ j, (hj : j < chain.length) →
      keyF t'.heap (t.heap.length + j) = some ((chain[j]).1) ∧
      valueF t'.heap (t.heap.length + j) = some ((chain[j]).2)) ∧
    (∀ j, j < t.heap.length →
      keyF t'.heap j = keyF t.heap j ∧ valueF t'.heap j = valueF t.heap j) := by
  unfold Top.relativeBlockInsert batchAdd at hop
  rw [ha] at hop
  rcases hh : chain.head? with _ | c0
  · rw [hh] at hop
    simp [orErr] at hop
  rw [hh] at hop
  have hchne : chain ≠ [] := by
    intro hc
    rw [hc] at hh
    simp at hh
  have hn1 : 1 ≤ chain.length := List.length_pos.2 hchne
  obtain ⟨hlen, hbnd, hndord, -⟩ := id hC
  obtain ⟨hi, hai⟩ := List.getElem?_eq_some.1 hia
  have hamem : a ∈ order := hai ▸ List.getElem_mem hi
  have haib := hbnd a hamem
  rw [show allocChain t.heap chain
    = ((allocChain t.heap chain).1, (allocChain t.heap chain).2) from rfl,
    allocChain_snd] at hop
  simp only [orErr_some, exbind_pure_ok] at hop
  have hhead : (List.range' t.heap.length chain.length).head?
      = some t.heap.length := by
    rcases hcl : chain.length with _ | m
    · omega
    · rfl
  have hlastq : (List.range' t.heap.length chain.length).getLast?
      = some (t.heap.length + chain.length - 1) := by
    rw [List.getLast?_eq_getLast _ (range'_ne_nil (by omega)),
      range'_getLast (by omega)]
  have hpath := getNodePath_chain
    (H := (allocChain t.heap chain).1)
    (D := List.range' t.heap.length chain.length)
    (range'_ne_nil (by omega))
    (chain'_next_range' (by
      intro j hj
      show (getH (allocChain t.heap chain).1 (t.heap.length + j)).next = _
      rw [allocChain_getH _ _ (show j < chain.length by omega)]
      show (if j = chain.length - 1 then none
        else some (realRef (t.heap.length + j + 1)))
        = some (realRef (t.heap.length + j + 1))
      rw [if_neg (show j ≠ chain.length - 1 by omega)]))
    (List.nodup_range' _ _ _ (by omega))
    (by simp [allocChain_length]; omega)
  rw [range'_head (by omega), range'_getLast (by omega)] at hpath
  rw [hhead, hlastq] at hop
  simp only [orErr_some, exbind_pure_ok] at hop
  rw [hpath] at hop
  simp only [exbind_pure_ok] at hop
  have hkey : ∀ j, (hj : j < chain.length) →
      (getH (allocChain t.heap chain).1 (t.heap.length + j)).key
        = some ((chain[j]).1) := by
    intro j hj
    rw [allocChain_getH _ _ hj]
  rw [blockPairs_eq chain t.heap.length hkey] at hop
  by_cases hany : ((chain.map Prod.fst).zip
      (List.range' t.heap.length chain.length)).any
      (fun e => (lookupA t.table e.1).isSome)
  · rw [if_pos hany] at hop
    simp at hop
  rw [if_neg hany] at hop
  simp only [exbind_pure_ok] at hop
  rw [if_true] at hop
  have hfresh : ∀ kv ∈ chain, lookupA t.table kv.1 = none := by
    intro kv hkv
    obtain ⟨j, hj, hkvj⟩ := List.mem_iff_getElem.1 hkv
    have hjz1 : j < (chain.map Prod.fst).length := by simpa using hj
    have hjz2 : j < (List.range' t.heap.length chain.length).length := by
      simpa using hj
    have hjz : j < ((chain.map Prod.fst).zip
        (List.range' t.heap.length chain.length)).length := by
      rw [List.length_zip]
      omega
    have h1 : ((chain.map Prod.fst)[j]) = kv.1 := by
      rw [List.getElem_map, hkvj]
    have h2 : ((List.range' t.heap.length chain.length)[j])
        = t.heap.length + j := by
      simp [List.getElem_range']
    have hpj : (((chain.map Prod.fst).zip
        (List.range' t.heap.length chain.length))[j])
        = (kv.1, t.heap.length + j) := by
      rw [List.getElem_zip, h1, h2]
    have hmem : (kv.1, t.heap.length + j) ∈ (chain.map Prod.fst).zip
        (List.range' t.heap.length chain.length) := hpj ▸ List.getElem_mem hjz
    by_contra hcn
    have hsome : (lookupA t.table kv.1).isSome = true := by
      rcases hcase : lookupA t.table kv.1 with _ | w
      · exact absurd hcase hcn
      · rfl
    exact hany (List.any_eq_true.2 ⟨(kv.1, t.heap.length + j), hmem, hsome⟩)
  -- the anchor's successor in the cycle
  have htk : order.take (i + 1) = order.take i ++ [a] := by
    rw [List.take_succ, hia]
    rfl
  have hpre' : ((0 : Nat) :: order.take (i + 1)).getLast (by simp) = a := by
    have h1 : ((0 : Nat) :: order.take (i + 1)).getLast? = some a := by
      rw [htk, ← List.cons_append]
      exact List.getLast?_concat _
    rw [List.getLast?_eq_getLast _ (by simp)] at h1
    exact Option.some.inj h1
  have hCsplit : ChainOK t (order.take (i + 1) ++ order.drop (i + 1)) := by
    rw [List.take_append_drop]
    exact hC
  have hgap := chain_gap hCsplit
  set b := ((order.drop (i + 1)) ++ [0]).head (by simp) with hb
  have hbmem : b ∈ (order.drop (i + 1)) ++ [0] := hb ▸ List.head_mem _
  have hblt : b < t.heap.length := by
    rcases List.mem_append.1 hbmem with h | h
    · exact (hbnd b (List.mem_of_mem_drop h)).2
    · simp at h
      omega
  have hab : a ≠ b := by
    rcases List.mem_append.1 hbmem with h | h
    · intro he
      have hmemtk : a ∈ order.take (i + 1) := by
        rw [htk]
        exact List.mem_append_right _ (by simp)
      have h3 : order.take (i + 1) ++ order.drop (i + 1) = order :=
        List.take_append_drop _ _
      have hdisj := (List.nodup_append.1 (by rw [h3]; exact hndord)).2.2
      have h2 : a ∈ order.drop (i + 1) := by
        rw [he]
        exact h
      exact hdisj hmemtk h2
    · simp at h
      intro he
      exact haib.1 (he.trans h)
  have hnexta : nextF t.heap a = some (fwdRef b) := by
    have h1 := hgap.1
    rw [hpre'] at h1
    exact h1
  have hanext0 : (getH (allocChain t.heap chain).1 a).next
      = some (fwdRef b) := by
    show nextF (allocChain t.heap chain).1 a = _
    rw [allocChain_fst, nextF_append_lt haib.2]
    exact hnexta
  rw [hanext0] at hop
  simp only [orErr_some, exbind_pure_ok, Except.ok.injEq] at hop
  have ht' : t' = { heap := connectF (connectF (allocChain t.heap chain).1 (realRef (t.heap.length + chain.length - 1)) (fwdRef b) true) (realRef a) (realRef t.heap.length) true, table := ((chain.map Prod.fst).zip (List.range' t.heap.length chain.length)).foldl (fun a e => odUpdate a e.1 e.2) t.table } := hop.symm
  have hheap0 : t'.heap = setPrevF (setNextF (setPrevF (setNextF
      (allocChain t.heap chain).1 (t.heap.length + chain.length - 1)
      (some (fwdRef b))) b
      (some (Ref.mk true (t.heap.length + chain.length - 1)))) a
      (some (realRef t.heap.length))) t.heap.length
      (some (Ref.mk true a)) := by
    rw [ht']
    simp [connectF, ensureProxy, realRef]
  have hheap : t'.heap = setPrevF (setNextF (setPrevF (setNextF
      (allocChain t.heap chain).1 a (some (realRef t.heap.length)))
      t.heap.length (some (Ref.mk true a)))
      (t.heap.length + chain.length - 1) (some (fwdRef b))) b
      (some (Ref.mk true (t.heap.length + chain.length - 1))) := by
    rw [hheap0,
      setNextF_setPrevF_comm (show b ≠ a from Ne.symm hab),
      setPrevF_setPrevF_comm (show b ≠ t.heap.length by omega),
      setNextF_setNextF_comm (show t.heap.length + chain.length - 1 ≠ a
        by omega)]
    rcases Nat.lt_or_ge 1 chain.length with hn2 | hn2
    · rw [setPrevF_setNextF_comm (show t.heap.length + chain.length - 1
        ≠ t.heap.length by omega)]
    · have he1 : chain.length = 1 := by omega
      rw [he1]
      rw [show t.heap.length + 1 - 1 = t.heap.length by omega,
        setPrevF_setNextF_same]
  have hres := @block_link_shape _ _ (i + 1) _ _ a b hC hchne hpre'.symm hb hheap
  exact ⟨hchne, hfresh, by rw [ht'], hres.1, hres.2.1, hres.2.2.1,
    hres.2.2.2⟩

/-- Everything `relative_block_insert(node, start, end, forward=False)` does
on a well-formed topology: the chain lands immediately before the anchor. -/
theorem relativeBlockInsert_shape_bwd {t : Top} {order : List Nat}
    {anchor : String} {chain : List (String × NodeValue)} {t' : Top}
    {i a : Nat} (hC : ChainOK t order) (hia : order[i]? = some a)
    (ha : lookupA t.table anchor = some a)
    (hop : t.relativeBlockInsert anchor chain false = .ok t') :
    chain ≠ [] ∧
    (∀ kv ∈ chain, lookupA t.table kv.1 = none) ∧
    t'.table = ((chain.map Prod.fst).zip
        (List.range' t.heap.length chain.length)).foldl
        (fun a e => odUpdate a e.1 e.2) t.table ∧
    t'.heap.length = t.heap.length + chain.length ∧
    ChainOK t' (order.take i ++ List.range' t.heap.length chain.length
      ++ order.drop i) ∧
    (∀ j, (hj : j < chain.length) →
      keyF t'.heap (t.heap.length + j) = some ((chain[j]).1) ∧
      valueF t'.heap (t.heap.length + j) = some ((chain[j]).2)) ∧
    (∀ j, j < t.heap.length →
      keyF t'.heap j = keyF t.heap j ∧ valueF t'.heap j = valueF t.heap j) := by
  unfold Top.relativeBlockInsert batchAdd at hop
  rw [ha] at hop
  rcases hh : chain.head? with _ | c0
  · rw [hh] at hop
    simp [orErr] at hop
  rw [hh] at hop
  have hchne : chain ≠ [] := by
    intro hc
    rw [hc] at hh
    simp at hh
  have hn1 : 1 ≤ chain.length := List.length_pos.2 hchne
  obtain ⟨hlen, hbnd, hndord, -⟩ := id hC
  obtain ⟨hi, hai⟩ := List.getElem?_eq_some.1 hia
  have hamem : a ∈ order := hai ▸ List.getElem_mem hi
  have haib := hbnd a hamem
  rw [show allocChain t.heap chain
    = ((allocChain t.heap chain).1, (allocChain t.heap chain).2) from rfl,
    allocChain_snd] at hop
  simp only [orErr_some, exbind_pure_ok] at hop
  have hhead : (List.range' t.heap.length chain.length).head?
      = some t.heap.length := by
    rcases hcl : chain.length with _ | m
    · omega
    · rfl
  have hlastq : (List.range' t.heap.length chain.length).getLast?
      = some (t.heap.length + chain.length - 1) := by
    rw [List.getLast?_eq_getLast _ (range'_ne_nil (by omega)),
      range'_getLast (by omega)]
  have hpath := getNodePath_chain
    (H := (allocChain t.heap chain).1)
    (D := List.range' t.heap.length chain.length)
    (range'_ne_nil (by omega))
    (chain'_next_range' (by
      intro j hj
      show (getH (allocChain t.heap chain).1 (t.heap.length + j)).next = _
      rw [allocChain_getH _ _ (show j < chain.length by omega)]
      show (if j = chain.length - 1 then none
        else some (realRef (t.heap.length + j + 1)))
        = some (realRef (t.heap.length + j + 1))
      rw [if_neg (show j ≠ chain.length - 1 by omega)]))
    (List.nodup_range' _ _ _ (by omega))
    (by simp [allocChain_length]; omega)
  rw [range'_head (by omega), range'_getLast (by omega)] at hpath
  rw [hhead, hlastq] at hop
  simp only [orErr_some, exbind_pure_ok] at hop
  rw [hpath] at hop
  simp only [exbind_pure_ok] at hop
  have hkey : ∀ j, (hj : j < chain.length) →
      (getH (allocChain t.heap chain).1 (t.heap.length + j)).key
        = some ((chain[j]).1) := by
    intro j hj
    rw [allocChain_getH _ _ hj]
  rw [blockPairs_eq chain t.heap.length hkey] at hop
  by_cases hany : ((chain.map Prod.fst).zip
      (List.range' t.heap.length chain.length)).any
      (fun e => (lookupA t.table e.1).isSome)
  · rw [if_pos hany] at hop
    simp at hop
  rw [if_neg hany] at hop
  simp only [exbind_pure_ok] at hop
  rw [if_neg (by simp)] at hop
  have hfresh : ∀ kv ∈ chain, lookupA t.table kv.1 = none := by
    intro kv hkv
    obtain ⟨j, hj, hkvj⟩ := List.mem_iff_getElem.1 hkv
    have hjz1 : j < (chain.map Prod.fst).length := by simpa using hj
    have hjz2 : j < (List.range' t.heap.length chain.length).length := by
      simpa using hj
    have hjz : j < ((chain.map Prod.fst).zip
        (List.range' t.heap.length chain.length)).length := by
      rw [List.length_zip]
      omega
    have h1 : ((chain.map Prod.fst)[j]) = kv.1 := by
      rw [List.getElem_map, hkvj]
    have h2 : ((List.range' t.heap.length chain.length)[j])
        = t.heap.length + j := by
      simp [List.getElem_range']
    have hpj : (((chain.map Prod.fst).zip
        (List.range' t.heap.length chain.length))[j])
        = (kv.1, t.heap.length + j) := by
      rw [List.getElem_zip, h1, h2]
    have hmem : (kv.1, t.heap.length + j) ∈ (chain.map Prod.fst).zip
        (List.range' t.heap.length chain.length) := hpj ▸ List.getElem_mem hjz
    by_contra hcn
    have hsome : (lookupA t.table kv.1).isSome = true := by
      rcases hcase : lookupA t.table kv.1 with _ | w
      · exact absurd hcase hcn
      · rfl
    exact hany (List.any_eq_true.2 ⟨(kv.1, t.heap.length + j), hmem, hsome⟩)
  -- the anchor's predecessor in the cycle
  have hCsplit : ChainOK t (order.take i ++ order.drop i) := by
    rw [List.take_append_drop]
    exact hC
  have hgap := chain_gap hCsplit
  set pre := ((0 : Nat) :: order.take i).getLast (by simp) with hpre
  have hdropc : order.drop i = a :: order.drop (i + 1) := by
    rw [List.drop_eq_getElem_cons hi, hai]
  have hheadd : ((order.drop i) ++ [0]).head (by simp) = a := by
    have h1 : ((order.drop i) ++ [0]).head? = some a := by
      rw [hdropc]
      rfl
    rw [List.head?_eq_head (by simp)] at h1
    exact Option.some.inj h1
  have hprevA : prevF t.heap a = some (Ref.mk true pre) := by
    have h2 := hgap.2
    rw [hheadd] at h2
    exact h2
  have hprev0 : (getH (allocChain t.heap chain).1 a).prev
      = some (Ref.mk true pre) := by
    show prevF (allocChain t.heap chain).1 a = _
    rw [allocChain_fst, prevF_append_lt haib.2]
    exact hprevA
  rw [hprev0] at hop
  simp only [orErr_some, exbind_pure_ok, Except.ok.injEq] at hop
  have ht' : t' = { heap := connectF (connectF (allocChain t.heap chain).1 (Ref.mk true pre) (realRef t.heap.length) true) (realRef (t.heap.length + chain.length - 1)) (realRef a) true, table := ((chain.map Prod.fst).zip (List.range' t.heap.length chain.length)).foldl (fun a e => odUpdate a e.1 e.2) t.table } := hop.symm
  have hheap : t'.heap = setPrevF (setNextF (setPrevF (setNextF
      (allocChain t.heap chain).1 pre (some (realRef t.heap.length)))
      t.heap.length (some (Ref.mk true pre)))
      (t.heap.length + chain.length - 1) (some (fwdRef a))) a
      (some (Ref.mk true (t.heap.length + chain.length - 1))) := by
    rw [ht']
    simp [connectF, ensureProxy, realRef, fwdRef_pos haib.1]
  have hres := @block_link_shape _ _ i _ _ pre a hC hchne hpre
    (by rw [hheadd])
    hheap
  exact ⟨hchne, hfresh, by rw [ht'], hres.1, hres.2.1, hres.2.2.1,
    hres.2.2.2⟩

/-- `nodeKeyOf` only reads the `key` and `value` fields. -/
theorem nodeKeyOf_eq {h1 h2 : Heap} {i : Nat} (hk : keyF h1 i = keyF h2 i)
    (hv : valueF h1 i = valueF h2 i) :
    nodeKeyOf (getH h1 i) = nodeKeyOf (getH h2 i) := by
  unfold nodeKeyOf
  rcases hke : (getH h2 i).key with _ | k
  · rw [show (getH h1 i).key = keyF h1 i from rfl, hk,
      show keyF h2 i = (getH h2 i).key from rfl, hke]
    simp only []
    rw [show (getH h1 i).value = valueF h1 i from rfl, hv,
      show valueF h2 i = (getH h2 i).value from rfl]
  · rw [show (getH h1 i).key = keyF h1 i from rfl, hk,
      show keyF h2 i = (getH h2 i).key from rfl, hke]

/-- `block_discard`'s table clean-up pass: popping the key of every node on
the walked path filters exactly those keys out of the table. -/
theorem popFold_filter {hp : Heap} :
    ∀ (l : List Nat) (acc tbl : List (String × Nat)),
      (l.foldlM (fun acc i => do
        match nodeKeyOf (getH hp i) with
        | none => pure acc
        | some k => do
          let (_, rest) ← orErr (odPop acc k) .keyError
          pure rest) acc) = .ok tbl →
      tbl = acc.filter (fun e =>
        ! (l.filterMap (fun i => nodeKeyOf (getH hp i))).contains e.1) := by
  intro l
  induction l with
  | nil =>
    intro acc tbl h
    simp only [List.foldlM_nil] at h
    have hac : acc = tbl := by simpa using h
    subst hac
    simp
  | cons x l ih =>
    intro acc tbl h
    rw [List.foldlM_cons] at h
    rcases hkey : nodeKeyOf (getH hp x) with _ | k
    · rw [hkey] at h
      simp only [expure_ok, exbind_pure_ok] at h
      rw [ih acc tbl h]
      simp only [List.filterMap_cons, hkey]
    · rw [hkey] at h
      simp only [expure_ok, exbind_pure_ok] at h
      rcases hpop : odPop acc k with _ | ⟨v, rest⟩
      · rw [hpop] at h
        simp [orErr] at h
      · rw [hpop] at h
        simp only [orErr_some, expure_ok, exbind_pure_ok] at h
        obtain ⟨-, hrest⟩ := odPop_some hpop
        have htl := ih rest tbl h
        rw [htl, hrest, List.filter_filter]
        simp only [List.filterMap_cons, hkey]
        congr 1
        funext e
        by_cases hek2 : e.1 = k
        · simp [hek2]
        · simp [hek2]

/-- The walked block is still consecutively `next`-linked after boundary
surgery that does not touch the `next` slot of any non-final block node. -/
theorem chain'_walk_transfer {h h' : Heap} {l : List Nat} (hne : l ≠ [])
    (hnd : l.Nodup) (hc : List.Chain' (Adj h) l)
    (hl0 : ∀ x ∈ l, x ≠ 0)
    (hnext : ∀ x ∈ l, x ≠ l.getLast hne → nextF h' x = nextF h x) :
    List.Chain' (fun a b => nextF h' a = some (realRef b)) l := by
  rw [List.chain'_iff_get] at hc ⊢
  simp only [List.get_eq_getElem] at hc ⊢
  intro i hi
  have hlt : i < l.length := by omega
  have hlt1 : i + 1 < l.length := by omega
  obtain ⟨hcn, hcp⟩ := hc i hi
  rw [hnext l[i] (l.getElem_mem hlt) ?_]
  · rw [hcn, fwdRef_pos (hl0 l[i + 1] (l.getElem_mem hlt1))]
  · rw [List.getLast_eq_getElem]
    intro hcontra
    have := (@List.Nodup.getElem_inj_iff _ _ hnd _ hlt _ (by omega)).mp hcontra
    omega

/-- Everything `block_discard` does on a well-formed topology: the run `D`
between the two anchors is unlinked from the live cycle and every key of a
node on the run is dropped from the table. -/
theorem blockDiscard_shape {t : Top} {L D R : List Nat} {sk ek : String}
    {t' : Top} (hC : ChainOK t (L ++ D ++ R)) (hDne : D ≠ [])
    (hsk : lookupA t.table sk = some (D.head hDne))
    (hek : lookupA t.table ek = some (D.getLast hDne))
    (hop : t.blockDiscard sk ek = .ok t') :
    t'.heap.length = t.heap.length ∧
    ChainOK t' (L ++ R) ∧
    t'.table = t.table.filter (fun e =>
      ! (D.filterMap (fun i => nodeKeyOf (getH t.heap i))).contains e.1) ∧
    (∀ j, j < t.heap.length →
      keyF t'.heap j = keyF t.heap j ∧ valueF t'.heap j = valueF t.heap j) := by
  obtain ⟨hlen, hbnd, hnd, hchain⟩ := id hC
  have hDsub : ∀ x ∈ D, x ∈ L ++ D ++ R := fun x hx =>
    List.mem_append_left _ (List.mem_append_right _ hx)
  have hndLD : (L ++ D).Nodup := (List.nodup_append.1 hnd).1
  have hdisjLD_R := (List.nodup_append.1 hnd).2.2
  have hndD : D.Nodup := (List.nodup_append.1 hndLD).2.1
  have hdisjL_D := (List.nodup_append.1 hndLD).2.2
  set p := ((0 : Nat) :: L).getLast (by simp) with hp
  set nx := (R ++ [0]).head (by simp) with hnx
  have hCa : ChainOK t (L ++ (D ++ R)) := by
    rw [← List.append_assoc]
    exact hC
  have hgap1 := chain_gap hCa
  have hheadDR : (((D ++ R) ++ [0])).head (by simp) = D.head hDne := by
    have h1 : (((D ++ R) ++ [0])).head? = some (D.head hDne) := by
      rcases D with _ | ⟨d0, D2⟩
      · exact absurd rfl hDne
      · rfl
    rw [List.head?_eq_head (by simp)] at h1
    exact Option.some.inj h1
  have hsprev : prevF t.heap (D.head hDne) = some (Ref.mk true p) := by
    have h2 := hgap1.2
    rw [hheadDR] at h2
    exact h2
  have hgap2 := chain_gap hC
  have hgetLD : ((0 : Nat) :: (L ++ D)).getLast (by simp) = D.getLast hDne :=
    List.getLast_append' ((0 : Nat) :: L) D hDne
  have henext : nextF t.heap (D.getLast hDne) = some (fwdRef nx) := by
    have h1 := hgap2.1
    rw [hgetLD] at h1
    exact h1
  have hpmem : p ∈ (0 : Nat) :: L := hp ▸ List.getLast_mem _
  have hplt : p < t.heap.length := by
    rcases List.mem_cons.1 hpmem with h | h
    · omega
    · exact (hbnd p (List.mem_append_left _ (List.mem_append_left _ h))).2
  have hpD : p ∉ D := by
    rcases List.mem_cons.1 hpmem with h | h
    · intro hm
      exact (hbnd p (hDsub _ hm)).1 h
    · intro hm
      exact hdisjL_D h hm
  have hnxmem : nx ∈ R ++ [0] := hnx ▸ List.head_mem _
  have hnxlt : nx < t.heap.length := by
    rcases List.mem_append.1 hnxmem with h | h
    · exact (hbnd nx (List.mem_append_right _ h)).2
    · simp at h
      omega
  have hnxD : nx ∉ D := by
    rcases List.mem_append.1 hnxmem with h | h
    · intro hm
      exact hdisjLD_R (List.mem_append_right _ hm) h
    · simp at h
      intro hm
      exact (hbnd nx (hDsub _ hm)).1 h
  have hpe : p ≠ D.getLast hDne := fun hc => hpD (hc ▸ List.getLast_mem hDne)
  have hnxs : nx ≠ D.head hDne := fun hc => hnxD (hc ▸ List.head_mem hDne)
  unfold Top.blockDiscard at hop
  rw [hsk, hek] at hop
  simp only [orErr_some, exbind_pure_ok] at hop
  rw [show (getH t.heap (D.head hDne)).prev = some (Ref.mk true p)
    from hsprev] at hop
  simp only [orErr_some, exbind_pure_ok] at hop
  rw [show (getH t.heap (D.getLast hDne)).next = some (fwdRef nx)
    from henext] at hop
  simp only [orErr_some, exbind_pure_ok, fwdRef_id] at hop
  have heN : (getH (setPrevF (setNextF t.heap p none) (D.head hDne) none)
      (D.getLast hDne)).next = some (fwdRef nx) := by
    show nextF (setPrevF (setNextF t.heap p none) (D.head hDne) none)
      (D.getLast hDne) = _
    rw [nextF_setPrevF, nextF_setNextF_ne hpe]
    exact henext
  rw [heN] at hop
  simp only [orErr_some, exbind_pure_ok, fwdRef_id] at hop
  set H2 := setNextF (setPrevF (setPrevF (setNextF t.heap p none)
    (D.head hDne) none) nx none) (D.getLast hDne) none with hH2
  have hH3eq : connectF H2 (Ref.mk true p) (fwdRef nx) true
      = setPrevF (setNextF H2 p (some (fwdRef nx))) nx
        (some (Ref.mk true p)) := by
    simp [connectF, fwdRef_id]
  rw [hH3eq] at hop
  set H3 := setPrevF (setNextF H2 p (some (fwdRef nx))) nx
    (some (Ref.mk true p)) with hH3
  have hH3len : H3.length = t.heap.length := by
    rw [hH3, hH2]
    simp
  have hH3next : ∀ x, x ∉ D → x ≠ p → nextF H3 x = nextF t.heap x := by
    intro x hxD hxp
    rw [hH3, nextF_setPrevF,
      nextF_setNextF_ne (show p ≠ x from fun hc => hxp hc.symm), hH2,
      nextF_setNextF_ne (show D.getLast hDne ≠ x from
        fun hc => hxD (hc ▸ List.getLast_mem hDne)),
      nextF_setPrevF, nextF_setPrevF,
      nextF_setNextF_ne (show p ≠ x from fun hc => hxp hc.symm)]
  have hH3prev : ∀ x, x ∉ D → x ≠ nx → prevF H3 x = prevF t.heap x := by
    intro x hxD hxnx
    rw [hH3, prevF_setPrevF_ne (show nx ≠ x from fun hc => hxnx hc.symm),
      prevF_setNextF, hH2, prevF_setNextF,
      prevF_setPrevF_ne (show nx ≠ x from fun hc => hxnx hc.symm),
      prevF_setPrevF_ne (show D.head hDne ≠ x from
        fun hc => hxD (hc ▸ List.head_mem hDne)),
      prevF_setNextF]
  have hH3nextD : ∀ x ∈ D, x ≠ D.getLast hDne → nextF H3 x = nextF t.heap x := by
    intro x hxm hxe
    rw [hH3, nextF_setPrevF,
      nextF_setNextF_ne (show p ≠ x from fun hc => hpD (hc ▸ hxm)), hH2,
      nextF_setNextF_ne (show D.getLast hDne ≠ x from fun hc => hxe hc.symm),
      nextF_setPrevF, nextF_setPrevF,
      nextF_setNextF_ne (show p ≠ x from fun hc => hpD (hc ▸ hxm))]
  have hDadj : List.Chain' (Adj t.heap) D :=
    hchain.infix ⟨(0 : Nat) :: L, R ++ [0], by simp⟩
  have hpath := getNodePath_chain (H := H3) (D := D) hDne
    (chain'_walk_transfer hDne hndD hDadj
      (fun x hx => (hbnd x (hDsub x hx)).1) hH3nextD)
    hndD
    (by
      have := nodup_bound_length hndD (fun i hi => (hbnd i (hDsub i hi)).2)
      rw [hH3len]
      omega)
  rw [hpath] at hop
  simp only [exbind_pure_ok] at hop
  obtain ⟨tblv, hfold, hrest⟩ := exbind_ok.1 hop
  simp only [Except.ok.injEq] at hrest
  have ht' : t' = { heap := H3, table := tblv } := hrest.symm
  have htblchar := popFold_filter D t.table tblv hfold
  have hkeysEq : (fun i => nodeKeyOf (getH H3 i))
      = (fun i => nodeKeyOf (getH t.heap i)) := by
    funext i
    refine nodeKeyOf_eq ?_ ?_
    · rw [hH3, keyF_setPrevF, keyF_setNextF, hH2, keyF_setNextF,
        keyF_setPrevF, keyF_setPrevF, keyF_setNextF]
    · rw [hH3, valueF_setPrevF, valueF_setNextF, hH2, valueF_setNextF,
        valueF_setPrevF, valueF_setPrevF, valueF_setNextF]
  rw [hkeysEq] at htblchar
  have hCres := chain_surgery (t := t) (G := H3) (W := tblv)
    (L := L) (D := D) (R := R) (M := []) hC (by omega)
    (by intro m hm; simp at hm)
    List.nodup_nil
    (by
      intro x hx hxp hxD
      exact hH3next x hxD (fun hc => hxp (by rw [hc, hp])))
    (by
      intro x hx hxn hxD
      exact hH3prev x hxD (fun hc => hxn (by rw [hc, hnx])))
    (by
      simp only [List.nil_append]
      refine List.chain'_pair.2 ⟨?_, ?_⟩
      · rw [hH3, nextF_setPrevF, nextF_setNextF_eq (by rw [hH2]; simp; omega)]
      · rw [hH3, prevF_setPrevF_eq (by rw [hH2]; simp [hH2]; omega)]
        rfl)
  refine ⟨by rw [ht']; exact hH3len, ?_, by rw [ht']; exact htblchar, ?_⟩
  · have hcast : t' = { heap := t'.heap, table := t'.table } := rfl
    rw [hcast, show t'.heap = H3 from by rw [ht'],
      show t'.table = tblv from by rw [ht']]
    simpa using hCres
  · intro j hj
    constructor
    · rw [ht']
      show keyF H3 j = _
      rw [hH3, keyF_setPrevF, keyF_setNextF, hH2, keyF_setNextF,
        keyF_setPrevF, keyF_setPrevF, keyF_setNextF]
    · rw [ht']
      show valueF H3 j = _
      rw [hH3, valueF_setPrevF, valueF_setNextF, hH2, valueF_setNextF,
        valueF_setPrevF, valueF_setPrevF, valueF_setNextF]

/-! ## The preserved well-formedness invariant -/

/-- Every table entry names its node: the registered id's stored key is the
entry's key. -/
def TableCorr (t : Top) : Prop := ∀ e ∈ t.table, keyF t.heap e.2 = some e.1

/-- The table invariant every successful operation preserves: keys are
unique, every entry points at a linked node, and entries name their nodes.
(Values being pairwise distinct follows.) -/
def TableWF (t : Top) (order : List Nat) : Prop :=
  (t.table.map Prod.fst).Nodup ∧ (∀ e ∈ t.table, e.2 ∈ order) ∧ TableCorr t

instance (t : Top) : Decidable (TableCorr t) :=
  inferInstanceAs (Decidable (∀ e ∈ t.table, keyF t.heap e.2 = some e.1))

instance (t : Top) (order : List Nat) : Decidable (TableWF t order) :=
  inferInstanceAs (Decidable ((t.table.map Prod.fst).Nodup ∧
    (∀ e ∈ t.table, e.2 ∈ order) ∧ TableCorr t))

/-- Well-formedness of a topology as maintained by the container API. -/
def WF (t : Top) : Prop := ∃ order, ChainOK t order ∧ TableWF t order

theorem TableWF.vals_nodup {t : Top} {order : List Nat}
    (h : TableWF t order) : (t.table.map Prod.snd).Nodup := by
  obtain ⟨hk, -, hcorr⟩ := h
  have htnd : t.table.Nodup := hk.of_map
  refine List.Nodup.map_on ?_ htnd
  intro x hx y hy hxy
  have h1 := hcorr x hx
  have h2 := hcorr y hy
  rw [hxy] at h1
  have hkeys : x.1 = y.1 := Option.some.inj (h1.symm.trans h2)
  rcases x with ⟨x1, x2⟩
  rcases y with ⟨y1, y2⟩
  simp only [] at hkeys hxy
  rw [hkeys, hxy]

theorem TableWF.toSub {t : Top} {order : List Nat} (h : TableWF t order) :
    TableSub t order :=
  ⟨h.1, h.vals_nodup, h.2.1⟩

/-- `dict` assignment of an absent key appends. -/
theorem odUpdate_absent {α : Type} {l : List (String × α)} {k : String}
    {v : α} (h : lookupA l k = none) : odUpdate l k v = l ++ [(k, v)] := by
  have hf : l.find? (fun e => e.1 = k) = none := by
    rcases hf : l.find? (fun e => e.1 = k) with _ | w
    · exact hf
    · unfold lookupA at h
      rw [hf] at h
      simp at h
  unfold odUpdate
  rw [hf]
  simp

/-- A successful lookup names a real entry. -/
theorem lookupA_mem {α : Type} {l : List (String × α)} {k : String} {v : α}
    (h : lookupA l k = some v) : (k, v) ∈ l := by
  unfold lookupA at h
  rcases hf : l.find? (fun e => e.1 = k) with _ | w <;> rw [hf] at h
  · simp at h
  · have hmem := List.mem_of_find?_eq_some hf
    have hpred := List.find?_some hf
    rcases w with ⟨w1, w2⟩
    have hw1 : w1 = k := by simpa using hpred
    have hw2 : w2 = v := by simpa using h
    rw [← hw1, ← hw2]
    exact hmem

/-- An absent key matches no entry. -/
theorem lookupA_none_iff {α : Type} {l : List (String × α)} {k : String} :
    lookupA l k = none ↔ ∀ e ∈ l, e.1 ≠ k := by
  constructor
  · intro h e hmem hek
    have hf : l.find? (fun e => e.1 = k) = none := by
      rcases hf : l.find? (fun e => e.1 = k) with _ | w
      · exact hf
      · unfold lookupA at h
        rw [hf] at h
        simp at h
    have := List.find?_eq_none.1 hf e hmem
    simp at this
    exact this hek
  · intro hall
    unfold lookupA
    rw [List.find?_eq_none.2 ?_]
    · rfl
    · intro e hmem
      simpa using hall e hmem

/-- Walking past the block never reaches the target: if the target is not on
the remaining chain and the chain ends in a proxy (or broken) link, the walk
raises. -/
theorem getNodePathAux_stuck {hp : Heap} {e : Nat} :
    ∀ (D : List Nat) (cur : Nat) (seen : List Nat) (fuel : Nat),
      List.Chain' (fun a b => nextF hp a = some (realRef b)) (cur :: D) →
      (∀ x ∈ D, x ≠ e) →
      (∀ r, nextF hp ((cur :: D).getLast (by simp)) = some r →
        r.proxy = true) →
      D.length + 1 ≤ fuel →
      ∃ err, getNodePathAux hp e fuel cur seen = .error err := by
  intro D
  induction D with
  | nil =>
    intro cur seen fuel hadj hne hstop hfuel
    rcases fuel with _ | f
    · simp at hfuel
    rcases hnx : (getH hp cur).next with _ | r
    · exact ⟨.valueError, by rw [getNodePathAux, hnx]⟩
    · have hproxy := hstop r hnx
      exact ⟨.typeError, by rw [getNodePathAux, hnx]; simp [hproxy]⟩
  | cons d D ih =>
    intro cur seen fuel hadj hne hstop hfuel
    rcases fuel with _ | f
    · simp at hfuel
    have hstep : (getH hp cur).next = some (realRef d) :=
      (List.chain'_cons.1 hadj).1
    rw [getNodePathAux, hstep]
    simp only [realRef]
    rcases hcont : seen.contains d with _ | _
    · -- not seen: step on
      rw [if_neg (by simp), if_neg (by simp [hcont]),
        if_neg (by simpa using hne d (by simp))]
      exact ih d (seen ++ [d]) f (List.chain'_cons.1 hadj).2
        (fun x hx => hne x (by simp [hx]))
        (by
          intro r hr
          refine hstop r ?_
          rw [show ((cur :: d :: D).getLast (by simp))
            = ((d :: D).getLast (by simp)) from List.getLast_cons _]
          exact hr)
        (by simpa using hfuel)
    · -- already seen: the walk stops with an error
      rw [if_neg (by simp), if_pos (by simp [hcont])]
      exact ⟨.valueError, rfl⟩

/-- Membership after a `dict` assignment. -/
theorem odUpdate_mem {α : Type} {l : List (String × α)} {k : String} {v : α}
    {e : String × α} (h : e ∈ odUpdate l k v) : e ∈ l ∨ e = (k, v) := by
  unfold odUpdate at h
  split at h
  · obtain ⟨x, hx, hex⟩ := List.mem_map.1 h
    by_cases hxk : x.1 = k
    · rw [if_pos hxk] at hex
      exact Or.inr hex.symm
    · rw [if_neg hxk] at hex
      exact Or.inl (hex ▸ hx)
  · rcases List.mem_append.1 h with h1 | h1
    · exact Or.inl h1
    · simp at h1
      exact Or.inr h1

/-- `dict` assignment preserves key uniqueness. -/
theorem odUpdate_keys_nodup {α : Type} {l : List (String × α)} {k : String}
    {v : α} (h : (l.map Prod.fst).Nodup) :
    ((odUpdate l k v).map Prod.fst).Nodup := by
  unfold odUpdate
  split
  · next hsome =>
    have : (l.map (fun e => if e.1 = k then (k, v) else e)).map Prod.fst
        = l.map Prod.fst := by
      rw [List.map_map]
      refine List.map_congr_left ?_
      intro e hmem
      by_cases hek2 : e.1 = k
      · simp [hek2]
      · simp [hek2]
    rw [this]
    exact h
  · next hnone =>
    rw [List.map_append]
    refine List.nodup_append.2 ⟨h, by simp, ?_⟩
    intro x hxmem
    simp only [List.map_cons, List.map_nil, List.mem_singleton]
    intro hxk
    obtain ⟨e, hemem, hefst⟩ := List.mem_map.1 hxmem
    have hsome : (l.find? (fun e2 => e2.1 = k)).isSome := by
      rw [List.find?_isSome]
      refine ⟨e, hemem, ?_⟩
      simp [hefst, hxk]
    exact hnone hsome

/-- Membership after a batch of `dict` assignments. -/
theorem foldl_odUpdate_mem {α : Type} :
    ∀ (ps : List (String × α)) (tbl : List (String × α)) (e : String × α),
      e ∈ ps.foldl (fun a p => odUpdate a p.1 p.2) tbl → e ∈ tbl ∨ e ∈ ps := by
  intro ps
  induction ps with
  | nil => intro tbl e h; exact Or.inl h
  | cons p ps ih =>
    intro tbl e h
    rw [List.foldl_cons] at h
    rcases ih _ _ h with h1 | h1
    · rcases odUpdate_mem h1 with h2 | h2
      · exact Or.inl h2
      · exact Or.inr (by simp [h2])
    · exact Or.inr (by simp [h1])

/-- A batch of `dict` assignments preserves key uniqueness. -/
theorem foldl_odUpdate_keys_nodup {α : Type} :
    ∀ (ps : List (String × α)) (tbl : List (String × α)),
      (tbl.map Prod.fst).Nodup →
      ((ps.foldl (fun a p => odUpdate a p.1 p.2) tbl).map Prod.fst).Nodup := by
  intro ps
  induction ps with
  | nil => intro tbl h; exact h
  | cons p ps ih =>
    intro tbl h
    rw [List.foldl_cons]
    exact ih _ (odUpdate_keys_nodup h)

/-- An element of a zip comes from matching positions. -/
theorem mem_zip_getElem {α β : Type} {l1 : List α} {l2 : List β} {e : α × β}
    (h : e ∈ l1.zip l2) :
    ∃ j, ∃ (h1 : j < l1.length) (h2 : j < l2.length),
      e = ((l1[j]), (l2[j])) := by
  obtain ⟨j, hj, hje⟩ := List.mem_iff_getElem.1 h
  have hj1 : j < l1.length := by
    rw [List.length_zip] at hj
    omega
  have hj2 : j < l2.length := by
    rw [List.length_zip] at hj
    omega
  exact ⟨j, hj1, hj2, by rw [← hje, List.getElem_zip]⟩

/-- Two table entries with the same node id coincide (value injectivity). -/
theorem table_val_inj {t : Top} {order : List Nat} (hT : TableWF t order)
    {x y : String × Nat} (hx : x ∈ t.table) (hy : y ∈ t.table)
    (hxy : x.2 = y.2) : x = y := by
  have h1 := hT.2.2 x hx
  have h2 := hT.2.2 y hy
  rw [hxy] at h1
  have hkeys : x.1 = y.1 := Option.some.inj (h1.symm.trans h2)
  rcases x with ⟨x1, x2⟩
  rcases y with ⟨y1, y2⟩
  simp only [] at hkeys hxy
  rw [hkeys, hxy]

/-- Old positions survive an insertion into the order list. -/
theorem mem_take_cons_drop {order : List Nat} {x m : Nat} {n : Nat}
    (hx : x ∈ order) : x ∈ order.take n ++ m :: order.drop n := by
  have := List.take_append_drop n order
  rw [← this] at hx
  rcases List.mem_append.1 hx with h | h
  · exact List.mem_append_left _ h
  · exact List.mem_append_right _ (List.mem_cons_of_mem _ h)

/-- Table well-formedness after registering one fresh node under a free key. -/
theorem tableWF_append_fresh {t t' : Top} {order order' : List Nat}
    {k : String} (hT : TableWF t order)
    (hbnd : ∀ i ∈ order, i ≠ 0 ∧ i < t.heap.length)
    (htbl : t'.table = t.table ++ [(k, t.heap.length)])
    (hfree : lookupA t.table k = none)
    (hsub : ∀ x ∈ order, x ∈ order')
    (hnidmem : t.heap.length ∈ order')
    (hkey : keyF t'.heap t.heap.length = some k)
    (hold : ∀ j, j < t.heap.length → keyF t'.heap j = keyF t.heap j) :
    TableWF t' order' := by
  obtain ⟨hkn, hvin, hcorr⟩ := hT
  refine ⟨?_, ?_, ?_⟩
  · rw [htbl, List.map_append]
    refine List.nodup_append.2 ⟨hkn, by simp, ?_⟩
    intro x hxmem
    simp only [List.map_cons, List.map_nil, List.mem_singleton]
    intro hxk
    obtain ⟨e, hemem, hefst⟩ := List.mem_map.1 hxmem
    exact (lookupA_none_iff.1 hfree e hemem) (hefst.trans hxk)
  · intro e hemem
    rw [htbl] at hemem
    rcases List.mem_append.1 hemem with h1 | h1
    · exact hsub _ (hvin e h1)
    · simp at h1
      rw [h1]
      exact hnidmem
  · intro e hemem
    rw [htbl] at hemem
    rcases List.mem_append.1 hemem with h1 | h1
    · have helt : e.2 < t.heap.length := (hbnd e.2 (hvin e h1)).2
      rw [hold e.2 helt]
      exact hcorr e h1
    · simp at h1
      rw [h1]
      exact hkey

theorem add_WF {t t' : Top} {k : String} {v : NodeValue} (h : WF t)
    (hop : t.add k v = .ok t') : WF t' := by
  obtain ⟨order, hC, hT⟩ := h
  obtain ⟨hfree, hlen2, htbl, hC', hkey, hval, hold⟩ := add_shape hC hop
  refine ⟨order ++ [t.heap.length], hC', ?_⟩
  refine tableWF_append_fresh hT hC.2.1 ?_ hfree ?_ (by simp) hkey
    (fun j hj => (hold j hj).1)
  · rw [htbl, odUpdate_absent hfree]
  · intro x hx
    exact List.mem_append_left _ hx

theorem insert_WF {t t' : Top} {index : Nat} {k : String} {v : NodeValue}
    (h : WF t) (hop : t.insert index k v = .ok t') : WF t' := by
  obtain ⟨order, hC, hT⟩ := h
  obtain ⟨hfree, htbl, hlen2, hC', hkey, hval, hold⟩ := insert_shape hC hop
  refine ⟨order.take index ++ t.heap.length :: order.drop index, hC', ?_⟩
  refine tableWF_append_fresh hT hC.2.1 ?_ hfree
    (fun x hx => mem_take_cons_drop hx) (by simp) hkey
    (fun j hj => (hold j hj).1)
  rw [htbl, odUpdate_absent hfree]

theorem relativeInsert_WF {t t' : Top} {anchor k : String} {v : NodeValue}
    {fwd : Bool} (h : WF t)
    (hop : t.relativeInsert anchor k v fwd = .ok t') : WF t' := by
  obtain ⟨order, hC, hT⟩ := h
  have hanch : ∃ a : Nat, lookupA t.table anchor = some a ∧
      ∃ i : Nat, order[i]? = some a := by
    rcases hcase : lookupA t.table anchor with _ | a
    · exfalso
      unfold Top.relativeInsert at hop
      rw [hcase] at hop
      simp [orErr] at hop
    · have hmem : a ∈ order := hT.2.1 (anchor, a) (lookupA_mem hcase)
      obtain ⟨i, hi, hia⟩ := List.mem_iff_getElem.1 hmem
      exact ⟨a, rfl, i, by rw [List.getElem?_eq_some]; exact ⟨hi, hia⟩⟩
  obtain ⟨a, hcasea, i, hia⟩ := hanch
  rcases fwd with _ | _
  · obtain ⟨hfree, htbl, hlen2, hC', hkey, hval, hold⟩ :=
      relativeInsert_shape_bwd hC hia hcasea hop
    refine ⟨order.take i ++ t.heap.length :: order.drop i, hC', ?_⟩
    refine tableWF_append_fresh hT hC.2.1 ?_ hfree
      (fun x hx => mem_take_cons_drop hx) (by simp) hkey
      (fun j hj => (hold j hj).1)
    rw [htbl, odUpdate_absent hfree]
  · obtain ⟨hfree, htbl, hlen2, hC', hkey, hval, hold⟩ :=
      relativeInsert_shape_fwd hC hia hcasea hop
    refine ⟨order.take (i + 1) ++ t.heap.length :: order.drop (i + 1), hC', ?_⟩
    refine tableWF_append_fresh hT hC.2.1 ?_ hfree
      (fun x hx => mem_take_cons_drop hx) (by simp) hkey
      (fun j hj => (hold j hj).1)
    rw [htbl, odUpdate_absent hfree]

/-- Table well-formedness after removing one key (`pop`/`discard`). -/
theorem tableWF_filter_key {t t' : Top} {order order' : List Nat} {k : String}
    {i : Nat} (hT : TableWF t order)
    (htbl : t'.table = t.table.filter (fun e => e.1 ≠ k))
    (hlook : lookupA t.table k = some i)
    (hsub : ∀ x ∈ order, x ≠ i → x ∈ order')
    (hold : ∀ j, keyF t'.heap j = keyF t.heap j) :
    TableWF t' order' := by
  obtain ⟨hkn, hvin, hcorr⟩ := hT
  have hfsub : List.Sublist (t.table.filter (fun e => e.1 ≠ k)) t.table :=
    List.filter_sublist _
  refine ⟨?_, ?_, ?_⟩
  · rw [htbl]
    exact ((hfsub.map Prod.fst).nodup hkn)
  · intro e hemem
    rw [htbl] at hemem
    have hetbl : e ∈ t.table := List.mem_of_mem_filter hemem
    have hek : e.1 ≠ k := by simpa using List.of_mem_filter hemem
    refine hsub _ (hvin e hetbl) ?_
    intro hei
    have hki : (k, i) ∈ t.table := lookupA_mem hlook
    have := table_val_inj ⟨hkn, hvin, hcorr⟩ hetbl hki hei
    rw [this] at hek
    exact hek rfl
  · intro e hemem
    rw [htbl] at hemem
    rw [hold]
    exact hcorr e (List.mem_of_mem_filter hemem)

theorem pop_WF {t t' : Top} {k : String} {i : Nat} (h : WF t)
    (hop : t.pop k = .ok (t', i)) : WF t' := by
  obtain ⟨order, hC, hT⟩ := h
  obtain ⟨hlook, htbl, hlen2, hCsplit, hold⟩ := pop_shape hC hop
  have hmem : i ∈ order := hT.2.1 (k, i) (lookupA_mem hlook)
  obtain ⟨L, R, hLR⟩ := List.append_of_mem hmem
  refine ⟨L ++ R, hCsplit L R hLR, ?_⟩
  refine tableWF_filter_key hT htbl hlook ?_ (fun j => (hold j).1)
  intro x hx hxi
  rw [hLR] at hx
  rcases List.mem_append.1 hx with h1 | h1
  · exact List.mem_append_left _ h1
  · rcases List.mem_cons.1 h1 with h2 | h2
    · exact absurd h2 hxi
    · exact List.mem_append_right _ h2

theorem discard_WF {t t' : Top} {k : String} (h : WF t)
    (hop : t.discard k = .ok t') : WF t' := by
  obtain ⟨order, hC, hT⟩ := h
  rcases discard_shape hC hop with ⟨-, ht⟩ | ⟨i, hlook, htbl, hlen2, hCsplit, hold⟩
  · rw [ht]
    exact ⟨order, hC, hT⟩
  · have hmem : i ∈ order := hT.2.1 (k, i) (lookupA_mem hlook)
    obtain ⟨L, R, hLR⟩ := List.append_of_mem hmem
    refine ⟨L ++ R, hCsplit L R hLR, ?_⟩
    refine tableWF_filter_key hT htbl hlook ?_ (fun j => (hold j).1)
    intro x hx hxi
    rw [hLR] at hx
    rcases List.mem_append.1 hx with h1 | h1
    · exact List.mem_append_left _ h1
    · rcases List.mem_cons.1 h1 with h2 | h2
      · exact absurd h2 hxi
      · exact List.mem_append_right _ h2

theorem replace_WF {t t' : Top} {k : String} {v : NodeValue} (h : WF t)
    (hop : t.replace k v = .ok t') : WF t' := by
  obtain ⟨order, hC, hT⟩ := h
  obtain ⟨i, hlook, htbl, hlen2, hCsplit, hkey, hval, hold⟩ :=
    replace_shape hC hop
  have hmem : i ∈ order := hT.2.1 (k, i) (lookupA_mem hlook)
  obtain ⟨L, R, hLR⟩ := List.append_of_mem hmem
  refine ⟨L ++ t.heap.length :: R, hCsplit L R hLR, ?_, ?_, ?_⟩
  · rw [htbl]
    refine odUpdate_keys_nodup ?_
    exact ((List.filter_sublist _).map Prod.fst).nodup hT.1
  · intro e hemem
    rw [htbl] at hemem
    have hfree : lookupA (t.table.filter (fun e => e.1 ≠ k)) k = none := by
      rw [lookupA_none_iff]
      intro e2 hmem2
      simpa using List.of_mem_filter hmem2
    rw [odUpdate_absent hfree] at hemem
    rcases List.mem_append.1 hemem with h1 | h1
    · have hetbl : e ∈ t.table := List.mem_of_mem_filter h1
      have hek : e.1 ≠ k := by simpa using List.of_mem_filter h1
      have hine : e.2 ∈ order := hT.2.1 e hetbl
      have hne_i : e.2 ≠ i := by
        intro hei
        have hki : (k, i) ∈ t.table := lookupA_mem hlook
        have := table_val_inj hT hetbl hki hei
        rw [this] at hek
        exact hek rfl
      rw [hLR] at hine
      rcases List.mem_append.1 hine with h2 | h2
      · exact List.mem_append_left _ h2
      · rcases List.mem_cons.1 h2 with h3 | h3
        · exact absurd h3 hne_i
        · exact List.mem_append_right _ (List.mem_cons_of_mem _ h3)
    · simp at h1
      rw [h1]
      simp
  · intro e hemem
    rw [htbl] at hemem
    have hfree : lookupA (t.table.filter (fun e => e.1 ≠ k)) k = none := by
      rw [lookupA_none_iff]
      intro e2 hmem2
      simpa using List.of_mem_filter hmem2
    rw [odUpdate_absent hfree] at hemem
    rcases List.mem_append.1 hemem with h1 | h1
    · have hetbl : e ∈ t.table := List.mem_of_mem_filter h1
      have hine : e.2 ∈ order := hT.2.1 e hetbl
      have helt : e.2 < t.heap.length := (hC.2.1 e.2 hine).2
      rw [(hold e.2 helt).1]
      exact hT.2.2 e hetbl
    · simp at h1
      rw [h1]
      exact hkey

theorem mem_take_append_drop {order M : List Nat} {x : Nat} {n : Nat}
    (hx : x ∈ order) : x ∈ order.take n ++ M ++ order.drop n := by
  have := List.take_append_drop n order
  rw [← this] at hx
  rcases List.mem_append.1 hx with h | h
  · exact List.mem_append_left _ (List.mem_append_left _ h)
  · exact List.mem_append_right _ h

/-- Table well-formedness after registering a whole fresh chain. -/
theorem tableWF_block {t t' : Top} {order order' : List Nat}
    {chain : List (String × NodeValue)} (hT : TableWF t order)
    (hbnd : ∀ i ∈ order, i ≠ 0 ∧ i < t.heap.length)
    (htbl : t'.table = ((chain.map Prod.fst).zip
      (List.range' t.heap.length chain.length)).foldl
      (fun a e => odUpdate a e.1 e.2) t.table)
    (hsub : ∀ x ∈ order, x ∈ order')
    (hfreshmem : ∀ j, j < chain.length → t.heap.length + j ∈ order')
    (hkv : ∀ j, (hj : j < chain.length) →
      keyF t'.heap (t.heap.length + j) = some ((chain[j]).1))
    (hold : ∀ j, j < t.heap.length → keyF t'.heap j = keyF t.heap j) :
    TableWF t' order' := by
  obtain ⟨hkn, hvin, hcorr⟩ := hT
  refine ⟨?_, ?_, ?_⟩
  · rw [htbl]
    exact foldl_odUpdate_keys_nodup _ _ hkn
  · intro e hemem
    rw [htbl] at hemem
    rcases foldl_odUpdate_mem _ _ _ hemem with h1 | h1
    · exact hsub _ (hvin e h1)
    · obtain ⟨j, hj1, hj2, hje⟩ := mem_zip_getElem h1
      have hjc : j < chain.length := by simpa using hj1
      have h2 : e.2 = t.heap.length + j := by
        rw [hje]
        simp [List.getElem_range']
      rw [h2]
      exact hfreshmem j hjc
  · intro e hemem
    rw [htbl] at hemem
    rcases foldl_odUpdate_mem _ _ _ hemem with h1 | h1
    · have helt := (hbnd e.2 (hvin e h1)).2
      rw [hold e.2 helt]
      exact hcorr e h1
    · obtain ⟨j, hj1, hj2, hje⟩ := mem_zip_getElem h1
      have hjc : j < chain.length := by simpa using hj1
      have h2 : e.2 = t.heap.length + j := by
        rw [hje]
        simp [List.getElem_range']
      have h1f : e.1 = (chain[j]).1 := by
        rw [hje]
        simp
      rw [h2, hkv j hjc, h1f]

theorem blockInsert_WF {t t' : Top} {index : Nat}
    {chain : List (String × NodeValue)} (h : WF t)
    (hop : t.blockInsert index chain = .ok t') : WF t' := by
  obtain ⟨order, hC, hT⟩ := h
  obtain ⟨hchne, hfresh, htbl, hlen2, hC', hkv, hold⟩ := blockInsert_shape hC hop
  refine ⟨order.take index ++ List.range' t.heap.length chain.length
    ++ order.drop index, hC', ?_⟩
  refine tableWF_block hT hC.2.1 htbl (fun x hx => mem_take_append_drop hx)
    (fun j hj => List.mem_append_left _ (List.mem_append_right _
      (List.mem_range'_1.2 ⟨by omega, by omega⟩)))
    (fun j hj => (hkv j hj).1)
    (fun j hj => (hold j hj).1)

theorem relativeBlockInsert_WF {t t' : Top} {anchor : String}
    {chain : List (String × NodeValue)} {fwd : Bool} (h : WF t)
    (hop : t.relativeBlockInsert anchor chain fwd = .ok t') : WF t' := by
  obtain ⟨order, hC, hT⟩ := h
  have hanch : ∃ a : Nat, lookupA t.table anchor = some a ∧
      ∃ i : Nat, order[i]? = some a := by
    rcases hcase : lookupA t.table anchor with _ | a
    · exfalso
      unfold Top.relativeBlockInsert at hop
      rw [hcase] at hop
      simp [orErr] at hop
    · have hmem : a ∈ order := hT.2.1 (anchor, a) (lookupA_mem hcase)
      obtain ⟨i, hi, hia⟩ := List.mem_iff_getElem.1 hmem
      exact ⟨a, rfl, i, by rw [List.getElem?_eq_some]; exact ⟨hi, hia⟩⟩
  obtain ⟨a, hcasea, i, hia⟩ := hanch
  rcases fwd with _ | _
  · obtain ⟨hchne, hfresh, htbl, hlen2, hC', hkv, hold⟩ :=
      relativeBlockInsert_shape_bwd hC hia hcasea hop
    refine ⟨order.take i ++ List.range' t.heap.length chain.length
      ++ order.drop i, hC', ?_⟩
    refine tableWF_block hT hC.2.1 htbl (fun x hx => mem_take_append_drop hx)
      (fun j hj => List.mem_append_left _ (List.mem_append_right _
        (List.mem_range'_1.2 ⟨by omega, by omega⟩)))
      (fun j hj => (hkv j hj).1)
      (fun j hj => (hold j hj).1)
  · obtain ⟨hchne, hfresh, htbl, hlen2, hC', hkv, hold⟩ :=
      relativeBlockInsert_shape_fwd hC hia hcasea hop
    refine ⟨order.take (i + 1) ++ List.range' t.heap.length chain.length
      ++ order.drop (i + 1), hC', ?_⟩
    refine tableWF_block hT hC.2.1 htbl (fun x hx => mem_take_append_drop hx)
      (fun j hj => List.mem_append_left _ (List.mem_append_right _
        (List.mem_range'_1.2 ⟨by omega, by omega⟩)))
      (fun j hj => (hkv j hj).1)
      (fun j hj => (hold j hj).1)

/-- `block_discard` fails when the end anchor lies strictly before the start
anchor in the chain: the forward walk runs into the root proxy or loops. -/
theorem blockDiscard_bad_anchor {t : Top} {Ls Rs : List Nat} {sk ek : String}
    {sv ev : Nat} {t' : Top} (hC : ChainOK t (Ls ++ sv :: Rs))
    (hsv : lookupA t.table sk = some sv) (hev : lookupA t.table ek = some ev)
    (hevLs : ev ∈ Ls) : t.blockDiscard sk ek ≠ .ok t' := by
  intro hop
  obtain ⟨hlen, hbnd, hnd, hchain⟩ := id hC
  have hsvmem : sv ∈ Ls ++ sv :: Rs := List.mem_append_right _ (by simp)
  have hsvb := hbnd sv hsvmem
  have hevb := hbnd ev (List.mem_append_left _ hevLs)
  have hnodups := List.nodup_append.1 hnd
  have hdisj := hnodups.2.2
  have hevnotR : ev ∉ sv :: Rs := hdisj hevLs
  have hsvev : sv ≠ ev := by
    intro hc
    exact hevnotR (by rw [← hc]; simp)
  set p := ((0 : Nat) :: Ls).getLast (by simp) with hp
  have hpmem : p ∈ (0 : Nat) :: Ls := hp ▸ List.getLast_mem _
  have hplt : p < t.heap.length := by
    rcases List.mem_cons.1 hpmem with h | h
    · omega
    · exact (hbnd p (List.mem_append_left _ h)).2
  have hpnotin : p ∉ sv :: Rs := by
    rcases List.mem_cons.1 hpmem with h | h
    · intro hm
      rw [h] at hm
      exact (hbnd 0 (List.mem_append_right _ hm)).1 rfl
    · intro hm
      exact hdisj h hm
  have hgap1 := chain_gap (L := Ls) (R := sv :: Rs) hC
  have hsprev : prevF t.heap sv = some (Ref.mk true p) := hgap1.2
  obtain ⟨La, Lb, hLs⟩ := List.append_of_mem hevLs
  have hC2 : ChainOK t ((La ++ [ev]) ++ (Lb ++ sv :: Rs)) := by
    rw [show (La ++ [ev]) ++ (Lb ++ sv :: Rs) = (La ++ ev :: Lb) ++ sv :: Rs
      by simp, ← hLs]
    exact hC
  have hgap2 := chain_gap hC2
  set nx2 := ((Lb ++ sv :: Rs) ++ [0]).head (by simp) with hnx2
  have hgl : ((0 : Nat) :: (La ++ [ev])).getLast (by simp) = ev :=
    List.getLast_append' ((0 : Nat) :: La) [ev] (by simp)
  have henext : nextF t.heap ev = some (fwdRef nx2) := by
    have h1 := hgap2.1
    rw [hgl] at h1
    exact h1
  unfold Top.blockDiscard at hop
  rw [hsv, hev] at hop
  simp only [orErr_some, exbind_pure_ok] at hop
  rw [show (getH t.heap sv).prev = some (Ref.mk true p) from hsprev] at hop
  simp only [orErr_some, exbind_pure_ok] at hop
  rw [show (getH t.heap ev).next = some (fwdRef nx2) from henext] at hop
  simp only [orErr_some, exbind_pure_ok, fwdRef_id] at hop
  by_cases hpe : p = ev
  · have hnone : (getH (setPrevF (setNextF t.heap p none) sv none) ev).next
        = none := by
      show nextF (setPrevF (setNextF t.heap p none) sv none) ev = none
      rw [nextF_setPrevF, ← hpe, nextF_setNextF_eq hplt]
    rw [hnone] at hop
    simp [orErr] at hop
  · have heN : (getH (setPrevF (setNextF t.heap p none) sv none) ev).next
        = some (fwdRef nx2) := by
      show nextF (setPrevF (setNextF t.heap p none) sv none) ev = _
      rw [nextF_setPrevF, nextF_setNextF_ne hpe]
      exact henext
    rw [heN] at hop
    simp only [orErr_some, exbind_pure_ok, fwdRef_id] at hop
    set H2 := setNextF (setPrevF (setPrevF (setNextF t.heap p none) sv none)
      nx2 none) ev none with hH2
    have hH3eq : connectF H2 (Ref.mk true p) (fwdRef nx2) true
        = setPrevF (setNextF H2 p (some (fwdRef nx2))) nx2
          (some (Ref.mk true p)) := by
      simp [connectF, fwdRef_id]
    rw [hH3eq] at hop
    set H3 := setPrevF (setNextF H2 p (some (fwdRef nx2))) nx2
      (some (Ref.mk true p)) with hH3
    have hH3len : H3.length = t.heap.length := by
      rw [hH3, hH2]
      simp
    have hH3next_walk : ∀ x ∈ sv :: Rs, nextF H3 x = nextF t.heap x := by
      intro x hx
      rw [hH3, nextF_setPrevF,
        nextF_setNextF_ne (show p ≠ x from fun hc => hpnotin (hc ▸ hx)), hH2,
        nextF_setNextF_ne (show ev ≠ x from fun hc => hevnotR (hc ▸ hx)),
        nextF_setPrevF, nextF_setPrevF,
        nextF_setNextF_ne (show p ≠ x from fun hc => hpnotin (hc ▸ hx))]
    have hsvRs_adj : List.Chain' (Adj t.heap) (sv :: Rs) :=
      hchain.infix ⟨(0 : Nat) :: Ls, [0], by simp⟩
    have hwalkchain := chain'_walk_transfer (l := sv :: Rs) (by simp)
      hnodups.2.1 hsvRs_adj
      (fun x hx => (hbnd x (List.mem_append_right _ hx)).1)
      (fun x hx _ => hH3next_walk x hx)
    have hlast_adj := hC.chain_split.2
    have hstop : ∀ r, nextF H3 ((sv :: Rs).getLast (by simp)) = some r →
        r.proxy = true := by
      intro r hr
      have hlmem : (sv :: Rs).getLast (by simp) ∈ sv :: Rs :=
        List.getLast_mem _
      rw [hH3next_walk _ hlmem] at hr
      have hlastord : ((sv :: Rs).getLast (by simp))
          = ((0 : Nat) :: (Ls ++ sv :: Rs)).getLast (by simp) :=
        (List.getLast_append' ((0 : Nat) :: Ls) (sv :: Rs) (by simp)).symm
      rw [hlastord] at hr
      have hza := hlast_adj.1
      have hreq : r = fwdRef 0 := Option.some.inj (hr.symm.trans hza)
      rw [hreq]
      rfl
    have hfuel : Rs.length + 1 ≤ H3.length + 1 := by
      have hbl := nodup_bound_length hnodups.2.1
        (fun i hi => (hbnd i (List.mem_append_right _ hi)).2)
      simp at hbl
      rw [hH3len]
      omega
    obtain ⟨err, herr⟩ := getNodePathAux_stuck (e := ev) Rs sv [sv]
      (H3.length + 1) hwalkchain
      (fun x hx hc => hevnotR (hc ▸ List.mem_cons_of_mem _ hx))
      hstop hfuel
    have hpath : getNodePath H3 sv ev = .error err := by
      unfold getNodePath
      rw [if_neg hsvev]
      exact herr
    rw [hpath] at hop
    simp at hop

theorem blockDiscard_WF {t t' : Top} {sk ek : String} (h : WF t)
    (hop : t.blockDiscard sk ek = .ok t') : WF t' := by
  obtain ⟨order, hC, hT⟩ := h
  rcases hsv : lookupA t.table sk with _ | sv
  · exfalso
    unfold Top.blockDiscard at hop
    rw [hsv] at hop
    simp [orErr] at hop
  rcases hev : lookupA t.table ek with _ | ev
  · exfalso
    unfold Top.blockDiscard at hop
    rw [hsv, hev] at hop
    simp [orErr] at hop
  have hsvmem : sv ∈ order := hT.2.1 (sk, sv) (lookupA_mem hsv)
  have hevmem : ev ∈ order := hT.2.1 (ek, ev) (lookupA_mem hev)
  obtain ⟨Ls, Rs, hordsplit⟩ := List.append_of_mem hsvmem
  by_cases hein : ev ∈ sv :: Rs
  · obtain ⟨D1, R, hsplit2⟩ := List.append_of_mem hein
    have horder2 : order = Ls ++ (D1 ++ [ev]) ++ R := by
      rw [hordsplit, hsplit2]
      simp
    have hDne : D1 ++ [ev] ≠ [] := by simp
    have hheadD : (D1 ++ [ev]).head hDne = sv := by
      have h0 : (D1 ++ ev :: R).head? = some sv := by
        rw [← hsplit2]
        rfl
      rcases D1 with _ | ⟨d0, D2⟩
      · simp at h0
        simp [h0]
      · simp at h0
        simp [h0]
    have hlastD : (D1 ++ [ev]).getLast hDne = ev := by
      have h1 : (D1 ++ [ev]).getLast? = some ev := List.getLast?_concat _
      rw [List.getLast?_eq_getLast _ hDne] at h1
      exact Option.some.inj h1
    have hC2 : ChainOK t (Ls ++ (D1 ++ [ev]) ++ R) := horder2 ▸ hC
    have hs2 : lookupA t.table sk = some ((D1 ++ [ev]).head hDne) := by
      rw [hheadD]
      exact hsv
    have he2 : lookupA t.table ek = some ((D1 ++ [ev]).getLast hDne) := by
      rw [hlastD]
      exact hev
    obtain ⟨hlen2, hC', htbl, hold⟩ := blockDiscard_shape hC2 hDne hs2 he2 hop
    refine ⟨Ls ++ R, hC', ?_⟩
    obtain ⟨hkn, hvin, hcorr⟩ := hT
    have hfsub : List.Sublist t'.table t.table := by
      rw [htbl]
      exact List.filter_sublist _
    refine ⟨?_, ?_, ?_⟩
    · exact ((hfsub.map Prod.fst).nodup hkn)
    · intro e hemem
      have hetbl : e ∈ t.table := hfsub.subset hemem
      have hine : e.2 ∈ order := hvin e hetbl
      have hnotD : e.2 ∉ D1 ++ [ev] := by
        intro hmD
        have hkey := hcorr e hetbl
        have hnk : nodeKeyOf (getH t.heap e.2) = some e.1 := by
          unfold nodeKeyOf
          rw [show (getH t.heap e.2).key = keyF t.heap e.2 from rfl, hkey]
        rw [htbl] at hemem
        have hpred := List.of_mem_filter hemem
        simp at hpred
        rcases List.mem_append.1 hmD with h1 | h1
        · exact hpred.1 e.2 h1 hnk
        · simp at h1
          rw [h1] at hnk
          exact hpred.2 hnk
      rw [horder2] at hine
      rcases List.mem_append.1 hine with h1 | h1
      · rcases List.mem_append.1 h1 with h2 | h2
        · exact List.mem_append_left _ h2
        · exact absurd h2 hnotD
      · exact List.mem_append_right _ h1
    · intro e hemem
      have hetbl : e ∈ t.table := hfsub.subset hemem
      have helt : e.2 < t.heap.length := (hC.2.1 e.2 (hvin e hetbl)).2
      rw [(hold e.2 helt).1]
      exact hcorr e hetbl
  · exfalso
    have hevLs : ev ∈ Ls := by
      rw [hordsplit] at hevmem
      rcases List.mem_append.1 hevmem with h1 | h1
      · exact h1
      · exact absurd h1 hein
    exact blockDiscard_bad_anchor (hordsplit ▸ hC) hsv hev hevLs hop

theorem applyOp_WF {t t' : Top} {op : Op} (h : WF t)
    (hop : applyOp t op = .ok t') : WF t' := by
  cases op with
  | add k v => exact add_WF h hop
  | insert i k v => exact insert_WF h hop
  | relativeInsert a k v f => exact relativeInsert_WF h hop
  | blockInsert i ch => exact blockInsert_WF h hop
  | relativeBlockInsert a ch f => exact relativeBlockInsert_WF h hop
  | replaceOp k v => exact replace_WF h hop
  | pop k =>
    rw [show applyOp t (Op.pop k) = (t.pop k).map Prod.fst from rfl,
      exmap_ok] at hop
    obtain ⟨⟨t2, i⟩, hpok, hteq⟩ := hop
    rw [← hteq]
    exact pop_WF h hpok
  | discard k => exact discard_WF h hop
  | blockDiscard s e => exact blockDiscard_WF h hop

/-- A fresh `Topology()` is well formed. -/
theorem emptyTop_WF : WF emptyTop := by
  refine ⟨[], ⟨by simp [emptyTop], by simp, by simp, ?_⟩, by simp [TableWF, TableCorr, emptyTop]⟩
  simp only [List.nil_append]
  refine List.chain'_pair.2 ⟨?_, ?_⟩
  · rfl
  · rfl

theorem foldlM_applyOp_WF {ops : List Op} :
    ∀ {t0 t : Top}, WF t0 → ops.foldlM applyOp t0 = .ok t → WF t := by
  induction ops with
  | nil =>
    intro t0 t h0 hfold
    simp only [List.foldlM_nil] at hfold
    have : t0 = t := by simpa using hfold
    rw [← this]
    exact h0
  | cons op ops ih =>
    intro t0 t h0 hfold
    rw [List.foldlM_cons] at hfold
    obtain ⟨t1, h1, h2⟩ := exbind_ok.1 hfold
    exact ih (applyOp_WF h0 h1) h2

/-- Every successful sequence of container operations yields a well-formed
topology. -/
theorem runOps_WF {ops : List Op} {t : Top} (h : runOps ops = .ok t) : WF t :=
  foldlM_applyOp_WF emptyTop_WF h

/-! ### The full table/chain bijection -/

/-- Surjectivity of the lookup table onto the linked chain: every linked
node is registered under some key. -/
def Surj (t : Top) (order : List Nat) : Prop :=
  ∀ x ∈ order, ∃ e ∈ t.table, e.2 = x

theorem mem_eq_of_keys_nodup {l : List (String × Nat)}
    (hnd : (l.map Prod.fst).Nodup) :
    ∀ {e f : String × Nat}, e ∈ l → f ∈ l → e.1 = f.1 → e = f := by
  induction l with
  | nil =>
    intro e f he hf hk
    simp at he
  | cons a l ih =>
    intro e f he hf hk
    rw [List.map_cons, List.nodup_cons] at hnd
    rcases List.mem_cons.1 he with he1 | he1 <;>
      rcases List.mem_cons.1 hf with hf1 | hf1
    · rw [he1, hf1]
    · exfalso
      have haf : a.1 = f.1 := by
        rw [← he1]
        exact hk
      exact hnd.1 (List.mem_map.2 ⟨f, hf1, haf.symm⟩)
    · exfalso
      have hae : a.1 = e.1 := by
        rw [← hf1]
        exact hk.symm
      exact hnd.1 (List.mem_map.2 ⟨e, he1, hae.symm⟩)
    · exact ih hnd.2 he1 hf1 hk

theorem surj_append {t t' : Top} {order O : List Nat}
    {ps : List (String × Nat)} (hS : Surj t order)
    (htbl : t'.table = t.table ++ ps)
    (hcov : ∀ x ∈ O, x ∈ order ∨ ∃ p ∈ ps, p.2 = x) : Surj t' O := by
  intro x hx
  rcases hcov x hx with h | ⟨p, hp, hpx⟩
  · obtain ⟨e, he, hex⟩ := hS x h
    exact ⟨e, by rw [htbl]; exact List.mem_append_left _ he, hex⟩
  · exact ⟨p, by rw [htbl]; exact List.mem_append_right _ hp, hpx⟩

theorem surj_filter_key {t : Top} {order : List Nat} {k : String} {i x : Nat}
    (hT : TableWF t order) (hS : Surj t order)
    (hlook : lookupA t.table k = some i)
    (hx : x ∈ order) (hxi : x ≠ i) :
    ∃ e ∈ t.table.filter (fun e => e.1 ≠ k), e.2 = x := by
  obtain ⟨e, he, hex⟩ := hS x hx
  have hek : e.1 ≠ k := by
    intro hekk
    have hki : (k, i) ∈ t.table := lookupA_mem hlook
    have heq := mem_eq_of_keys_nodup hT.1 he hki hekk
    rw [heq] at hex
    exact hxi hex.symm
  exact ⟨e, List.mem_filter.2 ⟨he, by simpa using hek⟩, hex⟩

theorem lookupA_append_none {l : List (String × Nat)} {p : String × Nat}
    {k : String} (h : lookupA l k = none) (hk : p.1 ≠ k) :
    lookupA (l ++ [p]) k = none := by
  rw [lookupA_none_iff] at h ⊢
  intro e he
  rcases List.mem_append.1 he with h1 | h1
  · exact h e h1
  · simp at h1
    rw [h1]
    exact hk

theorem foldl_odUpdate_append {ps : List (String × Nat)} :
    ∀ {w : List (String × Nat)}, (ps.map Prod.fst).Nodup →
      (∀ p ∈ ps, lookupA w p.1 = none) →
      ps.foldl (fun a e => odUpdate a e.1 e.2) w = w ++ ps := by
  induction ps with
  | nil =>
    intro w _ _
    simp
  | cons p ps ih =>
    intro w hnd hfree
    rw [List.map_cons, List.nodup_cons] at hnd
    have hfr2 : ∀ q ∈ ps, lookupA (w ++ [p]) q.1 = none := by
      intro q hq
      refine lookupA_append_none (hfree q (List.mem_cons_of_mem _ hq)) ?_
      intro hpq
      exact hnd.1 (List.mem_map.2 ⟨q, hq, hpq.symm⟩)
    rw [List.foldl_cons, odUpdate_absent (hfree p (List.mem_cons_self _ _)),
      ih hnd.2 hfr2, List.append_assoc]
    rfl

/-- The bijection (`TableOK`) is exactly chain plus table well-formedness
plus surjectivity. -/
theorem tableOK_of {t : Top} {order : List Nat} (hC : ChainOK t order)
    (hT : TableWF t order) (hS : Surj t order) : TableOK t order := by
  refine ⟨hT.1, ?_, fun e he => hT.2.2 e he⟩
  refine (hT.vals_nodup.subperm ?_).antisymm (hC.2.2.1.subperm ?_)
  · intro x hx
    obtain ⟨e, he, hex⟩ := List.mem_map.1 hx
    rw [← hex]
    exact hT.2.1 e he
  · intro x hx
    obtain ⟨e, he, hex⟩ := hS x hx
    exact List.mem_map.2 ⟨e, he, hex⟩

/-- Strong well-formedness: the chain invariant together with the full
table bijection. -/
def WFB (t : Top) : Prop :=
  ∃ order, ChainOK t order ∧ TableWF t order ∧ Surj t order

/-- A container operation whose inserted block carries no repeated key
among its own nodes. -/
def chainKeysNodup : Op → Prop
  | Op.blockInsert _ ch => (ch.map Prod.fst).Nodup
  | Op.relativeBlockInsert _ ch _ => (ch.map Prod.fst).Nodup
  | _ => True

instance : (op : Op) → Decidable (chainKeysNodup op)
  | Op.add _ _ => inferInstanceAs (Decidable True)
  | Op.insert _ _ _ => inferInstanceAs (Decidable True)
  | Op.relativeInsert _ _ _ _ => inferInstanceAs (Decidable True)
  | Op.blockInsert _ ch =>
      inferInstanceAs (Decidable ((ch.map Prod.fst).Nodup))
  | Op.relativeBlockInsert _ ch _ =>
      inferInstanceAs (Decidable ((ch.map Prod.fst).Nodup))
  | Op.replaceOp _ _ => inferInstanceAs (Decidable True)
  | Op.pop _ => inferInstanceAs (Decidable True)
  | Op.discard _ => inferInstanceAs (Decidable True)
  | Op.blockDiscard _ _ => inferInstanceAs (Decidable True)

theorem add_OK {t t' : Top} {k : String} {v : NodeValue} (h : WFB t)
    (hop : t.add k v = .ok t') : WFB t' := by
  obtain ⟨order, hC, hT, hS⟩ := h
  obtain ⟨hfree, hlen2, htbl, hC', hkey, hval, hold⟩ := add_shape hC hop
  refine ⟨order ++ [t.heap.length], hC', ?_, ?_⟩
  · refine tableWF_append_fresh hT hC.2.1 ?_ hfree
      (fun x hx => List.mem_append_left _ hx) (by simp) hkey
      (fun j hj => (hold j hj).1)
    rw [htbl, odUpdate_absent hfree]
  · refine surj_append hS (by rw [htbl, odUpdate_absent hfree]) ?_
    intro x hx
    rcases List.mem_append.1 hx with h1 | h1
    · exact Or.inl h1
    · simp at h1
      exact Or.inr ⟨(k, t.heap.length), by simp, by simp [h1]⟩

theorem mem_take_cons_drop_cases {order : List Nat} {x n j : Nat}
    (hx : x ∈ order.take j ++ n :: order.drop j) : x ∈ order ∨ x = n := by
  rcases List.mem_append.1 hx with h1 | h1
  · exact Or.inl (List.take_subset _ _ h1)
  · rcases List.mem_cons.1 h1 with h2 | h2
    · exact Or.inr h2
    · exact Or.inl (List.drop_subset _ _ h2)

theorem insert_OK {t t' : Top} {index : Nat} {k : String} {v : NodeValue}
    (h : WFB t) (hop : t.insert index k v = .ok t') : WFB t' := by
  obtain ⟨order, hC, hT, hS⟩ := h
  obtain ⟨hfree, htbl, hlen2, hC', hkey, hval, hold⟩ := insert_shape hC hop
  refine ⟨order.take index ++ t.heap.length :: order.drop index, hC', ?_, ?_⟩
  · refine tableWF_append_fresh hT hC.2.1 ?_ hfree
      (fun x hx => mem_take_cons_drop hx) (by simp) hkey
      (fun j hj => (hold j hj).1)
    rw [htbl, odUpdate_absent hfree]
  · refine surj_append hS (by rw [htbl, odUpdate_absent hfree]) ?_
    intro x hx
    rcases mem_take_cons_drop_cases hx with h1 | h1
    · exact Or.inl h1
    · exact Or.inr ⟨(k, t.heap.length), by simp, by simp [h1]⟩

theorem relativeInsert_OK {t t' : Top} {anchor k : String} {v : NodeValue}
    {fwd : Bool} (h : WFB t)
    (hop : t.relativeInsert anchor k v fwd = .ok t') : WFB t' := by
  obtain ⟨order, hC, hT, hS⟩ := h
  have hanch : ∃ a : Nat, lookupA t.table anchor = some a ∧
      ∃ i : Nat, order[i]? = some a := by
    rcases hcase : lookupA t.table anchor with _ | a
    · exfalso
      unfold Top.relativeInsert at hop
      rw [hcase] at hop
      simp [orErr] at hop
    · have hmem : a ∈ order := hT.2.1 (anchor, a) (lookupA_mem hcase)
      obtain ⟨i, hi, hia⟩ := List.mem_iff_getElem.1 hmem
      exact ⟨a, rfl, i, by rw [List.getElem?_eq_some]; exact ⟨hi, hia⟩⟩
  obtain ⟨a, hcasea, i, hia⟩ := hanch
  rcases fwd with _ | _
  · obtain ⟨hfree, htbl, hlen2, hC', hkey, hval, hold⟩ :=
      relativeInsert_shape_bwd hC hia hcasea hop
    refine ⟨order.take i ++ t.heap.length :: order.drop i, hC', ?_, ?_⟩
    · refine tableWF_append_fresh hT hC.2.1 ?_ hfree
        (fun x hx => mem_take_cons_drop hx) (by simp) hkey
        (fun j hj => (hold j hj).1)
      rw [htbl, odUpdate_absent hfree]
    · refine surj_append hS (by rw [htbl, odUpdate_absent hfree]) ?_
      intro x hx
      rcases mem_take_cons_drop_cases hx with h1 | h1
      · exact Or.inl h1
      · exact Or.inr ⟨(k, t.heap.length), by simp, by simp [h1]⟩
  · obtain ⟨hfree, htbl, hlen2, hC', hkey, hval, hold⟩ :=
      relativeInsert_shape_fwd hC hia hcasea hop
    refine ⟨order.take (i + 1) ++ t.heap.length :: order.drop (i + 1),
      hC', ?_, ?_⟩
    · refine tableWF_append_fresh hT hC.2.1 ?_ hfree
        (fun x hx => mem_take_cons_drop hx) (by simp) hkey
        (fun j hj => (hold j hj).1)
      rw [htbl, odUpdate_absent hfree]
    · refine surj_append hS (by rw [htbl, odUpdate_absent hfree]) ?_
      intro x hx
      rcases mem_take_cons_drop_cases hx with h1 | h1
      · exact Or.inl h1
      · exact Or.inr ⟨(k, t.heap.length), by simp, by simp [h1]⟩

theorem pop_OK {t t' : Top} {k : String} {i : Nat} (h : WFB t)
    (hop : t.pop k = .ok (t', i)) : WFB t' := by
  obtain ⟨order, hC, hT, hS⟩ := h
  obtain ⟨hlook, htbl, hlen2, hCsplit, hold⟩ := pop_shape hC hop
  have hmem : i ∈ order := hT.2.1 (k, i) (lookupA_mem hlook)
  obtain ⟨L, R, hLR⟩ := List.append_of_mem hmem
  have hnotLR : i ∉ L ++ R := by
    have hnd := hC.2.2.1
    rw [hLR, List.nodup_append] at hnd
    intro hmem2
    rcases List.mem_append.1 hmem2 with h1 | h1
    · exact hnd.2.2 h1 (List.mem_cons_self _ _)
    · exact (List.nodup_cons.1 hnd.2.1).1 h1
  refine ⟨L ++ R, hCsplit L R hLR, ?_, ?_⟩
  · refine tableWF_filter_key hT htbl hlook ?_ (fun j => (hold j).1)
    intro x hx hxi
    rw [hLR] at hx
    rcases List.mem_append.1 hx with h1 | h1
    · exact List.mem_append_left _ h1
    · rcases List.mem_cons.1 h1 with h2 | h2
      · exact absurd h2 hxi
      · exact List.mem_append_right _ h2
  · intro x hx
    rw [htbl]
    refine surj_filter_key hT hS hlook ?_ ?_
    · rw [hLR]
      rcases List.mem_append.1 hx with h1 | h1
      · exact List.mem_append_left _ h1
      · exact List.mem_append_right _ (List.mem_cons_of_mem _ h1)
    · intro hxi
      rw [hxi] at hx
      exact hnotLR hx

theorem discard_OK {t t' : Top} {k : String} (h : WFB t)
    (hop : t.discard k = .ok t') : WFB t' := by
  obtain ⟨order, hC, hT, hS⟩ := h
  rcases discard_shape hC hop with ⟨-, ht⟩ |
    ⟨i, hlook, htbl, hlen2, hCsplit, hold⟩
  · rw [ht]
    exact ⟨order, hC, hT, hS⟩
  · have hmem : i ∈ order := hT.2.1 (k, i) (lookupA_mem hlook)
    obtain ⟨L, R, hLR⟩ := List.append_of_mem hmem
    have hnotLR : i ∉ L ++ R := by
      have hnd := hC.2.2.1
      rw [hLR, List.nodup_append] at hnd
      intro hmem2
      rcases List.mem_append.1 hmem2 with h1 | h1
      · exact hnd.2.2 h1 (List.mem_cons_self _ _)
      · exact (List.nodup_cons.1 hnd.2.1).1 h1
    refine ⟨L ++ R, hCsplit L R hLR, ?_, ?_⟩
    · refine tableWF_filter_key hT htbl hlook ?_ (fun j => (hold j).1)
      intro x hx hxi
      rw [hLR] at hx
      rcases List.mem_append.1 hx with h1 | h1
      · exact List.mem_append_left _ h1
      · rcases List.mem_cons.1 h1 with h2 | h2
        · exact absurd h2 hxi
        · exact List.mem_append_right _ h2
    · intro x hx
      rw [htbl]
      refine surj_filter_key hT hS hlook ?_ ?_
      · rw [hLR]
        rcases List.mem_append.1 hx with h1 | h1
        · exact List.mem_append_left _ h1
        · exact List.mem_append_right _ (List.mem_cons_of_mem _ h1)
      · intro hxi
        rw [hxi] at hx
        exact hnotLR hx

theorem replace_OK {t t' : Top} {k : String} {v : NodeValue} (h : WFB t)
    (hop : t.replace k v = .ok t') : WFB t' := by
  obtain ⟨order, hC, hT, hS⟩ := h
  obtain ⟨i, hlook, htbl, hlen2, hCsplit, hkey, hval, hold⟩ :=
    replace_shape hC hop
  have hmem : i ∈ order := hT.2.1 (k, i) (lookupA_mem hlook)
  obtain ⟨L, R, hLR⟩ := List.append_of_mem hmem
  have hnotLR : i ∉ L ++ R := by
    have hnd := hC.2.2.1
    rw [hLR, List.nodup_append] at hnd
    intro hmem2
    rcases List.mem_append.1 hmem2 with h1 | h1
    · exact hnd.2.2 h1 (List.mem_cons_self _ _)
    · exact (List.nodup_cons.1 hnd.2.1).1 h1
  have hfree : lookupA (t.table.filter (fun e => e.1 ≠ k)) k = none := by
    rw [lookupA_none_iff]
    intro e2 hmem2
    simpa using List.of_mem_filter hmem2
  have htbl2 : t'.table
      = t.table.filter (fun e => e.1 ≠ k) ++ [(k, t.heap.length)] := by
    rw [htbl, odUpdate_absent hfree]
  have hWT := replace_WF ⟨order, hC, hT⟩ hop
  obtain ⟨order2, hC2, hT2⟩ := hWT
  refine ⟨L ++ t.heap.length :: R, hCsplit L R hLR, ?_, ?_⟩
  · -- re-derive table well-formedness for the replaced order
    obtain ⟨hkn, hvin, hcorr⟩ := hT
    refine ⟨?_, ?_, ?_⟩
    · rw [htbl2, List.map_append]
      refine List.nodup_append.2
        ⟨((List.filter_sublist _).map Prod.fst).nodup hkn, by simp, ?_⟩
      intro x hxmem
      simp only [List.map_cons, List.map_nil, List.mem_singleton]
      intro hxk
      obtain ⟨e, hemem, hefst⟩ := List.mem_map.1 hxmem
      have : e.1 ≠ k := by simpa using List.of_mem_filter hemem
      exact this (hefst.trans hxk)
    · intro e hemem
      rw [htbl2] at hemem
      rcases List.mem_append.1 hemem with h1 | h1
      · have hetbl : e ∈ t.table := List.mem_of_mem_filter h1
        have hek : e.1 ≠ k := by simpa using List.of_mem_filter h1
        have hine : e.2 ∈ order := hvin e hetbl
        have hne_i : e.2 ≠ i := by
          intro hei
          have hki : (k, i) ∈ t.table := lookupA_mem hlook
          have := table_val_inj ⟨hkn, hvin, hcorr⟩ hetbl hki hei
          rw [this] at hek
          exact hek rfl
        rw [hLR] at hine
        rcases List.mem_append.1 hine with h2 | h2
        · exact List.mem_append_left _ h2
        · rcases List.mem_cons.1 h2 with h3 | h3
          · exact absurd h3 hne_i
          · exact List.mem_append_right _ (List.mem_cons_of_mem _ h3)
      · simp at h1
        rw [h1]
        simp
    · intro e hemem
      rw [htbl2] at hemem
      rcases List.mem_append.1 hemem with h1 | h1
      · have hetbl : e ∈ t.table := List.mem_of_mem_filter h1
        have hine : e.2 ∈ order := hvin e hetbl
        have helt : e.2 < t.heap.length := (hC.2.1 e.2 hine).2
        rw [(hold e.2 helt).1]
        exact hcorr e hetbl
      · simp at h1
        rw [h1]
        exact hkey
  · intro x hx
    rcases List.mem_append.1 hx with h1 | h1
    · obtain ⟨e, he, hex⟩ := surj_filter_key hT hS hlook
        (by rw [hLR]; exact List.mem_append_left _ h1)
        (fun hxi => hnotLR (hxi ▸ List.mem_append_left _ h1))
      exact ⟨e, by rw [htbl2]; exact List.mem_append_left _ he, hex⟩
    · rcases List.mem_cons.1 h1 with h2 | h2
      · exact ⟨(k, t.heap.length), by rw [htbl2]; simp, by simp [h2]⟩
      · obtain ⟨e, he, hex⟩ := surj_filter_key hT hS hlook
          (by rw [hLR]; exact List.mem_append_right _ (List.mem_cons_of_mem _ h2))
          (fun hxi => hnotLR (hxi ▸ List.mem_append_right _ h2))
        exact ⟨e, by rw [htbl2]; exact List.mem_append_left _ he, hex⟩

theorem block_table_append {t : Top} {chain : List (String × NodeValue)}
    (hnd : (chain.map Prod.fst).Nodup)
    (hfresh : ∀ kv ∈ chain, lookupA t.table kv.1 = none) :
    ((chain.map Prod.fst).zip
        (List.range' t.heap.length chain.length)).foldl
        (fun a e => odUpdate a e.1 e.2) t.table
      = t.table ++ ((chain.map Prod.fst).zip
        (List.range' t.heap.length chain.length)) := by
  have hlen : (chain.map Prod.fst).length
      ≤ (List.range' t.heap.length chain.length).length := by
    simp
  have hmapfst : (((chain.map Prod.fst).zip
      (List.range' t.heap.length chain.length)).map Prod.fst)
      = chain.map Prod.fst := List.map_fst_zip _ _ hlen
  refine foldl_odUpdate_append ?_ ?_
  · rw [hmapfst]
    exact hnd
  · intro p hp
    have hp1 : p.1 ∈ chain.map Prod.fst := by
      rw [← hmapfst]
      exact List.mem_map.2 ⟨p, hp, rfl⟩
    obtain ⟨kv, hkv, hkvp⟩ := List.mem_map.1 hp1
    rw [← hkvp]
    exact hfresh kv hkv

theorem surj_block {t t' : Top} {order O : List Nat}
    {chain : List (String × NodeValue)} (hS : Surj t order)
    (hnd : (chain.map Prod.fst).Nodup)
    (hfresh : ∀ kv ∈ chain, lookupA t.table kv.1 = none)
    (htbl : t'.table = ((chain.map Prod.fst).zip
      (List.range' t.heap.length chain.length)).foldl
      (fun a e => odUpdate a e.1 e.2) t.table)
    (hcov : ∀ x ∈ O, x ∈ order ∨
      (t.heap.length ≤ x ∧ x < t.heap.length + chain.length)) :
    Surj t' O := by
  refine surj_append hS (by rw [htbl, block_table_append hnd hfresh]) ?_
  intro x hx
  rcases hcov x hx with h1 | h1
  · exact Or.inl h1
  · refine Or.inr ?_
    have hj : x - t.heap.length < chain.length := by omega
    have hjz : x - t.heap.length < ((chain.map Prod.fst).zip
        (List.range' t.heap.length chain.length)).length := by
      rw [List.length_zip]
      simp
      omega
    refine ⟨((chain.map Prod.fst).zip
      (List.range' t.heap.length chain.length))[x - t.heap.length],
      List.getElem_mem hjz, ?_⟩
    have hjr : x - t.heap.length
        < (List.range' t.heap.length chain.length).length := by
      simp
      omega
    rw [List.getElem_zip]
    show (List.range' t.heap.length chain.length)[x - t.heap.length] = x
    rw [List.getElem_range']
    omega

theorem blockInsert_OK {t t' : Top} {index : Nat}
    {chain : List (String × NodeValue)} (h : WFB t)
    (hnd : (chain.map Prod.fst).Nodup)
    (hop : t.blockInsert index chain = .ok t') : WFB t' := by
  obtain ⟨order, hC, hT, hS⟩ := h
  obtain ⟨hchne, hfresh, htbl, hlen2, hC', hkv, hold⟩ := blockInsert_shape hC hop
  refine ⟨order.take index ++ List.range' t.heap.length chain.length
    ++ order.drop index, hC', ?_, ?_⟩
  · refine tableWF_block hT hC.2.1 htbl (fun x hx => mem_take_append_drop hx)
      (fun j hj => List.mem_append_left _ (List.mem_append_right _
        (List.mem_range'_1.2 ⟨by omega, by omega⟩)))
      (fun j hj => (hkv j hj).1)
      (fun j hj => (hold j hj).1)
  · refine surj_block hS hnd hfresh htbl ?_
    intro x hx
    rcases List.mem_append.1 hx with h1 | h1
    · rcases List.mem_append.1 h1 with h2 | h2
      · exact Or.inl (List.take_subset _ _ h2)
      · have := List.mem_range'_1.1 h2
        exact Or.inr ⟨this.1, by omega⟩
    · exact Or.inl (List.drop_subset _ _ h1)

theorem relativeBlockInsert_OK {t t' : Top} {anchor : String}
    {chain : List (String × NodeValue)} {fwd : Bool} (h : WFB t)
    (hnd : (chain.map Prod.fst).Nodup)
    (hop : t.relativeBlockInsert anchor chain fwd = .ok t') : WFB t' := by
  obtain ⟨order, hC, hT, hS⟩ := h
  have hanch : ∃ a : Nat, lookupA t.table anchor = some a ∧
      ∃ i : Nat, order[i]? = some a := by
    rcases hcase : lookupA t.table anchor with _ | a
    · exfalso
      unfold Top.relativeBlockInsert at hop
      rw [hcase] at hop
      simp [orErr] at hop
    · have hmem : a ∈ order := hT.2.1 (anchor, a) (lookupA_mem hcase)
      obtain ⟨i, hi, hia⟩ := List.mem_iff_getElem.1 hmem
      exact ⟨a, rfl, i, by rw [List.getElem?_eq_some]; exact ⟨hi, hia⟩⟩
  obtain ⟨a, hcasea, i, hia⟩ := hanch
  rcases fwd with _ | _
  · obtain ⟨hchne, hfresh, htbl, hlen2, hC', hkv, hold⟩ :=
      relativeBlockInsert_shape_bwd hC hia hcasea hop
    refine ⟨order.take i ++ List.range' t.heap.length chain.length
      ++ order.drop i, hC', ?_, ?_⟩
    · refine tableWF_block hT hC.2.1 htbl (fun x hx => mem_take_append_drop hx)
        (fun j hj => List.mem_append_left _ (List.mem_append_right _
          (List.mem_range'_1.2 ⟨by omega, by omega⟩)))
        (fun j hj => (hkv j hj).1)
        (fun j hj => (hold j hj).1)
    · refine surj_block hS hnd hfresh htbl ?_
      intro x hx
      rcases List.mem_append.1 hx with h1 | h1
      · rcases List.mem_append.1 h1 with h2 | h2
        · exact Or.inl (List.take_subset _ _ h2)
        · have := List.mem_range'_1.1 h2
          exact Or.inr ⟨this.1, by omega⟩
      · exact Or.inl (List.drop_subset _ _ h1)
  · obtain ⟨hchne, hfresh, htbl, hlen2, hC', hkv, hold⟩ :=
      relativeBlockInsert_shape_fwd hC hia hcasea hop
    refine ⟨order.take (i + 1) ++ List.range' t.heap.length chain.length
      ++ order.drop (i + 1), hC', ?_, ?_⟩
    · refine tableWF_block hT hC.2.1 htbl (fun x hx => mem_take_append_drop hx)
        (fun j hj => List.mem_append_left _ (List.mem_append_right _
          (List.mem_range'_1.2 ⟨by omega, by omega⟩)))
        (fun j hj => (hkv j hj).1)
        (fun j hj => (hold j hj).1)
    · refine surj_block hS hnd hfresh htbl ?_
      intro x hx
      rcases List.mem_append.1 hx with h1 | h1
      · rcases List.mem_append.1 h1 with h2 | h2
        · exact Or.inl (List.take_subset _ _ h2)
        · have := List.mem_range'_1.1 h2
          exact Or.inr ⟨this.1, by omega⟩
      · exact Or.inl (List.drop_subset _ _ h1)

theorem blockDiscard_OK {t t' : Top} {sk ek : String} (h : WFB t)
    (hop : t.blockDiscard sk ek = .ok t') : WFB t' := by
  obtain ⟨order, hC, hT, hS⟩ := h
  rcases hsv : lookupA t.table sk with _ | sv
  · exfalso
    unfold Top.blockDiscard at hop
    rw [hsv] at hop
    simp [orErr] at hop
  rcases hev : lookupA t.table ek with _ | ev
  · exfalso
    unfold Top.blockDiscard at hop
    rw [hsv, hev] at hop
    simp [orErr] at hop
  have hsvmem : sv ∈ order := hT.2.1 (sk, sv) (lookupA_mem hsv)
  have hevmem : ev ∈ order := hT.2.1 (ek, ev) (lookupA_mem hev)
  obtain ⟨Ls, Rs, hordsplit⟩ := List.append_of_mem hsvmem
  by_cases hein : ev ∈ sv :: Rs
  · obtain ⟨D1, R, hsplit2⟩ := List.append_of_mem hein
    have horder2 : order = Ls ++ (D1 ++ [ev]) ++ R := by
      rw [hordsplit, hsplit2]
      simp
    have hDne : D1 ++ [ev] ≠ [] := by simp
    have hheadD : (D1 ++ [ev]).head hDne = sv := by
      have h0 : (D1 ++ ev :: R).head? = some sv := by
        rw [← hsplit2]
        rfl
      rcases D1 with _ | ⟨d0, D2⟩
      · simp at h0
        simp [h0]
      · simp at h0
        simp [h0]
    have hlastD : (D1 ++ [ev]).getLast hDne = ev := by
      have h1 : (D1 ++ [ev]).getLast? = some ev := List.getLast?_concat _
      rw [List.getLast?_eq_getLast _ hDne] at h1
      exact Option.some.inj h1
    have hC2 : ChainOK t (Ls ++ (D1 ++ [ev]) ++ R) := horder2 ▸ hC
    have hs2 : lookupA t.table sk = some ((D1 ++ [ev]).head hDne) := by
      rw [hheadD]
      exact hsv
    have he2 : lookupA t.table ek = some ((D1 ++ [ev]).getLast hDne) := by
      rw [hlastD]
      exact hev
    obtain ⟨hlen2, hC', htbl, hold⟩ := blockDiscard_shape hC2 hDne hs2 he2 hop
    have hWT := blockDiscard_WF ⟨order, hC, hT⟩ hop
    have hndall : (Ls ++ (D1 ++ [ev]) ++ R).Nodup := by
      rw [← horder2]
      exact hC.2.2.1
    refine ⟨Ls ++ R, hC', ?_, ?_⟩
    · obtain ⟨hkn, hvin, hcorr⟩ := hT
      have hfsub : List.Sublist t'.table t.table := by
        rw [htbl]
        exact List.filter_sublist _
      refine ⟨?_, ?_, ?_⟩
      · exact ((hfsub.map Prod.fst).nodup hkn)
      · intro e hemem
        have hetbl : e ∈ t.table := hfsub.subset hemem
        have hine : e.2 ∈ order := hvin e hetbl
        have hnotD : e.2 ∉ D1 ++ [ev] := by
          intro hmD
          have hkey := hcorr e hetbl
          have hnk : nodeKeyOf (getH t.heap e.2) = some e.1 := by
            unfold nodeKeyOf
            rw [show (getH t.heap e.2).key = keyF t.heap e.2 from rfl, hkey]
          rw [htbl] at hemem
          have hpred := List.of_mem_filter hemem
          simp at hpred
          rcases List.mem_append.1 hmD with h1 | h1
          · exact hpred.1 e.2 h1 hnk
          · simp at h1
            rw [h1] at hnk
            exact hpred.2 hnk
        rw [horder2] at hine
        rcases List.mem_append.1 hine with h1 | h1
        · rcases List.mem_append.1 h1 with h2 | h2
          · exact List.mem_append_left _ h2
          · exact absurd h2 hnotD
        · exact List.mem_append_right _ h1
      · intro e hemem
        have hetbl : e ∈ t.table := hfsub.subset hemem
        have helt : e.2 < t.heap.length := (hC.2.1 e.2 (hvin e hetbl)).2
        rw [(hold e.2 helt).1]
        exact hcorr e hetbl
    · intro x hx
      have hxord : x ∈ order := by
        rw [horder2]
        rcases List.mem_append.1 hx with h1 | h1
        · exact List.mem_append_left _ (List.mem_append_left _ h1)
        · exact List.mem_append_right _ h1
      have hxnotD : x ∉ D1 ++ [ev] := by
        intro hmD
        rw [List.nodup_append] at hndall
        have hndLD := hndall.1
        rw [List.nodup_append] at hndLD
        rcases List.mem_append.1 hx with h1 | h1
        · exact hndLD.2.2 h1 hmD
        · exact hndall.2.2 (List.mem_append_right _ hmD) h1
      obtain ⟨e, he, hex⟩ := hS x hxord
      refine ⟨e, ?_, hex⟩
      rw [htbl]
      refine List.mem_filter.2 ⟨he, ?_⟩
      simp only [Bool.not_eq_true']
      rw [← Bool.not_eq_true]
      intro hcont
      have hmemk : e.1 ∈ (D1 ++ [ev]).filterMap
          (fun i => nodeKeyOf (getH t.heap i)) := by simpa using hcont
      obtain ⟨d, hd, hdk⟩ := List.mem_filterMap.1 hmemk
      have hdord : d ∈ order := by
        rw [horder2]
        exact List.mem_append_left _ (List.mem_append_right _ hd)
      obtain ⟨f, hf, hfd⟩ := hS d hdord
      have hfkey : keyF t.heap d = some f.1 := by
        rw [← hfd]
        exact hT.2.2 f hf
      have hdk2 : nodeKeyOf (getH t.heap d) = some f.1 := by
        unfold nodeKeyOf
        rw [show (getH t.heap d).key = keyF t.heap d from rfl, hfkey]
      rw [hdk2] at hdk
      have hef : e = f := mem_eq_of_keys_nodup hT.1 he hf (Option.some.inj hdk).symm
      rw [hef] at hex
      rw [hfd] at hex
      rw [hex] at hd
      exact hxnotD hd
  · exfalso
    have hevLs : ev ∈ Ls := by
      rw [hordsplit] at hevmem
      rcases List.mem_append.1 hevmem with h1 | h1
      · exact h1
      · exact absurd h1 hein
    exact blockDiscard_bad_anchor (hordsplit ▸ hC) hsv hev hevLs hop

theorem applyOp_OK {t t' : Top} {op : Op} (h : WFB t)
    (hknd : chainKeysNodup op) (hop : applyOp t op = .ok t') : WFB t' := by
  cases op with
  | add k v => exact add_OK h hop
  | insert i k v => exact insert_OK h hop
  | relativeInsert a k v f => exact relativeInsert_OK h hop
  | blockInsert i ch => exact blockInsert_OK h hknd hop
  | relativeBlockInsert a ch f => exact relativeBlockInsert_OK h hknd hop
  | replaceOp k v => exact replace_OK h hop
  | pop k =>
    rw [show applyOp t (Op.pop k) = (t.pop k).map Prod.fst from rfl,
      exmap_ok] at hop
    obtain ⟨⟨t2, i⟩, hpok, hteq⟩ := hop
    rw [← hteq]
    exact pop_OK h hpok
  | discard k => exact discard_OK h hop
  | blockDiscard s e => exact blockDiscard_OK h hop

theorem emptyTop_OK : WFB emptyTop := by
  obtain ⟨order, hC, hT⟩ := emptyTop_WF
  have hord : order = [] := by
    obtain ⟨-, hbnd, -, -⟩ := hC
    rcases order with _ | ⟨a, l⟩
    · rfl
    · exfalso
      have := hbnd a (List.mem_cons_self _ _)
      have hl : emptyTop.heap.length = 1 := rfl
      omega
  subst hord
  exact ⟨[], hC, hT, by intro x hx; simp at hx⟩

theorem foldlM_applyOp_OK {ops : List Op} :
    ∀ {t0 t : Top}, WFB t0 → (∀ op ∈ ops, chainKeysNodup op) →
      ops.foldlM applyOp t0 = .ok t → WFB t := by
  induction ops with
  | nil =>
    intro t0 t h0 _ hfold
    simp only [List.foldlM_nil] at hfold
    have : t0 = t := by simpa using hfold
    rw [← this]
    exact h0
  | cons op ops ih =>
    intro t0 t h0 hknd hfold
    rw [List.foldlM_cons] at hfold
    obtain ⟨t1, h1, h2⟩ := exbind_ok.1 hfold
    exact ih (applyOp_OK h0 (hknd op (List.mem_cons_self _ _)) h1)
      (fun o ho => hknd o (List.mem_cons_of_mem _ ho)) h2

theorem runOps_OK {ops : List Op} {t : Top}
    (hknd : ∀ op ∈ ops, chainKeysNodup op) (h : runOps ops = .ok t) :
    WFB t :=
  foldlM_applyOp_OK emptyTop_OK hknd h

/-- `block_insert` refuses a chain whose keys collide with the existing
table: `_batch_add_nodes` raises `KeyError` before any linking. -/
theorem blockInsert_collision {t : Top} {index : Nat}
    {chain : List (String × NodeValue)} (hne : chain ≠ [])
    (hcol : ∃ kv ∈ chain, (lookupA t.table kv.1).isSome) :
    t.blockInsert index chain = .error .keyError := by
  unfold Top.blockInsert batchAdd
  rw [List.head?_eq_head hne]
  have hn1 : 1 ≤ chain.length := List.length_pos.2 hne
  rw [show allocChain t.heap chain
    = ((allocChain t.heap chain).1, (allocChain t.heap chain).2) from rfl,
    allocChain_snd]
  simp only [orErr_some, exbind_pure_ok]
  have hhead : (List.range' t.heap.length chain.length).head?
      = some t.heap.length := by
    rcases hcl : chain.length with _ | m
    · omega
    · rfl
  have hlastq : (List.range' t.heap.length chain.length).getLast?
      = some (t.heap.length + chain.length - 1) := by
    rw [List.getLast?_eq_getLast _ (range'_ne_nil (by omega)),
      range'_getLast (by omega)]
  have hpath := getNodePath_chain (H := (allocChain t.heap chain).1)
    (D := List.range' t.heap.length chain.length)
    (range'_ne_nil (by omega))
    (chain'_next_range' (by
      intro j hj
      show (getH (allocChain t.heap chain).1 (t.heap.length + j)).next = _
      rw [allocChain_getH _ _ (show j < chain.length by omega)]
      show (if j = chain.length - 1 then none
        else some (realRef (t.heap.length + j + 1)))
        = some (realRef (t.heap.length + j + 1))
      rw [if_neg (show j ≠ chain.length - 1 by omega)]))
    (List.nodup_range' _ _ _ (by omega))
    (by simp [allocChain_length]; omega)
  rw [range'_head (by omega), range'_getLast (by omega)] at hpath
  rw [hhead, hlastq]
  simp only [orErr_some, exbind_pure_ok]
  rw [hpath]
  simp only [exbind_pure_ok]
  have hkey : ∀ j, (hj : j < chain.length) →
      (getH (allocChain t.heap chain).1 (t.heap.length + j)).key
        = some ((chain[j]).1) := by
    intro j hj
    rw [allocChain_getH _ _ hj]
  rw [blockPairs_eq chain t.heap.length hkey]
  have hany : ((chain.map Prod.fst).zip
      (List.range' t.heap.length chain.length)).any
      (fun e => (lookupA t.table e.1).isSome) = true := by
    obtain ⟨kv, hkv, hks⟩ := hcol
    obtain ⟨j, hj, hkvj⟩ := List.mem_iff_getElem.1 hkv
    rw [List.any_eq_true]
    have hjz : j < ((chain.map Prod.fst).zip
        (List.range' t.heap.length chain.length)).length := by
      rw [List.length_zip]
      simp
      omega
    refine ⟨((chain.map Prod.fst).zip
      (List.range' t.heap.length chain.length))[j], List.getElem_mem hjz, ?_⟩
    have hjm : j < (chain.map Prod.fst).length := by
      simp
      omega
    rw [List.getElem_zip]
    show (lookupA t.table ((chain.map Prod.fst)[j])).isSome = true
    rw [List.getElem_map, hkvj]
    exact hks
  rw [if_pos hany]
  rfl

/-- `Topology.__len__`: count the nodes yielded by forward iteration. -/
def topLen (t : Top) : Except PyErr Nat := (fwdRefs t).map List.length

/-- In a well-formed chain every linked node is doubly consistent with its
neighbours: `N.prev.next` is `N` again and `N.next.prev` is the proxy of
`N`. -/
theorem chain_consistency {t : Top} {order : List Nat} (hC : ChainOK t order) :
    ∀ i ∈ order,
      (∃ p, prevF t.heap i = some p ∧
        nextF t.heap p.id = some (fwdRef i)) ∧
      (∃ nx, nextF t.heap i = some nx ∧
        prevF t.heap nx.id = some (Ref.mk true i)) := by
  intro i hmem
  obtain ⟨L, R, hLR⟩ := List.append_of_mem hmem
  subst hLR
  have hgap1 := chain_gap (L := L) (R := i :: R) hC
  have hCb : ChainOK t ((L ++ [i]) ++ R) := by
    rw [show (L ++ [i]) ++ R = L ++ i :: R by simp]
    exact hC
  have hgap2 := chain_gap hCb
  have hgl : ((0 : Nat) :: (L ++ [i])).getLast (by simp) = i :=
    List.getLast_append' ((0 : Nat) :: L) [i] (by simp)
  rw [hgl] at hgap2
  constructor
  · refine ⟨Ref.mk true (((0 : Nat) :: L).getLast (by simp)), hgap1.2, ?_⟩
    exact hgap1.1
  · refine ⟨fwdRef ((R ++ [0]).head (by simp)), hgap2.1, ?_⟩
    rw [fwdRef_id]
    exact hgap2.2

/-- C3: on a free key, `add` appends the node immediately before the root
sentinel and registers it; on a present key it raises `KeyError` before any
mutation (the returned state is an error, the topology value untouched). -/
theorem claim_C3 {t : Top} {order : List Nat} {k : String} {v : NodeValue}
    (hC : ChainOK t order) :
    ((lookupA t.table k).isSome → t.add k v = .error .keyError) ∧
    (lookupA t.table k = none → ∃ t',
      t.add k v = .ok t' ∧
      ChainOK t' (order ++ [t.heap.length]) ∧
      t'.table = t.table ++ [(k, t.heap.length)] ∧
      keyF t'.heap t.heap.length = some k ∧
      valueF t'.heap t.heap.length = some v ∧
      (∀ j, j < t.heap.length →
        keyF t'.heap j = keyF t.heap j ∧ valueF t'.heap j = valueF t.heap j)) := by
  obtain ⟨hsplit, hadj⟩ := hC.chain_split
  constructor
  · intro hsome
    unfold Top.add addNodeCheck
    rw [show (getH t.heap 0).prev
      = some (Ref.mk true (((0 : Nat) :: order).getLast (by simp)))
      from hadj.2]
    rw [if_pos hsome]
    rfl
  · intro hfree
    have hok : ∃ t', t.add k v = .ok t' := by
      unfold Top.add addNodeCheck
      rw [show (getH t.heap 0).prev
        = some (Ref.mk true (((0 : Nat) :: order).getLast (by simp)))
        from hadj.2]
      rw [if_neg (by simp [hfree])]
      exact ⟨_, rfl⟩
    obtain ⟨t', hop⟩ := hok
    obtain ⟨-, hlen2, htbl, hC', hkey, hval, hold⟩ := add_shape hC hop
    exact ⟨t', hop, hC', by rw [htbl, odUpdate_absent hfree], hkey, hval, hold⟩

theorem claim_C3_witness :
    ChainOK emptyTop [] ∧
    (((lookupA emptyTop.table "k").isSome →
      emptyTop.add "k" (NodeValue.mk (NVData.generic "x") 0)
        = .error .keyError) ∧
    (lookupA emptyTop.table "k" = none → ∃ t',
      emptyTop.add "k" (NodeValue.mk (NVData.generic "x") 0) = .ok t' ∧
      ChainOK t' ([] ++ [emptyTop.heap.length]) ∧
      t'.table = emptyTop.table ++ [("k", emptyTop.heap.length)] ∧
      keyF t'.heap emptyTop.heap.length = some "k" ∧
      valueF t'.heap emptyTop.heap.length
        = some (NodeValue.mk (NVData.generic "x") 0) ∧
      (∀ j, j < emptyTop.heap.length →
        keyF t'.heap j = keyF emptyTop.heap j ∧
        valueF t'.heap j = valueF emptyTop.heap j))) := by
  refine ⟨?_, claim_C3 ?_⟩ <;> decide

/-- C9: indexing a chain of length `L` (as counted by `__len__`) with a
valid non-negative index `i` and with `i - L` hands back the identical
unproxied node reference. -/
theorem claim_C9 {t : Top} {order : List Nat} {L : Nat} (hC : ChainOK t order)
    (hL : topLen t = .ok L) {i : Nat} (hi : i < L) :
    ∃ r, getItemInt t (i : Int) = .ok (some r) ∧
      getItemInt t ((i : Int) - (L : Int)) = .ok (some r) := by
  have hLo : L = order.length := by
    unfold topLen at hL
    rw [fwdRefs_spec hC] at hL
    simp only [Except.map, List.length_map] at hL
    exact (Except.ok.inj hL).symm
  subst hLo
  obtain ⟨hlen, hbnd, hnd, -⟩ := id hC
  have hib := hbnd (order[i]) (List.getElem_mem hi)
  -- the unproxied result is the same node in both cases
  have hCsplit : ChainOK t (order.take i ++ order.drop i) := by
    rw [List.take_append_drop]
    exact hC
  have hgap := chain_gap hCsplit
  have hheadd : ((order.drop i) ++ [0]).head (by simp) = order[i] := by
    have h1 : ((order.drop i) ++ [0]).head? = some (order[i]) := by
      rw [List.drop_eq_getElem_cons hi]
      rfl
    rw [List.head?_eq_head (by simp)] at h1
    exact Option.some.inj h1
  rw [hheadd] at hgap
  have hup : ∀ r : Ref, r.id = order[i] →
      unproxyTry t r = some (realRef (order[i])) := by
    intro r hr
    unfold unproxyTry
    rw [hr, show (getH t.heap (order[i])).prev
      = prevF t.heap (order[i]) from rfl, hgap.2]
    show nextF t.heap (((0 : Nat) :: order.take i).getLast (by simp)) = _
    rw [hgap.1, fwdRef_pos hib.1]
  refine ⟨realRef (order[i]), ?_, ?_⟩
  · unfold getItemInt
    rw [if_neg (by omega)]
    rw [fwdRefs_spec hC, exbind_pure_ok]
    rw [show ((order.map realRef)[((i : Int)).toNat]?)
      = some (realRef (order[i])) from by
        rw [List.getElem?_map, show ((i : Int)).toNat = i from by omega,
          List.getElem?_eq_getElem hi]
        rfl]
    show Except.ok (unproxyTry t (realRef (order[i]))) = _
    rw [hup (realRef (order[i])) rfl]
  · unfold getItemInt
    rw [if_pos (by omega)]
    show (bwdRefs t >>= fun l =>
      match l[((-((i : Int) - (order.length : Int))) - 1).toNat]? with
      | none => Except.error PyErr.indexError
      | some r => Except.ok (unproxyTry t r)) = _
    rw [bwdRefs_spec hC, exbind_pure_ok]
    rw [show ((order.reverse.map (Ref.mk true))[((-((i : Int) - (order.length : Int))) - 1).toNat]?)
      = some (Ref.mk true (order[i])) from by
        rw [show ((-((i : Int) - (order.length : Int))) - 1).toNat
          = order.length - 1 - i from by omega]
        rw [List.getElem?_map, List.getElem?_reverse (by omega)]
        rw [show order.length - 1 - (order.length - 1 - i) = i from by omega]
        rw [List.getElem?_eq_getElem hi]
        rfl]
    show Except.ok (unproxyTry t (Ref.mk true (order[i]))) = _
    rw [hup (Ref.mk true (order[i])) rfl]

def oneTop : Top :=
  { heap := [{ prev := some (Ref.mk true 1), next := some (realRef 1) },
      { key := some "a", prev := some (Ref.mk true 0),
        next := some (Ref.mk true 0) }],
    table := [("a", 1)] }

theorem claim_C9_witness :
    ChainOK oneTop [1] ∧ topLen oneTop = .ok 1 ∧ (0 : Nat) < 1 ∧
    ∃ r, getItemInt oneTop ((0 : Nat) : Int) = .ok (some r) ∧
      getItemInt oneTop (((0 : Nat) : Int) - ((1 : Nat) : Int)) = .ok (some r) :=
  ⟨by decide, by rfl, by decide,
    @claim_C9 oneTop [1] 1 (by decide) (by rfl) 0 (by decide)⟩

/-- C8 (amended): removal by `pop`, `discard` or `block_discard` is atomic
on the *live* structure: the former neighbours become directly adjacent, no
key of a removed node survives in the lookup table, and every other node
keeps its key, value and relative position.  (The spec’s stronger "no link
to or from a removed node remains" is false: a removed node keeps its own
`prev`/`next` slots, see the counterexample.) -/
theorem claim_C8 {t : Top} {order : List Nat} (hC : ChainOK t order) :
    (∀ k t' i L R, t.pop k = .ok (t', i) → order = L ++ i :: R →
      lookupA t'.table k = none ∧
      ChainOK t' (L ++ R) ∧
      Adj t'.heap (((0 : Nat) :: L).getLast (by simp))
        ((R ++ [0]).head (by simp)) ∧
      (∀ j, keyF t'.heap j = keyF t.heap j ∧
        valueF t'.heap j = valueF t.heap j)) ∧
    (∀ k t', t.discard k = .ok t' →
      lookupA t'.table k = none ∧
      (lookupA t.table k = none → t' = t) ∧
      (∀ i L R, lookupA t.table k = some i → order = L ++ i :: R →
        ChainOK t' (L ++ R) ∧
        Adj t'.heap (((0 : Nat) :: L).getLast (by simp))
          ((R ++ [0]).head (by simp)) ∧
        (∀ j, keyF t'.heap j = keyF t.heap j ∧
          valueF t'.heap j = valueF t.heap j))) ∧
    (∀ sk ek t' L D R, t.blockDiscard sk ek = .ok t' →
      order = L ++ D ++ R → (w : D ≠ []) →
      lookupA t.table sk = some (D.head w) →
      lookupA t.table ek = some (D.getLast w) →
      ChainOK t' (L ++ R) ∧
      Adj t'.heap (((0 : Nat) :: L).getLast (by simp))
        ((R ++ [0]).head (by simp)) ∧
      (∀ x ∈ D, ∀ kx, keyF t.heap x = some kx →
        lookupA t'.table kx = none) ∧
      (∀ j, j < t.heap.length → keyF t'.heap j = keyF t.heap j ∧
        valueF t'.heap j = valueF t.heap j)) := by
  refine ⟨?_, ?_, ?_⟩
  · intro k t' i L R hop hord
    obtain ⟨-, htbl, -, hCsplit, hkv⟩ := pop_shape hC hop
    have hC' := hCsplit L R hord
    refine ⟨?_, hC', chain_gap hC', hkv⟩
    rw [htbl, lookupA_none_iff]
    intro e he
    exact of_decide_eq_true (List.mem_filter.1 he).2
  · intro k t' hop
    rcases discard_shape hC hop with ⟨hnone, ht'⟩ | ⟨i0, hsome, htbl, -, hCsplit, hkv⟩
    · refine ⟨by rw [ht']; exact hnone, fun _ => ht', ?_⟩
      intro i L R hsome hord
      rw [hnone] at hsome
      exact absurd hsome (by simp)
    · have hlk : lookupA t'.table k = none := by
        rw [htbl, lookupA_none_iff]
        intro e he
        exact of_decide_eq_true (List.mem_filter.1 he).2
      refine ⟨hlk, fun hq => absurd hsome (by rw [hq]; simp), ?_⟩
      intro i L R hsome2 hord
      have hii : i = i0 := by
        rw [hsome] at hsome2
        exact (Option.some.inj hsome2).symm
      subst hii
      have hC' := hCsplit L R hord
      exact ⟨hC', chain_gap hC', hkv⟩
  · intro sk ek t' L D R hop hord w hsk hek
    subst hord
    obtain ⟨-, hC', htbl, hkv⟩ := blockDiscard_shape hC w hsk hek hop
    refine ⟨hC', chain_gap hC', ?_, hkv⟩
    intro x hx kx hkx
    rw [htbl, lookupA_none_iff]
    intro e he
    obtain ⟨-, hpass⟩ := List.mem_filter.1 he
    intro hek2
    rw [hek2] at hpass
    have hmemk : kx ∈ D.filterMap (fun i => nodeKeyOf (getH t.heap i)) := by
      refine List.mem_filterMap.2 ⟨x, hx, ?_⟩
      show nodeKeyOf (getH t.heap x) = some kx
      unfold nodeKeyOf
      rw [show (getH t.heap x).key = some kx from hkx]
    simp only [Bool.not_eq_true'] at hpass
    exact absurd hmemk (by simpa using hpass)

def genVal : NodeValue := { data := NVData.generic "x", count := 0 }

/-- The topology built by `add "a"; add "b"; add "c"` on a fresh instance. -/
def threeTop : Top :=
  { heap := [
      { prev := some (Ref.mk true 3), next := some (realRef 1) },
      { key := some "a", value := some genVal, prev := some (Ref.mk true 0),
        next := some (realRef 2) },
      { key := some "b", value := some genVal, prev := some (Ref.mk true 1),
        next := some (realRef 3) },
      { key := some "c", value := some genVal, prev := some (Ref.mk true 2),
        next := some (Ref.mk true 0) }],
    table := [("a", 1), ("b", 2), ("c", 3)] }

/-- C8, counterexample to "no link to or from a removed node remains": after
`pop "b"` on a three-node topology the removed node still holds its own
`next`/`prev` references to the (live) former neighbours. -/
theorem claim_C8_counterexample :
    ∃ t', runOps [Op.add "a" genVal, Op.add "b" genVal, Op.add "c" genVal]
        = .ok threeTop ∧
      threeTop.pop "b" = .ok (t', 2) ∧
      keyF threeTop.heap 2 = some "b" ∧
      lookupA t'.table "b" = none ∧
      lookupA t'.table "c" = some 3 ∧
      ChainOK t' [1, 3] ∧
      nextF t'.heap 2 = some (realRef 3) ∧
      prevF t'.heap 2 = some (Ref.mk true 1) := by
  exact ⟨_, rfl, rfl, rfl, by decide, by decide, by decide, rfl, rfl⟩

theorem claim_C8_witness :
    (∀ k t' i L R, threeTop.pop k = .ok (t', i) → [1, 2, 3] = L ++ i :: R →
      lookupA t'.table k = none ∧
      ChainOK t' (L ++ R) ∧
      Adj t'.heap (((0 : Nat) :: L).getLast (by simp))
        ((R ++ [0]).head (by simp)) ∧
      (∀ j, keyF t'.heap j = keyF threeTop.heap j ∧
        valueF t'.heap j = valueF threeTop.heap j)) ∧
    (∀ k t', threeTop.discard k = .ok t' →
      lookupA t'.table k = none ∧
      (lookupA threeTop.table k = none → t' = threeTop) ∧
      (∀ i L R, lookupA threeTop.table k = some i → [1, 2, 3] = L ++ i :: R →
        ChainOK t' (L ++ R) ∧
        Adj t'.heap (((0 : Nat) :: L).getLast (by simp))
          ((R ++ [0]).head (by simp)) ∧
        (∀ j, keyF t'.heap j = keyF threeTop.heap j ∧
          valueF t'.heap j = valueF threeTop.heap j))) ∧
    (∀ sk ek t' L D R, threeTop.blockDiscard sk ek = .ok t' →
      [1, 2, 3] = L ++ D ++ R → (w : D ≠ []) →
      lookupA threeTop.table sk = some (D.head w) →
      lookupA threeTop.table ek = some (D.getLast w) →
      ChainOK t' (L ++ R) ∧
      Adj t'.heap (((0 : Nat) :: L).getLast (by simp))
        ((R ++ [0]).head (by simp)) ∧
      (∀ x ∈ D, ∀ kx, keyF threeTop.heap x = some kx →
        lookupA t'.table kx = none) ∧
      (∀ j, j < threeTop.heap.length →
        keyF t'.heap j = keyF threeTop.heap j ∧
        valueF t'.heap j = valueF threeTop.heap j)) :=
  @claim_C8 threeTop [1, 2, 3] (by decide)

/-- C1 (amended/corrected): after any successful sequence of container
operations in which every inserted block has pairwise-distinct keys, the
lookup table is a bijection with the linked non-root nodes; and
`block_insert` fails with `KeyError` whenever a key of the block collides
with an existing key.  (Without the distinct-keys proviso the bijection can
break, see the counterexample: a block whose own nodes repeat a key is
accepted and leaves a linked node unregistered.) -/
theorem claim_C1 :
    (∀ ops t, (∀ op ∈ ops, chainKeysNodup op) → runOps ops = .ok t →
      ∃ order, ChainOK t order ∧ TableOK t order) ∧
    (∀ (t : Top) (index : Nat) (chain : List (String × NodeValue)),
      chain ≠ [] → (∃ kv ∈ chain, (lookupA t.table kv.1).isSome) →
      t.blockInsert index chain = .error .keyError) := by
  constructor
  · intro ops t hknd hrun
    obtain ⟨order, hC, hT, hS⟩ := runOps_OK hknd hrun
    exact ⟨order, hC, tableOK_of hC hT hS⟩
  · intro t index chain hne hcol
    exact blockInsert_collision hne hcol

/-- C1, counterexample to the claim's final clause: `block_insert` of a
chain that repeats a key among its own nodes succeeds, yet afterwards two
linked nodes share one table entry — the bijection is broken. -/
theorem claim_C1_counterexample :
    ∃ t, runOps [Op.blockInsert 0 [("x", genVal), ("x", genVal)]] = .ok t ∧
      ChainOK t [1, 2] ∧
      t.table = [("x", 2)] ∧
      ¬ TableOK t [1, 2] := by
  exact ⟨_, rfl, by decide, rfl, by decide⟩

theorem claim_C1_witness :
    ((∀ op ∈ [Op.add "a" genVal, Op.add "b" genVal, Op.add "c" genVal],
        chainKeysNodup op) ∧
      runOps [Op.add "a" genVal, Op.add "b" genVal, Op.add "c" genVal]
        = .ok threeTop ∧
      (∃ order, ChainOK threeTop order ∧ TableOK threeTop order)) ∧
    (([(("a" : String), genVal)] ≠ []) ∧
      (∃ kv ∈ [(("a" : String), genVal)],
        (lookupA threeTop.table kv.1).isSome) ∧
      threeTop.blockInsert 0 [("a", genVal)] = .error .keyError) :=
  ⟨⟨by decide, by rfl,
    claim_C1.1 [Op.add "a" genVal, Op.add "b" genVal, Op.add "c" genVal]
      threeTop (by decide) (by rfl)⟩,
    ⟨by decide, ⟨("a", genVal), by decide, by decide⟩,
      claim_C1.2 threeTop 0 [("a", genVal)] (by decide)
        ⟨("a", genVal), by decide, by decide⟩⟩⟩

/-! ### The GROMACS topology parser (`GromacsTopologyParser.read`) -/

/-- `str.lstrip()`. -/
def pyLstrip (s : String) : String := ⟨lstripL s.data⟩

/-- `line[: line.rfind("\\")]` for a line that contains a backslash. -/
def pyBeforeLastBackslash (s : String) : String :=
  ⟨(((s.data.reverse).dropWhile (· ≠ '\\')).drop 1).reverse⟩

/-- Python `int(str)` accepts the token (model of the decimal literal
grammar: optional surrounding whitespace, optional sign, digits). -/
def pyIntOk (s : String) : Bool :=
  let t := (pyStrip s).data
  let t := match t with
    | '+' :: r => r
    | '-' :: r => r
    | r => r
  !t.isEmpty && t.all Char.isDigit

/-- Value of an accepted decimal integer token. -/
def pyToInt (s : String) : Int :=
  let t := (pyStrip s).data
  match t with
  | '+' :: r => Int.ofNat (r.foldl (fun a c => a * 10 + (c.toNat - 48)) 0)
  | '-' :: r => -Int.ofNat (r.foldl (fun a c => a * 10 + (c.toNat - 48)) 0)
  | r => Int.ofNat (r.foldl (fun a c => a * 10 + (c.toNat - 48)) 0)

/-- Python `float(str)` accepts the token (model of the float literal
grammar: optional sign, then digits with optional point/exponent part, or
`inf`/`infinity`/`nan`). -/
def pyFloatTokOk (s : String) : Bool :=
  let t0 := (pyLower (pyStrip s)).data
  let t := match t0 with
    | '+' :: r => r
    | '-' :: r => r
    | r => r
  if t == "inf".data || t == "infinity".data || t == "nan".data then true
  else
    let intPart := t.takeWhile Char.isDigit
    let rest := t.dropWhile Char.isDigit
    let fracPart := match rest with
      | '.' :: r => r.takeWhile Char.isDigit
      | _ => []
    let rest2 := match rest with
      | '.' :: r => r.dropWhile Char.isDigit
      | r => r
    let digitsOk := !intPart.isEmpty || !fracPart.isEmpty
    let expOk := match rest2 with
      | [] => true
      | 'e' :: r =>
        let r2 := match r with
          | '+' :: q => q
          | '-' :: q => q
          | q => q
        !r2.isEmpty && r2.all Char.isDigit
      | _ => false
    digitsOk && expOk

/-- Field coercion `int(value)` keeping the string on `ValueError`
(`SectionEntry.__init__`). -/
def coerceInt (tok : String) : FieldV :=
  if pyIntOk tok then .vInt (pyToInt tok) else .vStr tok

/-- Field coercion `float(value)` keeping the string on `ValueError`. -/
def coerceFloat (tok : String) : FieldV :=
  if pyFloatTokOk tok then .vFloat tok else .vStr tok

/-- Scalar field target types in `_args`. -/
inductive CTy where
  | cInt
  | cFloat
  | cStr
deriving DecidableEq, Repr

def coerceTok : CTy → String → FieldV
  | .cInt, tok => coerceInt tok
  | .cFloat, tok => coerceFloat tok
  | .cStr, tok => .vStr tok

/-- The `from_line` families of the section-entry classes. -/
inductive EntryFam where
  | plainE (spec : List (String × CTy × Option FieldV))
  | pTerm (names : List String)
  | atomtypesE
  | systemE
  | exclusionsE
  | vsites (n : Nat)
  | vsitesN
deriving DecidableEq, Repr

/-- Sections/subsections that carry a `category` attribute
(`SpecializedSection`/`SpecializedSubsection` and subclasses): the
category and whether the class is a subsection. -/
def sectionInfo : String → Option (Nat × Bool)
  | "special_section" => some (0, false)
  | "defaults" => some (0, false)
  | "atomtypes" => some (0, false)
  | "bondtypes" => some (0, false)
  | "angletypes" => some (0, false)
  | "pairtypes" => some (0, false)
  | "dihedraltypes" => some (0, false)
  | "constrainttypes" => some (0, false)
  | "nonbonded_params" => some (0, false)
  | "moleculetype" => some (1, false)
  | "system" => some (2, false)
  | "molecules" => some (2, false)
  | "special_subsection" => some (1, true)
  | "atoms" => some (1, true)
  | "bonds" => some (1, true)
  | "pairs" => some (1, true)
  | "pairs_nb" => some (1, true)
  | "angles" => some (1, true)
  | "dihedrals" => some (1, true)
  | "exclusions" => some (1, true)
  | "constraints" => some (1, true)
  | "settles" => some (1, true)
  | "virtual_sites2" => some (1, true)
  | "virtual_sites3" => some (1, true)
  | "virtual_sites4" => some (1, true)
  | "virtual_sitesn" => some (1, true)
  | "position_restraints" => some (1, true)
  | "distance_restraints" => some (1, true)
  | "dihedral_restraints" => some (1, true)
  | "orientation_restraints" => some (1, true)
  | "angle_restraints" => some (1, true)
  | "angle_restraints_z" => some (1, true)
  | _ => none

/-- Registered node-value tags whose class has no `category` attribute: a
section heading naming one of these hits `nvtype.category` and raises
`AttributeError`. -/
def regNoCat : List String :=
  ["abstract", "generic", "define", "condition", "section", "subsection",
   "comment", "include", "section_entry", "p1_term_entry", "p2_term_entry",
   "p3_term_entry", "p4_term_entry", "defaults_entry", "atomtypes_entry",
   "bondtypes_entry", "angletypes_entry", "pairtypes_entry",
   "dihedraltypes_entry", "constrainttypes_entry", "nonbonded_params_entry",
   "moleculetype_entry", "system_entry", "molecules_entry", "atoms_entry",
   "bonds_entry", "pairs_entry", "pairs_nb_entry", "angles_entry",
   "dihedrals_entry", "exclusions_entry", "constraints_entry",
   "settles_entry", "virtual_sites1_entry", "virtual_sites2_entry",
   "virtual_sites3_entry", "virtual_sites4_entry", "virtual_sitesn_entry",
   "position_restraints_entry", "distance_restraints_entry",
   "dihedral_restraints_entry", "orientations_restraints_entry",
   "angle_restraints_entry", "angle_restraints_z_entry"]

def atomsSpec : List (String × CTy × Option FieldV) :=
  [("nr", .cInt, none), ("type", .cStr, none), ("resnr", .cInt, none),
   ("residue", .cStr, none), ("atom", .cStr, none), ("cgnr", .cInt, none),
   ("charge", .cFloat, none), ("mass", .cFloat, none),
   ("typeB", .cFloat, none), ("chargeB", .cFloat, none),
   ("massB", .cFloat, none)]

def defaultsSpec : List (String × CTy × Option FieldV) :=
  [("nbfunc", .cInt, none), ("comb_rule", .cInt, none),
   ("gen_pairs", .cStr, some (.vStr "no")), ("fudgeLJ", .cFloat, none),
   ("fudgeQQ", .cFloat, none), ("n", .cInt, none)]

/-- `node_value_types.get(f"{active_section._node_key_name}_entry")`. -/
def entryFamily : String → Option EntryFam
  | "section_entry" => some (.plainE [])
  | "defaults_entry" => some (.plainE defaultsSpec)
  | "moleculetype_entry" =>
      some (.plainE [("molecule", .cStr, none), ("nrexcl", .cInt, none)])
  | "molecules_entry" =>
      some (.plainE [("molecule", .cStr, none), ("number", .cInt, none)])
  | "atoms_entry" => some (.plainE atomsSpec)
  | "atomtypes_entry" => some .atomtypesE
  | "system_entry" => some .systemE
  | "exclusions_entry" => some .exclusionsE
  | "p1_term_entry" => some (.pTerm ["i"])
  | "p2_term_entry" => some (.pTerm ["i", "j"])
  | "p3_term_entry" => some (.pTerm ["i", "j", "k"])
  | "p4_term_entry" => some (.pTerm ["i", "j", "k", "l"])
  | "bondtypes_entry" => some (.pTerm ["i", "j"])
  | "angletypes_entry" => some (.pTerm ["i", "j", "k"])
  | "pairtypes_entry" => some (.pTerm ["i", "j"])
  | "dihedraltypes_entry" => some (.pTerm ["i", "j", "k", "l"])
  | "constrainttypes_entry" => some (.pTerm ["i", "j"])
  | "nonbonded_params_entry" => some (.pTerm ["i", "j"])
  | "bonds_entry" => some (.pTerm ["i", "j"])
  | "pairs_entry" => some (.pTerm ["i", "j"])
  | "pairs_nb_entry" => some (.pTerm ["i", "j"])
  | "angles_entry" => some (.pTerm ["i", "j", "k"])
  | "dihedrals_entry" => some (.pTerm ["i", "j", "k", "l"])
  | "constraints_entry" => some (.pTerm ["i", "j"])
  | "settles_entry" => some (.pTerm ["i"])
  | "virtual_sites1_entry" => some (.vsites 1)
  | "virtual_sites2_entry" => some (.vsites 2)
  | "virtual_sites3_entry" => some (.vsites 3)
  | "virtual_sites4_entry" => some (.vsites 4)
  | "virtual_sitesn_entry" => some .vsitesN
  | "position_restraints_entry" => some (.pTerm ["i"])
  | "distance_restraints_entry" => some (.pTerm ["i", "j"])
  | "dihedral_restraints_entry" => some (.pTerm ["i", "j", "k", "l"])
  | "orientations_restraints_entry" => some (.pTerm ["i", "j"])
  | "angle_restraints_entry" => some (.pTerm ["i", "j", "k", "l"])
  | "angle_restraints_z_entry" => some (.pTerm ["i", "j"])
  | _ => none

/-- `SectionEntry.from_line`: zip `_args` names with the tokens (extra
tokens dropped, missing names fall back to `__init__` defaults). -/
def plainFromLine (tag : String) (spec : List (String × CTy × Option FieldV))
    (args : List String) (cmt : Option String) : EntryData :=
  { tag := tag,
    fields := spec.enum.map (fun e =>
      (e.2.1, match args[e.1]? with
        | some tok => some (coerceTok e.2.2.1 tok)
        | none => e.2.2.2)),
    cs := none, ints := none, comment := cmt, raw := none }

/-- `P1TermEntry.from_line` and friends: unpack the leading indices (raises
`ValueError` when too few tokens), coerce `funct`, and convert the tail to
`float` coefficients (raises `ValueError` on a bad token). -/
def pTermFromLine (tag : String) (names : List String) (args : List String)
    (cmt : Option String) : Except PyErr EntryData :=
  if args.length < names.length then .error .valueError
  else
    let fields := (names.zip args).map (fun e => (e.1, some (coerceInt e.2)))
    match args.drop names.length with
    | [] =>
      .ok { tag := tag, fields := fields ++ [("funct", none)],
            cs := some [], ints := none, comment := cmt, raw := none }
    | funct :: cl =>
      if cl.all pyFloatTokOk then
        .ok { tag := tag,
              fields := fields ++ [("funct", some (coerceInt funct))],
              cs := some cl, ints := none, comment := cmt, raw := none }
      else .error .valueError

/-- `AtomtypesEntry.from_line`: 7 tokens drop the `bond_type` column. -/
def atomtypesSpec : List (String × CTy) :=
  [("name", .cStr), ("bond_type", .cStr), ("at_num", .cInt),
   ("mass", .cFloat), ("charge", .cFloat), ("ptype", .cStr),
   ("sigma", .cFloat), ("epsilon", .cFloat)]

def atomtypesFromLine (args : List String) (cmt : Option String) :
    EntryData :=
  let names := if args.length = 7 then
      atomtypesSpec.take 1 ++ atomtypesSpec.drop 2
    else atomtypesSpec
  let assoc := names.zip args
  { tag := "atomtypes_entry",
    fields := atomtypesSpec.map (fun e =>
      (e.1, (lookupA (assoc.map (fun p => (p.1.1, (p.1.2, p.2)))) e.1).map
        (fun q => coerceTok q.1 q.2))),
    cs := none, ints := none, comment := cmt, raw := none }

/-- `VirtualSites{2,3,4}Entry.from_line`: one site index, `n` construction
atoms (ints), then `funct` and float coefficients. -/
def vsitesFromLine (tag : String) (n : Nat) (args : List String)
    (cmt : Option String) : Except PyErr EntryData :=
  if args.length < n + 1 then .error .valueError
  else
    let i := args.head!
    let fs := (args.drop 1).take n
    if ¬ fs.all pyIntOk then .error .valueError
    else
      match args.drop (n + 1) with
      | [] =>
        .ok { tag := tag,
              fields := [("i", some (coerceInt i)), ("funct", none)],
              cs := some [], ints := some (fs.map pyToInt),
              comment := cmt, raw := none }
      | funct :: cl =>
        if cl.all pyFloatTokOk then
          .ok { tag := tag,
                fields := [("i", some (coerceInt i)),
                  ("funct", some (coerceInt funct))],
                cs := some cl, ints := some (fs.map pyToInt),
                comment := cmt, raw := none }
        else .error .valueError

/-- `VirtualSitesNEntry.from_line`. -/
def vsitesNFromLine (args : List String) (cmt : Option String) :
    Except PyErr EntryData :=
  if args.length < 1 then .error .valueError
  else
    let i := args.head!
    match args.drop 1 with
    | [] =>
      .ok { tag := "virtual_sitesn_entry",
            fields := [("i", some (coerceInt i)), ("funct", none)],
            cs := none, ints := some [], comment := cmt, raw := none }
    | funct :: fl =>
      if ¬ fl.all pyIntOk then .error .valueError
      else
        .ok { tag := "virtual_sitesn_entry",
              fields := [("i", some (coerceInt i)),
                ("funct", some (coerceInt funct))],
              cs := none, ints := some (fl.map pyToInt), comment := cmt,
              raw := none }

def famFromLine (fam : EntryFam) (tag : String) (args : List String)
    (cmt : Option String) : Except PyErr EntryData :=
  match fam with
  | .plainE spec => .ok (plainFromLine tag spec args cmt)
  | .pTerm names => pTermFromLine tag names args cmt
  | .atomtypesE => .ok (atomtypesFromLine args cmt)
  | .systemE =>
    .ok { tag := tag,
          fields := [("name", some (.vStr (String.intercalate " " args)))],
          cs := none, ints := none, comment := cmt, raw := none }
  | .exclusionsE =>
    if args.all pyIntOk then
      .ok { tag := tag, fields := [], cs := none,
            ints := some (args.map pyToInt), comment := cmt, raw := none }
    else .error .valueError
  | .vsites n => vsitesFromLine tag n args cmt
  | .vsitesN => vsitesNFromLine args cmt

/-- `SectionEntry.create_raw`. -/
def createRaw (tag : String) (line : String) : EntryData :=
  { tag := tag, fields := [], cs := none, ints := none, comment := none,
    raw := some line }

/-- `SectionEntry.__str__` for a raw entry: the stored line verbatim. -/
def strEntry (e : EntryData) : Option String :=
  match e.raw with
  | some r => some r
  | none => none

/-- Truthiness normalisation of a looked-up definition in the suppression
check (`defined_value = get(...); if defined_value: defined_value = True`);
a falsy value that is not the bool `False` (the empty-string define)
matches neither required value. -/
def normDefined (v : DefineValue) : Option Bool :=
  if truthy v then some true
  else match v with
    | .flag b => some b
    | .str _ => none

def skip1 (defs : List (String × DefineValue)) (ck : String) (req : Bool) :
    Bool :=
  match normDefined ((lookupA defs ck).getD (.flag false)) with
  | some b => b != req
  | none => true

/-- The resolve-mode suppression check over the active condition stack. -/
def suppressedB (conds : List (String × Bool))
    (defs : List (String × DefineValue)) : Bool :=
  conds.any (fun e => skip1 defs e.1 e.2)

/-- The parser state threaded through `GromacsTopologyParser.read`. -/
structure PState where
  top : Top
  counts : List (String × Nat)
  activeSectionTag : Option String
  activeSupersectionTag : Option String
  activeCategory : Nat
  activeConditions : List (String × Bool)
  activeDefinitions : List (String × DefineValue)
  previous : String
deriving DecidableEq, Repr

/-- `increase_count` on first use of a node-value class plus
`_make_node_key`. -/
def bumpCount (cs : List (String × Nat)) (tag : String) :
    Nat × List (String × Nat) :=
  let n := (lookupA cs tag).getD 0 + 1
  (n, odUpdate cs tag n)

/-- `Topology.make_node_value`: construct the value (bumping the class
counter) and derive the node key. -/
def mkValue (s : PState) (d : NVData) : String × NodeValue × PState :=
  let (n, cs) := bumpCount s.counts d.tag
  (d.tag ++ "_" ++ toString n, ⟨d, n⟩, { s with counts := cs })

def condDataOf : NVData → Option (String × Option Bool)
  | .condition k v _ => some (k, v)
  | _ => none

/-- Rewrite the `complement` slot of a `Condition` value. -/
def setComplement (v : NodeValue) (r : Option Ref) : NodeValue :=
  { v with data := match v.data with
    | .condition k b _ => .condition k b r
    | d => d }

def setComplementF (h : Heap) (i : Nat) (r : Option Ref) : Heap :=
  setValueF h i ((getH h i).value.map (fun v => setComplement v r))

/-- One step of the `find_complement` walk. -/
def findCompAux (h : Heap) (key : String) (gotoPrev : Bool) :
    Nat → Option Ref → Option Nat
  | 0, _ => none
  | _, none => none
  | fuel + 1, some r =>
    if r.id = 0 then none
    else
      let hit := match (getH h r.id).value with
        | some v => match v.data with
          | .condition k _ _ => k == key
          | _ => false
        | none => false
      if hit then some r.id
      else findCompAux h key gotoPrev fuel
        (if gotoPrev then (getH h r.id).prev else (getH h r.id).next)

/-- `GromacsTopology.find_complement`: walk `prev` (for a closing
condition) or `next` (for an opening one) until the root, returning the
first `Condition` node with the same key. -/
def findComplement (t : Top) (i : Nat) : Option Nat :=
  match (getH t.heap i).value.bind (fun v => condDataOf v.data) with
  | none => none
  | some (key, vv) =>
    let gotoPrev := vv.isNone
    findCompAux t.heap key gotoPrev (t.heap.length + 1)
      (if gotoPrev then (getH t.heap i).prev else (getH t.heap i).next)

def addNodeTo (s : PState) (d : NVData) : Except PyErr PState := do
  let (key, v, s1) := mkValue s d
  let t1 ← s1.top.add key v
  .ok { s1 with top := t1 }

/-- The `#define` handler (`read`, before the suppression check). -/
def defineHandler (s : PState) (line : String) : Except PyErr PState :=
  match pySplitMax1 (pyLstrip (pyLstripSet line "#define")) with
  | [] => .error .indexError
  | [w] => do
    let s1 ← addNodeTo s (.defineD w (.flag true))
    .ok { s1 with
      activeDefinitions := odUpdate s1.activeDefinitions w (.flag true) }
  | w :: rest :: _ => do
    let s1 ← addNodeTo s (.defineD w (.str rest))
    .ok { s1 with
      activeDefinitions := odUpdate s1.activeDefinitions w (.str rest) }

/-- The `#undef` handler: the node is added, then `dict.pop` raises
`KeyError` when the name is not an active definition. -/
def undefHandler (s : PState) (line : String) : Except PyErr PState := do
  let w := pyLstrip (pyLstripSet line "#undef")
  let s1 ← addNodeTo s (.defineD w (.flag false))
  match lookupA s1.activeDefinitions w with
  | none => .error .keyError
  | some _ => .ok { s1 with
      activeDefinitions := s1.activeDefinitions.filter (fun e => e.1 ≠ w) }

/-- The `#ifdef`/`#ifndef` handler. -/
def ifdefHandler (rc : Bool) (s : PState) (line : String) (pos : Bool) :
    Except PyErr PState :=
  let w := pyLstrip (pyLstripSet line
    (if pos then "#ifdef" else "#ifndef"))
  let s1 := { s with activeConditions := odUpdate s.activeConditions w pos }
  if rc = false then addNodeTo s1 (.condition w (some pos) none)
  else .ok s1

/-- `active_conditions.popitem(last=True)`. -/
def odPopLast {α β : Type} (l : List (α × β)) :
    Option ((α × β) × List (α × β)) :=
  match l.getLast? with
  | none => none
  | some e => some (e, l.dropLast)

/-- The preserve-mode `#else` tail: an `#endif`-like `Condition(key, None)`
followed by the flipped opener. -/
def elsePreserve (s : PState) (ck : String) (nv : Bool) :
    Except PyErr PState := do
  let s1 ← addNodeTo s (.condition ck none none)
  addNodeTo s1 (.condition ck (some nv) none)

/-- The preserve-mode `#endif` tail: add `Condition(key, None)`, then
cross-link it with `find_complement` (walking backwards). -/
def endifPreserve (s : PState) (ck : String) : Except PyErr PState := do
  let (key, v, s1) := mkValue s (.condition ck none none)
  let t1 ← s1.top.add key v
  let nodeOpt ← getItemInt t1 (-1)
  match nodeOpt with
  | none => .error .attributeError
  | some nd =>
    match findComplement t1 nd.id with
    | none => .ok { s1 with top := t1 }
    | some comp =>
      let h1 := setComplementF t1.heap nd.id (some (Ref.mk true comp))
      let h2 := setComplementF h1 comp (some (Ref.mk true nd.id))
      .ok { s1 with top := { heap := h2, table := t1.table } }

/-- Section-heading handler (`line.startswith("[")`). -/
def sectionHandler (vb : Bool) (s : PState) (line : String) :
    Except PyErr PState :=
  let sec := pyLower (pyStripSet line " []")
  match sectionInfo sec with
  | none =>
    if regNoCat.contains sec then .error .attributeError
    else do
      let s1 ← addNodeTo s (.sectionD "section" sec)
      .ok { s1 with
        activeSectionTag := some "section",
        activeSupersectionTag := some "section" }
  | some (cat, isSub) =>
    let newCat := if cat < s.activeCategory ∧ vb then s.activeCategory
      else cat
    if isSub then
      match s.activeSupersectionTag with
      | none => .error .typeError
      | some sup => do
        let s1 ← addNodeTo { s with activeCategory := newCat }
          (.subsectionD sec sec (some sup))
        .ok { s1 with activeSectionTag := some sec }
    else do
      let s1 ← addNodeTo { s with activeCategory := newCat }
        (.sectionD sec sec)
      .ok { s1 with
        activeSectionTag := some sec,
        activeSupersectionTag := some sec }

/-- Data-line handler inside a known section: `from_line` with the
`TypeError` → `create_raw` fallback; other exceptions propagate. -/
def entryHandler (igc : Bool) (s : PState) (tag line : String) :
    Except PyErr PState :=
  match entryFamily (tag ++ "_entry") with
  | none => addNodeTo s (.generic line)
  | some fam =>
    let (line2, cmt) := if igc = false then splitComment line
      else (line, none)
    let args := pyWords line2
    match famFromLine fam (tag ++ "_entry") args cmt with
    | .error .typeError =>
      let lineR := match cmt with
        | some cm => line2 ++ " ; " ++ cm
        | none => line2
      addNodeTo s (.entry (createRaw (tag ++ "_entry") lineR))
    | .error e => .error e
    | .ok ed => addNodeTo s (.entry ed)

/-- Everything after the conditional-directive handlers: the suppression
check and the comment/include/section/entry dispatch. -/
def restLine (rc igc vb : Bool) (s : PState) (line : String) :
    Except PyErr PState :=
  if rc ∧ suppressedB s.activeConditions s.activeDefinitions then .ok s
  else if pyStarts line ";" then
    addNodeTo s (.comment (pyStrip (pyDrop1 line)) (some ";"))
  else if pyStarts line "#include" then
    addNodeTo s (.includeD (pyLstrip (pyStripSet line "#include")))
  else if pyStarts line "[" then sectionHandler vb s line
  else match s.activeSectionTag with
    | none => addNodeTo s (.comment line none)
    | some tag => entryHandler igc s tag line

/-- The body of one `read` loop iteration once the (joined, comment-split,
stripped) line is in hand. -/
def processLineTail (rc igc vb : Bool) (s0 : PState) (line : String) :
    Except PyErr PState :=
  if line = "" ∨ line = "\n" ∨ line = "\n\r" then .ok s0
  else if pyStarts line "#define" then defineHandler s0 line
  else if pyStarts line "#undef" then undefHandler s0 line
  else if pyStarts line "#ifdef" then ifdefHandler rc s0 line true
  else if pyStarts line "#ifndef" then ifdefHandler rc s0 line false
  else if pyStarts line "#else" then
    match s0.activeConditions.getLast? with
    | none => .error .stopIteration
    | some lc =>
      let s1 := { s0 with
        activeConditions := odUpdate s0.activeConditions lc.1 (!lc.2) }
      if rc = false then elsePreserve s1 lc.1 (!lc.2)
      else restLine rc igc vb s1 line
  else if pyStarts line "#endif" then
    match odPopLast s0.activeConditions with
    | none => .error .keyError
    | some (lc, conds) =>
      let s1 := { s0 with activeConditions := conds }
      if rc = false then endifPreserve s1 lc.1
      else .ok s1
  else restLine rc igc vb s0 line

/-- One loop iteration of `GromacsTopologyParser.read`. -/
def processLine (rc igc vb : Bool) (s : PState) (rawLine : String) :
    Except PyErr PState :=
  if pyEnds (pyStrip rawLine) "\\" then
    .ok { s with previous := s.previous ++ pyBeforeLastBackslash rawLine }
  else
    let joined := s.previous ++ rawLine
    let s0 := { s with previous := "" }
    let noC := if igc then (splitComment joined).1 else joined
    processLineTail rc igc vb s0 (pyStrip noC)

def initPState (defs : List (String × DefineValue)) : PState :=
  { top := emptyTop, counts := [], activeSectionTag := none,
    activeSupersectionTag := none, activeCategory := 0,
    activeConditions := [], activeDefinitions := defs, previous := "" }

/-- `GromacsTopologyParser.read` over a list of lines (no include
preprocessing). -/
def readLines (rc igc vb : Bool) (defs : List (String × DefineValue))
    (lines : List String) : Except PyErr Top :=
  (lines.foldlM (processLine rc igc vb) (initPState defs)).map (·.top)

/-- `read` with the constructor defaults (`ignore_comments=True`,
`verbose=True`). -/
def parseGmx (lines : List String) (defs : List (String × DefineValue))
    (rc : Bool) : Except PyErr Top :=
  readLines rc true true defs lines

/-! ### Parser-state well-formedness -/

@[simp] theorem length_setValueF (h : Heap) (i : Nat) (v) :
    (setValueF h i v).length = h.length := by
  simp [setValueF]

theorem chainOK_heap_congr {h G : Heap} {order : List Nat}
    {V W : List (String × Nat)}
    (hC : ChainOK { heap := h, table := V } order)
    (hlen : G.length = h.length)
    (hnext : ∀ j, nextF G j = nextF h j)
    (hprev : ∀ j, prevF G j = prevF h j) :
    ChainOK { heap := G, table := W } order := by
  obtain ⟨h1, h2, h3, h4⟩ := hC
  refine ⟨by simpa [hlen] using h1, by simpa [hlen] using h2, h3, ?_⟩
  refine h4.imp ?_
  intro a b hab
  unfold Adj at hab ⊢
  rw [show nextF G a = nextF h a from hnext a,
    show prevF G b = prevF h b from hprev b]
  exact hab

theorem setComplementF_WF {t : Top} {i j : Nat} {r r2 : Option Ref}
    (h : WF t) :
    WF { heap := setComplementF (setComplementF t.heap i r) j r2,
         table := t.table } := by
  obtain ⟨order, hC, hT⟩ := h
  refine ⟨order, ?_, hT.1, hT.2.1, ?_⟩
  · refine chainOK_heap_congr
      (show ChainOK { heap := t.heap, table := t.table } order from hC)
      ?_ ?_ ?_
    · simp [setComplementF]
    · intro x
      simp [setComplementF]
    · intro x
      simp [setComplementF]
  · intro e he
    show keyF _ e.2 = some e.1
    simp only [setComplementF, keyF_setValueF]
    exact hT.2.2 e he

theorem addNodeTo_WF {s : PState} {s' : PState} {d : NVData} (h : WF s.top)
    (hop : addNodeTo s d = .ok s') : WF s'.top := by
  unfold addNodeTo at hop
  rw [show mkValue s d = ((mkValue s d).1, (mkValue s d).2.1,
    (mkValue s d).2.2) from rfl] at hop
  simp only [] at hop
  obtain ⟨t1, h1, h2⟩ := exbind_ok.1 hop
  simp only [Except.ok.injEq] at h2
  have hs1top : (mkValue s d).2.2.top = s.top := rfl
  rw [hs1top] at h1
  have htopeq : s'.top = t1 := by rw [← h2]
  rw [htopeq]
  exact add_WF h h1

theorem defineHandler_WF {s s' : PState} {line : String} (h : WF s.top)
    (hop : defineHandler s line = .ok s') : WF s'.top := by
  unfold defineHandler at hop
  split at hop
  · simp at hop
  · obtain ⟨s1, h1, h2⟩ := exbind_ok.1 hop
    simp only [Except.ok.injEq] at h2
    have htopeq : s'.top = s1.top := by rw [← h2]
    rw [htopeq]
    exact addNodeTo_WF h h1
  · obtain ⟨s1, h1, h2⟩ := exbind_ok.1 hop
    simp only [Except.ok.injEq] at h2
    have htopeq : s'.top = s1.top := by rw [← h2]
    rw [htopeq]
    exact addNodeTo_WF h h1

theorem undefHandler_WF {s s' : PState} {line : String} (h : WF s.top)
    (hop : undefHandler s line = .ok s') : WF s'.top := by
  unfold undefHandler at hop
  obtain ⟨s1, h1, h2⟩ := exbind_ok.1 hop
  split at h2
  · simp at h2
  · simp only [Except.ok.injEq] at h2
    have htopeq : s'.top = s1.top := by rw [← h2]
    rw [htopeq]
    exact addNodeTo_WF h h1

theorem ifdefHandler_WF {rc : Bool} {s s' : PState} {line : String}
    {pos : Bool} (h : WF s.top)
    (hop : ifdefHandler rc s line pos = .ok s') : WF s'.top := by
  unfold ifdefHandler at hop
  dsimp only [] at hop
  rcases rc with _ | _ <;> simp only [Bool.false_eq_true, Bool.true_eq_false,
    reduceIte, if_true, if_false] at hop
  · refine addNodeTo_WF ?_ hop
    exact h
  · simp only [Except.ok.injEq] at hop
    rw [← hop]
    exact h

theorem elsePreserve_WF {s s' : PState} {ck : String} {nv : Bool}
    (h : WF s.top) (hop : elsePreserve s ck nv = .ok s') : WF s'.top := by
  unfold elsePreserve at hop
  obtain ⟨s1, h1, h2⟩ := exbind_ok.1 hop
  exact addNodeTo_WF (addNodeTo_WF h h1) h2

theorem endifPreserve_WF {s s' : PState} {ck : String} (h : WF s.top)
    (hop : endifPreserve s ck = .ok s') : WF s'.top := by
  unfold endifPreserve at hop
  rw [show mkValue s (.condition ck none none)
    = ((mkValue s (.condition ck none none)).1,
       (mkValue s (.condition ck none none)).2.1,
       (mkValue s (.condition ck none none)).2.2) from rfl] at hop
  simp only [] at hop
  obtain ⟨t1, h1, h2⟩ := exbind_ok.1 hop
  have hs1top : (mkValue s (.condition ck none none)).2.2.top = s.top := rfl
  rw [hs1top] at h1
  have hWt1 : WF t1 := add_WF h h1
  obtain ⟨gi, h3, h4⟩ := exbind_ok.1 h2
  rcases gi with _ | nd
  · simp at h4
  · simp only [] at h4
    split at h4
    · simp only [Except.ok.injEq] at h4
      rw [← h4]
      exact hWt1
    · simp only [Except.ok.injEq] at h4
      rw [← h4]
      exact setComplementF_WF hWt1

theorem sectionHandler_WF {vb : Bool} {s s' : PState} {line : String}
    (h : WF s.top) (hop : sectionHandler vb s line = .ok s') : WF s'.top := by
  unfold sectionHandler at hop
  dsimp only [] at hop
  rcases hsi : sectionInfo (pyLower (pyStripSet line " []")) with
    _ | ⟨cat, isSub⟩ <;> rw [hsi] at hop <;> dsimp only [] at hop
  · split at hop
    · simp at hop
    · obtain ⟨s1, h1, h2⟩ := exbind_ok.1 hop
      simp only [Except.ok.injEq] at h2
      have htopeq : s'.top = s1.top := by rw [← h2]
      rw [htopeq]
      exact addNodeTo_WF h h1
  · rcases isSub with _ | _ <;> simp only [Bool.false_eq_true,
      Bool.true_eq_false, reduceIte, if_true, if_false] at hop
    · obtain ⟨s1, h1, h2⟩ := exbind_ok.1 hop
      simp only [Except.ok.injEq] at h2
      have htopeq : s'.top = s1.top := by rw [← h2]
      rw [htopeq]
      refine addNodeTo_WF ?_ h1
      exact h
    · split at hop
      · simp at hop
      · obtain ⟨s1, h1, h2⟩ := exbind_ok.1 hop
        simp only [Except.ok.injEq] at h2
        have htopeq : s'.top = s1.top := by rw [← h2]
        rw [htopeq]
        refine addNodeTo_WF ?_ h1
        exact h

theorem entryHandler_WF {igc : Bool} {s s' : PState} {tag line : String}
    (h : WF s.top) (hop : entryHandler igc s tag line = .ok s') :
    WF s'.top := by
  unfold entryHandler at hop
  rcases hef : entryFamily (tag ++ "_entry") with _ | fam <;>
    rw [hef] at hop <;> (try dsimp only [] at hop)
  · exact addNodeTo_WF h hop
  · rcases igc with _ | _ <;>
      simp only [Bool.false_eq_true, Bool.true_eq_false, reduceIte,
        if_true, if_false] at hop <;>
      (try dsimp only [] at hop)
    · rcases hsc : splitComment line with ⟨l2, cm⟩
      rw [hsc] at hop
      (try dsimp only [] at hop)
      split at hop <;>
        first
          | exact addNodeTo_WF h hop
          | simp at hop
    · split at hop <;>
        first
          | exact addNodeTo_WF h hop
          | simp at hop

theorem restLine_WF {rc igc vb : Bool} {s s' : PState} {line : String}
    (h : WF s.top) (hop : restLine rc igc vb s line = .ok s') : WF s'.top := by
  unfold restLine at hop
  split at hop
  · simp only [Except.ok.injEq] at hop
    have htopeq : s'.top = s.top := by rw [← hop]
    rw [htopeq]
    exact h
  · split at hop
    · exact addNodeTo_WF h hop
    · split at hop
      · exact addNodeTo_WF h hop
      · split at hop
        · exact sectionHandler_WF h hop
        · split at hop
          · exact addNodeTo_WF h hop
          · exact entryHandler_WF h hop

theorem processLineTail_WF {rc igc vb : Bool} {s s' : PState}
    {line : String} (h : WF s.top)
    (hop : processLineTail rc igc vb s line = .ok s') : WF s'.top := by
  unfold processLineTail at hop
  split at hop
  · simp only [Except.ok.injEq] at hop
    rw [← hop]
    exact h
  · split at hop
    · exact defineHandler_WF h hop
    · split at hop
      · exact undefHandler_WF h hop
      · split at hop
        · exact ifdefHandler_WF h hop
        · split at hop
          · exact ifdefHandler_WF h hop
          · split at hop
            · (try dsimp only [] at hop)
              split at hop
              · simp at hop
              · split at hop
                · refine elsePreserve_WF ?_ hop
                  exact h
                · refine restLine_WF ?_ hop
                  exact h
            · split at hop
              · (try dsimp only [] at hop)
                split at hop
                · simp at hop
                · split at hop
                  · refine endifPreserve_WF ?_ hop
                    exact h
                  · simp only [Except.ok.injEq] at hop
                    rw [← hop]
                    exact h
              · exact restLine_WF h hop

theorem processLine_WF {rc igc vb : Bool} {s s' : PState} {l : String}
    (h : WF s.top) (hop : processLine rc igc vb s l = .ok s') : WF s'.top := by
  unfold processLine at hop
  split at hop
  · simp only [Except.ok.injEq] at hop
    rw [← hop]
    exact h
  · (try dsimp only [] at hop)
    refine processLineTail_WF ?_ hop
    exact h

theorem readLines_WF {rc igc vb : Bool} {defs : List (String × DefineValue)}
    {lines : List String} {t : Top}
    (hop : readLines rc igc vb defs lines = .ok t) : WF t := by
  unfold readLines at hop
  obtain ⟨sEnd, h1, h2⟩ := exmap_ok.1 hop
  rw [← h2]
  clear h2 hop
  have hstart : WF (initPState defs).top := emptyTop_WF
  revert hstart h1
  generalize initPState defs = s0
  induction lines generalizing s0 with
  | nil =>
    intro h1 hstart
    simp only [List.foldlM_nil] at h1
    have : s0 = sEnd := by simpa using h1
    rw [← this]
    exact hstart
  | cons l ls ih =>
    intro h1 hstart
    rw [List.foldlM_cons] at h1
    obtain ⟨s1, hs1, hs2⟩ := exbind_ok.1 h1
    exact ih s1 hs2 (processLine_WF hstart hs1)

/-- The topology parsed from a single section-less data line `"a"`. -/
def parsedTop : Top :=
  { heap := [{ prev := some (Ref.mk true 1), next := some (realRef 1) },
      { key := some "comment_1",
        value := some ⟨.comment "a" none, 1⟩,
        prev := some (Ref.mk true 0), next := some (Ref.mk true 0) }],
    table := [("comment_1", 1)] }

/-- C2: in every topology reached by a successful operation sequence or by
a successful parse, each linked node is doubly consistent with its
neighbours: `N.prev.next` is `N` again and `N.next.prev` is the proxy of
`N` (the cycle closing through the root sentinel). -/
theorem claim_C2 :
    (∀ ops t, runOps ops = .ok t → ∃ order, ChainOK t order ∧
      ∀ i ∈ order,
        (∃ p, prevF t.heap i = some p ∧
          nextF t.heap p.id = some (fwdRef i)) ∧
        (∃ nx, nextF t.heap i = some nx ∧
          prevF t.heap nx.id = some (Ref.mk true i))) ∧
    (∀ rc igc vb defs lines t, readLines rc igc vb defs lines = .ok t →
      ∃ order, ChainOK t order ∧
      ∀ i ∈ order,
        (∃ p, prevF t.heap i = some p ∧
          nextF t.heap p.id = some (fwdRef i)) ∧
        (∃ nx, nextF t.heap i = some nx ∧
          prevF t.heap nx.id = some (Ref.mk true i))) := by
  constructor
  · intro ops t hrun
    obtain ⟨order, hC, -⟩ := runOps_WF hrun
    exact ⟨order, hC, chain_consistency hC⟩
  · intro rc igc vb defs lines t hread
    obtain ⟨order, hC, -⟩ := readLines_WF hread
    exact ⟨order, hC, chain_consistency hC⟩

theorem claim_C2_witness :
    (∃ order, ChainOK threeTop order ∧
      ∀ i ∈ order,
        (∃ p, prevF threeTop.heap i = some p ∧
          nextF threeTop.heap p.id = some (fwdRef i)) ∧
        (∃ nx, nextF threeTop.heap i = some nx ∧
          prevF threeTop.heap nx.id = some (Ref.mk true i))) ∧
    (∃ order, ChainOK parsedTop order ∧
      ∀ i ∈ order,
        (∃ p, prevF parsedTop.heap i = some p ∧
          nextF parsedTop.heap p.id = some (fwdRef i)) ∧
        (∃ nx, nextF parsedTop.heap i = some nx ∧
          prevF parsedTop.heap nx.id = some (Ref.mk true i))) :=
  ⟨claim_C2.1 [Op.add "a" genVal, Op.add "b" genVal, Op.add "c" genVal]
      threeTop (by rfl),
    claim_C2.2 true true true [] ["a"] parsedTop (by decide)⟩

theorem add_success {t : Top} {order : List Nat} {k : String} {v : NodeValue}
    (hC : ChainOK t order) (hfree : lookupA t.table k = none) :
    ∃ t', t.add k v = .ok t' := by
  obtain ⟨hsplit, hadj⟩ := hC.chain_split
  unfold Top.add addNodeCheck
  rw [show (getH t.heap 0).prev
    = some (Ref.mk true (((0 : Nat) :: order).getLast (by simp)))
    from hadj.2]
  rw [if_neg (by simp [hfree])]
  exact ⟨_, rfl⟩

/-- C10: with `resolve_conditions=True`, a `#define` or `#undef` line found
while the active condition stack does not match the definitions is still
fully processed — the handlers run before the suppression check.  A
single-flag `#define NAME` adds a `Define` node and records the definition;
an ordinary data line in the same state is silently skipped. -/
theorem claim_C10 {rc igc vb : Bool} {s : PState} {line : String}
    (hrc : rc = true)
    (hsup : suppressedB s.activeConditions s.activeDefinitions = true)
    (hne : ¬(line = "" ∨ line = "\n" ∨ line = "\n\r"))
    (hW : WF s.top) :
    (pyStarts line "#define" = true →
      processLineTail rc igc vb s line = defineHandler s line ∧
      (∀ w, pySplitMax1 (pyLstrip (pyLstripSet line "#define")) = [w] →
        lookupA s.top.table
          ("define_" ++ toString ((lookupA s.counts "define").getD 0 + 1))
          = none →
        ∃ s', defineHandler s line = .ok s' ∧
          s'.activeDefinitions
            = odUpdate s.activeDefinitions w (.flag true) ∧
          s'.top.table = s.top.table ++
            [("define_" ++ toString ((lookupA s.counts "define").getD 0 + 1),
              s.top.heap.length)] ∧
          keyF s'.top.heap s.top.heap.length
            = some ("define_"
              ++ toString ((lookupA s.counts "define").getD 0 + 1)) ∧
          valueF s'.top.heap s.top.heap.length
            = some ⟨.defineD w (.flag true),
                (lookupA s.counts "define").getD 0 + 1⟩)) ∧
    (pyStarts line "#define" = false → pyStarts line "#undef" = true →
      processLineTail rc igc vb s line = undefHandler s line) ∧
    (pyStarts line "#define" = false → pyStarts line "#undef" = false →
      pyStarts line "#ifdef" = false → pyStarts line "#ifndef" = false →
      pyStarts line "#else" = false → pyStarts line "#endif" = false →
      processLineTail rc igc vb s line = .ok s) := by
  obtain ⟨order, hC, hT⟩ := hW
  refine ⟨?_, ?_, ?_⟩
  · intro hdef
    constructor
    · unfold processLineTail
      rw [if_neg hne, if_pos hdef]
    · intro w hw hfree
      unfold defineHandler
      rw [hw]
      have hkey : (mkValue s (.defineD w (.flag true))).1
          = "define_" ++ toString ((lookupA s.counts "define").getD 0 + 1) := by
        rfl
      obtain ⟨t1, hadd⟩ := add_success (k := (mkValue s (.defineD w (.flag true))).1)
        (v := (mkValue s (.defineD w (.flag true))).2.1) hC (by rw [hkey]; exact hfree)
      obtain ⟨hfree2, hlen2, htbl, hC2, hkeyn, hvaln, -⟩ :=
        add_shape hC hadd
      have haddNode : addNodeTo s (.defineD w (.flag true))
          = .ok { (mkValue s (.defineD w (.flag true))).2.2 with top := t1 } := by
        unfold addNodeTo
        rw [show mkValue s (.defineD w (.flag true))
          = ((mkValue s (.defineD w (.flag true))).1,
             (mkValue s (.defineD w (.flag true))).2.1,
             (mkValue s (.defineD w (.flag true))).2.2) from rfl]
        simp only []
        rw [show (mkValue s (.defineD w (.flag true))).2.2.top = s.top from rfl,
          hadd]
        rfl
      refine ⟨{ (mkValue s (.defineD w (.flag true))).2.2 with
          top := t1,
          activeDefinitions := odUpdate s.activeDefinitions w (.flag true) },
        ?_, rfl, ?_, ?_, ?_⟩
      · show (addNodeTo s (.defineD w (.flag true))) >>= _ = _
        rw [haddNode]
        rfl
      · show t1.table = _
        rw [htbl, odUpdate_absent (by rw [hkey] at hfree2 ⊢; exact hfree2), hkey]
      · show keyF t1.heap s.top.heap.length = _
        rw [hkeyn, hkey]
      · show valueF t1.heap s.top.heap.length = _
        rw [hvaln]
        rfl
  · intro hdef hundef
    unfold processLineTail
    rw [if_neg hne, if_pos hundef]
    rw [show pyStarts line "#define" = false from hdef]
    rfl
  · intro h1 h2 h3 h4 h5 h6
    unfold processLineTail
    rw [if_neg hne, h1, h2, h3, h4, h5, h6]
    show restLine rc igc vb s line = .ok s
    unfold restLine
    rw [if_pos (by exact ⟨by rw [hrc], hsup⟩)]

def suppState : PState :=
  { top := emptyTop, counts := [], activeSectionTag := none,
    activeSupersectionTag := none, activeCategory := 0,
    activeConditions := [("X", true)], activeDefinitions := [],
    previous := "" }

theorem claim_C10_witness :
    ((true : Bool) = true) ∧
    suppressedB suppState.activeConditions suppState.activeDefinitions
      = true ∧
    (¬("#define POSRES" = "" ∨ ("#define POSRES" : String) = "\n" ∨
      ("#define POSRES" : String) = "\n\r")) ∧
    ((pyStarts "#define POSRES" "#define" = true →
      processLineTail true true true suppState "#define POSRES"
        = defineHandler suppState "#define POSRES" ∧
      (∀ w, pySplitMax1 (pyLstrip (pyLstripSet "#define POSRES" "#define"))
          = [w] →
        lookupA suppState.top.table
          ("define_"
            ++ toString ((lookupA suppState.counts "define").getD 0 + 1))
          = none →
        ∃ s', defineHandler suppState "#define POSRES" = .ok s' ∧
          s'.activeDefinitions
            = odUpdate suppState.activeDefinitions w (.flag true) ∧
          s'.top.table = suppState.top.table ++
            [("define_"
                ++ toString ((lookupA suppState.counts "define").getD 0 + 1),
              suppState.top.heap.length)] ∧
          keyF s'.top.heap suppState.top.heap.length
            = some ("define_"
              ++ toString ((lookupA suppState.counts "define").getD 0 + 1)) ∧
          valueF s'.top.heap suppState.top.heap.length
            = some ⟨.defineD w (.flag true),
                (lookupA suppState.counts "define").getD 0 + 1⟩)) ∧
    (pyStarts "#define POSRES" "#define" = false →
      pyStarts "#define POSRES" "#undef" = true →
      processLineTail true true true suppState "#define POSRES"
        = undefHandler suppState "#define POSRES") ∧
    (pyStarts "#define POSRES" "#define" = false →
      pyStarts "#define POSRES" "#undef" = false →
      pyStarts "#define POSRES" "#ifdef" = false →
      pyStarts "#define POSRES" "#ifndef" = false →
      pyStarts "#define POSRES" "#else" = false →
      pyStarts "#define POSRES" "#endif" = false →
      processLineTail true true true suppState "#define POSRES"
        = .ok suppState)) :=
  ⟨rfl, by decide, by decide,
    claim_C10 rfl (by decide) (by decide) emptyTop_WF⟩

/-- C6 (amended/corrected): the raw fallback itself is lossless —
`create_raw` stores the line and `__str__` re-emits it verbatim — but a
structured-parse failure does not reach it: `from_line` raises
`ValueError` (only `TypeError` is caught), so one bad data line inside a
known section aborts the whole read. -/
theorem claim_C6 :
    (∀ tag line, strEntry (createRaw tag line) = some line) ∧
    pTermFromLine "bonds_entry" ["i", "j"] ["1"] none = .error .valueError ∧
    readLines true true true []
      ["[ moleculetype ]", "mol 3", "[ bonds ]", "1"] = .error .valueError :=
  ⟨fun tag line => rfl, by decide, by decide⟩

/-- C6, counterexample to "such a line never aborts the read": a
non-numeric token in an `exclusions` entry raises an uncaught `ValueError`
and the parse fails. -/
theorem claim_C6_counterexample :
    readLines true true true []
      ["[ moleculetype ]", "mol 3", "[ exclusions ]", "1 x"]
      = .error .valueError := by decide

/-- C7 (amended/corrected): the parser degrades gracefully for unknown
sections, section-less data lines and include directives, but it does
abort on a single malformed conditional directive: `#undef` of an unknown
name raises `KeyError`, `#else` without an opener raises `StopIteration`,
and `#endif` without an opener raises `KeyError`. -/
theorem claim_C7 :
    (∃ t, readLines true true true []
        ["[ unknownsec ]", "junk here", "#include somefile"] = .ok t ∧
      topLen t = .ok 3) ∧
    readLines true true true [] ["#undef POSRES"] = .error .keyError ∧
    readLines true true true [] ["#else"] = .error .stopIteration ∧
    readLines true true true [] ["#endif"] = .error .keyError := by
  refine ⟨⟨_, rfl, by decide⟩, by decide, by decide, by decide⟩

/-- C7, counterexample to "never aborts on a single malformed line": one
`#undef` of a never-defined name ends the read with `KeyError`. -/
theorem claim_C7_counterexample :
    readLines true true true [] ["#undef FLEXIBLE"] = .error .keyError := by
  decide

/-! ### Plain data lines (no directive, no continuation) -/

def NVData.isCondD : NVData → Bool
  | .condition _ _ _ => true
  | _ => false

/-- A line that reaches the comment/include/section/entry dispatch: no
trailing backslash and no conditional/definition directive after comment
stripping. -/
def plainB (l : String) : Bool :=
  !(pyEnds (pyStrip l) "\\") &&
  !(pyStarts (pyStrip (splitComment l).1) "#define") &&
  !(pyStarts (pyStrip (splitComment l).1) "#undef") &&
  !(pyStarts (pyStrip (splitComment l).1) "#ifdef") &&
  !(pyStarts (pyStrip (splitComment l).1) "#ifndef") &&
  !(pyStarts (pyStrip (splitComment l).1) "#else") &&
  !(pyStarts (pyStrip (splitComment l).1) "#endif")

theorem pstate_prev_eta {s : PState} (h : s.previous = "") :
    ({ s with previous := "" } : PState) = s := by
  cases s
  simp only [] at h ⊢
  rw [h]

theorem pstate_ac_eta {s : PState} {cl : List (String × Bool)}
    (h : s.activeConditions = cl) :
    ({ s with activeConditions := cl } : PState) = s := by
  cases s
  simp only [] at h ⊢
  rw [h]

/-- A plain line either strips to blank (no-op) or goes straight to the
post-directive dispatch. -/
theorem plain_step {rc vb : Bool} {s : PState} {l : String}
    (hpl : plainB l = true) (hprev : s.previous = "") :
    processLine rc true vb s l
      = if pyStrip (splitComment l).1 = "" ∨
          pyStrip (splitComment l).1 = "\n" ∨
          pyStrip (splitComment l).1 = "\n\r" then .ok s
        else restLine rc true vb s (pyStrip (splitComment l).1) := by
  unfold plainB at hpl
  simp only [Bool.and_eq_true, Bool.not_eq_true'] at hpl
  obtain ⟨⟨⟨⟨⟨⟨h0, h1⟩, h2⟩, h3⟩, h4⟩, h5⟩, h6⟩ := hpl
  unfold processLine
  rw [if_neg (by rw [h0]; simp)]
  rw [show s.previous = "" from hprev]
  show processLineTail rc true vb { s with previous := "" }
    (pyStrip (splitComment l).1) = _
  rw [pstate_prev_eta hprev]
  unfold processLineTail
  by_cases hbl : pyStrip (splitComment l).1 = "" ∨
      pyStrip (splitComment l).1 = "\n" ∨ pyStrip (splitComment l).1 = "\n\r"
  · rw [if_pos hbl, if_pos hbl]
  · rw [if_neg hbl, if_neg hbl]
    rw [if_neg (by rw [h1]; simp), if_neg (by rw [h2]; simp),
      if_neg (by rw [h3]; simp), if_neg (by rw [h4]; simp),
      if_neg (by rw [h5]; simp), if_neg (by rw [h6]; simp)]

theorem addNodeTo_shape {s s' : PState} {d : NVData}
    (hok : addNodeTo s d = .ok s') :
    s'.activeConditions = s.activeConditions ∧
    s'.activeDefinitions = s.activeDefinitions ∧
    s'.previous = s.previous ∧
    ∃ k v, v.data = d ∧ s.top.add k v = .ok s'.top := by
  unfold addNodeTo at hok
  rw [show mkValue s d = ((mkValue s d).1, (mkValue s d).2.1,
    (mkValue s d).2.2) from rfl] at hok
  simp only [] at hok
  obtain ⟨t1, h1, h2⟩ := exbind_ok.1 hok
  simp only [Except.ok.injEq] at h2
  rw [show (mkValue s d).2.2.top = s.top from rfl] at h1
  refine ⟨by rw [← h2]; rfl, by rw [← h2]; rfl, by rw [← h2]; rfl,
    (mkValue s d).1, (mkValue s d).2.1, rfl, ?_⟩
  rw [show s'.top = t1 from by rw [← h2]]
  exact h1

theorem sectionHandler_shape {vb : Bool} {s s' : PState} {line : String}
    (hok : sectionHandler vb s line = .ok s') :
    s'.activeConditions = s.activeConditions ∧
    s'.activeDefinitions = s.activeDefinitions ∧
    s'.previous = s.previous ∧
    ∃ k v, v.data.isCondD = false ∧ s.top.add k v = .ok s'.top := by
  unfold sectionHandler at hok
  dsimp only [] at hok
  rcases hsi : sectionInfo (pyLower (pyStripSet line " []")) with
    _ | ⟨cat, isSub⟩ <;> rw [hsi] at hok <;> dsimp only [] at hok
  · split at hok
    · simp at hok
    · obtain ⟨s1, h1, h2⟩ := exbind_ok.1 hok
      simp only [Except.ok.injEq] at h2
      obtain ⟨ha, hd, hp, k, v, hv, hadd⟩ := addNodeTo_shape h1
      exact ⟨by rw [← h2]; exact ha, by rw [← h2]; exact hd,
        by rw [← h2]; exact hp, k, v, by rw [hv]; rfl,
        by rw [show s'.top = s1.top from by rw [← h2]]; exact hadd⟩
  · rcases isSub with _ | _ <;> simp only [Bool.false_eq_true,
      Bool.true_eq_false, reduceIte, if_true, if_false] at hok
    · obtain ⟨s1, h1, h2⟩ := exbind_ok.1 hok
      simp only [Except.ok.injEq] at h2
      obtain ⟨ha, hd, hp, k, v, hv, hadd⟩ := addNodeTo_shape h1
      exact ⟨by rw [← h2]; exact ha, by rw [← h2]; exact hd,
        by rw [← h2]; exact hp, k, v, by rw [hv]; rfl,
        by rw [show s'.top = s1.top from by rw [← h2]]; exact hadd⟩
    · split at hok
      · simp at hok
      · obtain ⟨s1, h1, h2⟩ := exbind_ok.1 hok
        simp only [Except.ok.injEq] at h2
        obtain ⟨ha, hd, hp, k, v, hv, hadd⟩ := addNodeTo_shape h1
        exact ⟨by rw [← h2]; exact ha, by rw [← h2]; exact hd,
          by rw [← h2]; exact hp, k, v, by rw [hv]; rfl,
          by rw [show s'.top = s1.top from by rw [← h2]]; exact hadd⟩

theorem entryHandler_shape {igc : Bool} {s s' : PState} {tag line : String}
    (hok : entryHandler igc s tag line = .ok s') :
    s'.activeConditions = s.activeConditions ∧
    s'.activeDefinitions = s.activeDefinitions ∧
    s'.previous = s.previous ∧
    ∃ k v, v.data.isCondD = false ∧ s.top.add k v = .ok s'.top := by
  unfold entryHandler at hok
  rcases hef : entryFamily (tag ++ "_entry") with _ | fam <;>
    rw [hef] at hok <;> (try dsimp only [] at hok)
  · obtain ⟨ha, hd, hp, k, v, hv, hadd⟩ := addNodeTo_shape hok
    exact ⟨ha, hd, hp, k, v, by rw [hv]; rfl, hadd⟩
  · rcases igc with _ | _ <;>
      simp only [Bool.false_eq_true, Bool.true_eq_false, reduceIte,
        if_true, if_false] at hok <;>
      (try dsimp only [] at hok)
    · rcases hsc : splitComment line with ⟨l2, cm⟩
      rw [hsc] at hok
      (try dsimp only [] at hok)
      split at hok <;>
        first
          | (obtain ⟨ha, hd, hp, k, v, hv, hadd⟩ := addNodeTo_shape hok
             exact ⟨ha, hd, hp, k, v, by rw [hv]; rfl, hadd⟩)
          | simp at hok
    · split at hok <;>
        first
          | (obtain ⟨ha, hd, hp, k, v, hv, hadd⟩ := addNodeTo_shape hok
             exact ⟨ha, hd, hp, k, v, by rw [hv]; rfl, hadd⟩)
          | simp at hok

/-- What one *plain* dispatched line does: nothing (suppressed) or one
non-`Condition` `add`; the condition stack, definitions and carry-over are
untouched. -/
theorem restLine_plain_shape {rc vb : Bool} {s s' : PState} {line : String}
    (hok : restLine rc true vb s line = .ok s') :
    s'.activeConditions = s.activeConditions ∧
    s'.activeDefinitions = s.activeDefinitions ∧
    s'.previous = s.previous ∧
    (s'.top = s.top ∨
      ∃ k v, v.data.isCondD = false ∧ s.top.add k v = .ok s'.top) := by
  unfold restLine at hok
  split at hok
  · simp only [Except.ok.injEq] at hok
    rw [← hok]
    exact ⟨rfl, rfl, rfl, Or.inl rfl⟩
  · split at hok
    · obtain ⟨ha, hd, hp, k, v, hv, hadd⟩ := addNodeTo_shape hok
      exact ⟨ha, hd, hp, Or.inr ⟨k, v, by rw [hv]; rfl, hadd⟩⟩
    · split at hok
      · obtain ⟨ha, hd, hp, k, v, hv, hadd⟩ := addNodeTo_shape hok
        exact ⟨ha, hd, hp, Or.inr ⟨k, v, by rw [hv]; rfl, hadd⟩⟩
      · split at hok
        · obtain ⟨ha, hd, hp, k, v, hv, hadd⟩ := sectionHandler_shape hok
          exact ⟨ha, hd, hp, Or.inr ⟨k, v, hv, hadd⟩⟩
        · split at hok
          · obtain ⟨ha, hd, hp, k, v, hv, hadd⟩ := addNodeTo_shape hok
            exact ⟨ha, hd, hp, Or.inr ⟨k, v, by rw [hv]; rfl, hadd⟩⟩
          · obtain ⟨ha, hd, hp, k, v, hv, hadd⟩ := entryHandler_shape hok
            exact ⟨ha, hd, hp, Or.inr ⟨k, v, hv, hadd⟩⟩

theorem processLine_plain_shape {rc vb : Bool} {s s' : PState} {l : String}
    (hpl : plainB l = true) (hprev : s.previous = "")
    (hok : processLine rc true vb s l = .ok s') :
    s'.activeConditions = s.activeConditions ∧
    s'.activeDefinitions = s.activeDefinitions ∧
    s'.previous = "" ∧
    (s'.top = s.top ∨
      ∃ k v, v.data.isCondD = false ∧ s.top.add k v = .ok s'.top) := by
  rw [plain_step hpl hprev] at hok
  split at hok
  · simp only [Except.ok.injEq] at hok
    rw [← hok]
    exact ⟨rfl, rfl, hprev, Or.inl rfl⟩
  · obtain ⟨ha, hd, hp, htop⟩ := restLine_plain_shape hok
    exact ⟨ha, hd, by rw [hp]; exact hprev, htop⟩

/-! ### Resolve-mode branch equivalence machinery -/

theorem addNodeTo_conds {s : PState} {cl : List (String × Bool)}
    {d : NVData} :
    addNodeTo { s with activeConditions := cl } d
      = (addNodeTo s d).map (fun r => { r with activeConditions := cl }) := by
  unfold addNodeTo mkValue bumpCount
  dsimp only []
  cases hadd : s.top.add
      (d.tag ++ "_" ++ toString ((lookupA s.counts d.tag).getD 0 + 1))
      ⟨d, (lookupA s.counts d.tag).getD 0 + 1⟩ <;> rfl

theorem sectionHandler_conds {vb : Bool} {s : PState} {cl} {line : String} :
    sectionHandler vb { s with activeConditions := cl } line
      = (sectionHandler vb s line).map
          (fun r => { r with activeConditions := cl }) := by
  unfold sectionHandler
  dsimp only []
  rcases hsi : sectionInfo (pyLower (pyStripSet line " []")) with
    _ | ⟨cat, isSub⟩ <;> dsimp only []
  · split
    · rfl
    · have h := @addNodeTo_conds s cl
        (.sectionD "section" (pyLower (pyStripSet line " []")))
      rcases hadd : addNodeTo s
          (.sectionD "section" (pyLower (pyStripSet line " []"))) with
        e | s1 <;> rw [hadd] at h <;> rw [h] <;> rfl
  · rcases isSub with _ | _ <;>
      simp only [Bool.false_eq_true, Bool.true_eq_false, reduceIte,
        if_true, if_false]
    · have h := @addNodeTo_conds
        { s with activeCategory :=
            if cat < s.activeCategory ∧ vb = true then s.activeCategory
            else cat } cl
        (.sectionD (pyLower (pyStripSet line " []"))
          (pyLower (pyStripSet line " []")))
      dsimp only [] at h
      rcases hadd : addNodeTo { s with activeCategory :=
            if cat < s.activeCategory ∧ vb = true then s.activeCategory
            else cat }
          (.sectionD (pyLower (pyStripSet line " []"))
            (pyLower (pyStripSet line " []"))) with e | s1 <;>
        rw [hadd] at h <;> rw [h] <;> rfl
    · rcases hsup : s.activeSupersectionTag with _ | sup <;> dsimp only []
      · rfl
      · have h := @addNodeTo_conds
          { s with activeSupersectionTag := some sup, activeCategory :=
              if cat < s.activeCategory ∧ vb = true then s.activeCategory
              else cat } cl
          (.subsectionD (pyLower (pyStripSet line " []"))
            (pyLower (pyStripSet line " []")) (some sup))
        dsimp only [] at h
        rcases hadd : addNodeTo { s with
              activeSupersectionTag := some sup,
              activeCategory :=
                if cat < s.activeCategory ∧ vb = true then s.activeCategory
                else cat }
            (.subsectionD (pyLower (pyStripSet line " []"))
              (pyLower (pyStripSet line " []")) (some sup)) with e | s1 <;>
          rw [hadd] at h <;> rw [h] <;> rfl

theorem entryHandler_conds {igc : Bool} {s : PState} {cl}
    {tag line : String} :
    entryHandler igc { s with activeConditions := cl } tag line
      = (entryHandler igc s tag line).map
          (fun r => { r with activeConditions := cl }) := by
  unfold entryHandler
  rcases hef : entryFamily (tag ++ "_entry") with _ | fam <;>
    (try dsimp only [])
  · exact addNodeTo_conds
  · split
    · exact addNodeTo_conds
    · rfl
    · exact addNodeTo_conds

/-- When neither the changed nor the original condition stack triggers
suppression, the dispatch acts identically and just carries the stack
along. -/
theorem restLine_conds {igc vb : Bool} {s : PState} {line : String} {cl}
    (h1 : suppressedB cl s.activeDefinitions = false)
    (h2 : suppressedB s.activeConditions s.activeDefinitions = false) :
    restLine true igc vb { s with activeConditions := cl } line
      = (restLine true igc vb s line).map
          (fun r => { r with activeConditions := cl }) := by
  unfold restLine
  have hn1 : ¬ (true = true ∧ suppressedB cl s.activeDefinitions = true) := by
    simp [h1]
  have hn2 : ¬ (true = true ∧
      suppressedB s.activeConditions s.activeDefinitions = true) := by
    simp [h2]
  rw [if_neg hn1, if_neg hn2]
  split
  · exact addNodeTo_conds
  · split
    · exact addNodeTo_conds
    · split
      · exact sectionHandler_conds
      · rcases hst : s.activeSectionTag with _ | tag <;> dsimp only []
        · have h := @addNodeTo_conds s cl (.comment line none)
          rw [hst] at h
          exact h
        · have h := @entryHandler_conds igc s cl tag line
          rw [hst] at h
          exact h

theorem processLine_plain_conds {vb : Bool} {s : PState} {l : String} {cl}
    (hpl : plainB l = true) (hprev : s.previous = "")
    (h1 : suppressedB cl s.activeDefinitions = false)
    (h2 : suppressedB s.activeConditions s.activeDefinitions = false) :
    processLine true true vb { s with activeConditions := cl } l
      = (processLine true true vb s l).map
          (fun r => { r with activeConditions := cl }) := by
  rw [plain_step hpl hprev,
    plain_step hpl (show ({ s with activeConditions := cl } :
      PState).previous = "" from hprev)]
  split
  · rfl
  · exact restLine_conds h1 h2

theorem foldlM_plain_conds {vb : Bool} {A : List String} :
    ∀ {s : PState} {cl}, (∀ l ∈ A, plainB l = true) → s.previous = "" →
    suppressedB cl s.activeDefinitions = false →
    suppressedB s.activeConditions s.activeDefinitions = false →
    A.foldlM (processLine true true vb) { s with activeConditions := cl }
      = (A.foldlM (processLine true true vb) s).map
          (fun r => { r with activeConditions := cl }) := by
  induction A with
  | nil =>
    intro s cl _ _ _ _
    simp only [List.foldlM_nil]
    rfl
  | cons l A ih =>
    intro s cl hA hprev h1 h2
    rw [List.foldlM_cons, List.foldlM_cons,
      processLine_plain_conds (hA l (by simp)) hprev h1 h2]
    rcases hstep : processLine true true vb s l with e | s1
    · rfl
    · show A.foldlM (processLine true true vb)
          { s1 with activeConditions := cl }
        = (A.foldlM (processLine true true vb) s1).map _
      obtain ⟨ha, hd, hp, _⟩ :=
        processLine_plain_shape (hA l (by simp)) hprev hstep
      exact ih (fun x hx => hA x (by simp [hx])) hp
        (by rw [hd]; exact h1) (by rw [ha, hd]; exact h2)

/-- In resolve mode a suppressed stack makes every plain line a no-op. -/
theorem foldlM_plain_suppressed {vb : Bool} {B : List String} :
    ∀ {s : PState}, (∀ l ∈ B, plainB l = true) → s.previous = "" →
    suppressedB s.activeConditions s.activeDefinitions = true →
    B.foldlM (processLine true true vb) s = .ok s := by
  induction B with
  | nil =>
    intro s _ _ _
    simp only [List.foldlM_nil]
    rfl
  | cons l B ih =>
    intro s hB hprev hsup
    rw [List.foldlM_cons, plain_step (hB l (by simp)) hprev]
    split
    · show B.foldlM (processLine true true vb) s = .ok s
      exact ih (fun x hx => hB x (by simp [hx])) hprev hsup
    · unfold restLine
      rw [if_pos ⟨rfl, hsup⟩]
      show B.foldlM (processLine true true vb) s = .ok s
      exact ih (fun x hx => hB x (by simp [hx])) hprev hsup

theorem foldlM_plain_state {rc vb : Bool} {A : List String} :
    ∀ {s s' : PState}, (∀ l ∈ A, plainB l = true) → s.previous = "" →
    A.foldlM (processLine rc true vb) s = .ok s' →
    s'.activeConditions = s.activeConditions ∧
    s'.activeDefinitions = s.activeDefinitions ∧ s'.previous = "" := by
  induction A with
  | nil =>
    intro s s' _ hprev hok
    simp only [List.foldlM_nil] at hok
    cases hok
    exact ⟨rfl, rfl, hprev⟩
  | cons l A ih =>
    intro s s' hA hprev hok
    rw [List.foldlM_cons] at hok
    obtain ⟨s1, h1, h2⟩ := exbind_ok.1 hok
    obtain ⟨ha, hd, hp, _⟩ := processLine_plain_shape (hA l (by simp)) hprev h1
    obtain ⟨ha2, hd2, hp2⟩ := ih (fun x hx => hA x (by simp [hx])) hp h2
    exact ⟨by rw [ha2, ha], by rw [hd2, hd], hp2⟩

/-- Processing `#else` in resolve mode with `POSRES` truthy-defined flips
the stack entry and the flipped branch is immediately suppressed. -/
theorem elseStepR {vb : Bool} {s : PState}
    (hac : s.activeConditions = [("POSRES", true)])
    (hdefs : s.activeDefinitions = [("POSRES", DefineValue.flag true)])
    (hprev : s.previous = "") :
    processLine true true vb s "#else"
      = .ok { s with activeConditions := [("POSRES", false)] } := by
  unfold processLine
  have hn0 : ¬ (pyEnds (pyStrip "#else") "\\" = true) := by decide
  rw [if_neg hn0, hprev]
  show processLineTail true true vb { s with previous := "" } "#else" = _
  rw [pstate_prev_eta hprev]
  unfold processLineTail
  have hb1 : ¬ (("#else" : String) = "" ∨ ("#else" : String) = "\n" ∨
      ("#else" : String) = "\n\r") := by decide
  have hb2 : ¬ (pyStarts "#else" "#define" = true) := by decide
  have hb3 : ¬ (pyStarts "#else" "#undef" = true) := by decide
  have hb4 : ¬ (pyStarts "#else" "#ifdef" = true) := by decide
  have hb5 : ¬ (pyStarts "#else" "#ifndef" = true) := by decide
  have hb6 : pyStarts "#else" "#else" = true := by decide
  rw [if_neg hb1, if_neg hb2, if_neg hb3, if_neg hb4, if_neg hb5, if_pos hb6,
    hac]
  show restLine true true vb
    { s with activeConditions := [("POSRES", false)] } "#else" = _
  unfold restLine
  have hsup : suppressedB
      ({ s with activeConditions := [("POSRES", false)] } :
        PState).activeConditions
      ({ s with activeConditions := [("POSRES", false)] } :
        PState).activeDefinitions = true := by
    show suppressedB [("POSRES", false)] s.activeDefinitions = true
    rw [hdefs]
    decide
  rw [if_pos ⟨rfl, hsup⟩, hprev]

/-- Processing `#endif` in resolve mode just pops the condition stack. -/
theorem endifStepR {vb : Bool} {s : PState}
    (hac : s.activeConditions = [("POSRES", false)])
    (hprev : s.previous = "") :
    processLine true true vb s "#endif"
      = .ok { s with activeConditions := [] } := by
  unfold processLine
  have hn0 : ¬ (pyEnds (pyStrip "#endif") "\\" = true) := by decide
  rw [if_neg hn0, hprev]
  show processLineTail true true vb { s with previous := "" } "#endif" = _
  rw [pstate_prev_eta hprev]
  unfold processLineTail
  have hb1 : ¬ (("#endif" : String) = "" ∨ ("#endif" : String) = "\n" ∨
      ("#endif" : String) = "\n\r") := by decide
  have hb2 : ¬ (pyStarts "#endif" "#define" = true) := by decide
  have hb3 : ¬ (pyStarts "#endif" "#undef" = true) := by decide
  have hb4 : ¬ (pyStarts "#endif" "#ifdef" = true) := by decide
  have hb5 : ¬ (pyStarts "#endif" "#ifndef" = true) := by decide
  have hb6 : ¬ (pyStarts "#endif" "#else" = true) := by decide
  have hb7 : pyStarts "#endif" "#endif" = true := by decide
  rw [if_neg hb1, if_neg hb2, if_neg hb3, if_neg hb4, if_neg hb5, if_neg hb6,
    if_pos hb7, hac]
  have hpop : odPopLast ([("POSRES", false)] : List (String × Bool))
      = some (("POSRES", false), []) := by decide
  rw [hpop, hprev]
  rfl

/-! ### No `Condition` values ever enter a resolve-mode parse of plain
lines -/

def NoCondVals (t : Top) : Prop :=
  ∀ i v, valueF t.heap i = some v → v.data.isCondD = false

theorem noCondVals_emptyTop : NoCondVals emptyTop := by
  intro i v h
  have hn : valueF emptyTop.heap i = none := by
    rcases i with _ | j <;> rfl
  rw [hn] at h
  cases h

theorem add_nocond {t t' : Top} {order : List Nat} {k : String}
    {v : NodeValue} (hC : ChainOK t order) (hv : v.data.isCondD = false)
    (hnc : NoCondVals t) (hok : t.add k v = .ok t') : NoCondVals t' := by
  obtain ⟨_, hlen, _, _, _, hval, hold⟩ := add_shape hC hok
  intro i w hw
  by_cases hi : i = t.heap.length
  · rw [hi, hval] at hw
    cases hw
    exact hv
  · by_cases hlt : i < t.heap.length
    · rw [(hold i hlt).2] at hw
      exact hnc i w hw
    · have hnone : valueF t'.heap i = none := by
        rw [valueF, getH_of_length_le _ _ (by omega)]
      rw [hnone] at hw
      cases hw

theorem foldlM_plain_nocond {rc vb : Bool} {A : List String} :
    ∀ {s s' : PState}, (∀ l ∈ A, plainB l = true) → s.previous = "" →
    WF s.top → NoCondVals s.top →
    A.foldlM (processLine rc true vb) s = .ok s' → NoCondVals s'.top := by
  induction A with
  | nil =>
    intro s s' _ _ _ hnc hok
    simp only [List.foldlM_nil] at hok
    cases hok
    exact hnc
  | cons l A ih =>
    intro s s' hA hprev hWF hnc hok
    rw [List.foldlM_cons] at hok
    obtain ⟨s1, h1, h2⟩ := exbind_ok.1 hok
    obtain ⟨_, _, hp, htop⟩ :=
      processLine_plain_shape (hA l (by simp)) hprev h1
    have hWF1 := processLine_WF hWF h1
    have hnc1 : NoCondVals s1.top := by
      rcases htop with heq | ⟨k, v, hv, hadd⟩
      · rw [heq]
        exact hnc
      · obtain ⟨order, hC, _⟩ := hWF
        exact add_nocond hC hv hnc hadd
    exact ih (fun x hx => hA x (by simp [hx])) hp hWF1 hnc1 h2

/-- The `conditions_resolved` property: forward-iterate and look for a
`Condition` value. -/
def conditionsResolved (t : Top) : Except PyErr Bool :=
  (fwdRefs t).map (fun l => l.all (fun r =>
    match (getH t.heap r.id).value with
    | some v => !v.data.isCondD
    | none => true))

theorem conditionsResolved_of_nocond {t : Top} {order : List Nat}
    (hC : ChainOK t order) (hnc : NoCondVals t) :
    conditionsResolved t = .ok true := by
  unfold conditionsResolved
  rw [fwdRefs_spec hC]
  show Except.ok ((order.map realRef).all _) = _
  refine congrArg Except.ok ?_
  rw [List.all_eq_true]
  intro r hr
  obtain ⟨i, hi, hri⟩ := List.mem_map.1 hr
  rw [← hri]
  show (match valueF t.heap i with
    | some v => !v.data.isCondD
    | none => true) = true
  rcases hv : valueF t.heap i with _ | v
  · rfl
  · simp [hnc i v hv]

/-- C4: with definitions making `POSRES` truthy and resolve mode on, a
stream `#ifdef POSRES`, A, `#else`, B, `#endif` of plain data lines parses
to exactly the same result as the stream A alone, and any successful result
contains no `Condition` node (`conditions_resolved` holds). -/
theorem claim_C4 {A B : List String}
    (hA : ∀ l ∈ A, plainB l = true) (hB : ∀ l ∈ B, plainB l = true) :
    parseGmx ("#ifdef POSRES" :: (A ++ "#else" :: (B ++ ["#endif"])))
        [("POSRES", DefineValue.flag true)] true
      = parseGmx A [("POSRES", DefineValue.flag true)] true ∧
    ∀ t, parseGmx A [("POSRES", DefineValue.flag true)] true = .ok t →
      conditionsResolved t = .ok true := by
  constructor
  · unfold parseGmx readLines
    rw [List.foldlM_cons]
    have h1 : processLine true true true
        (initPState [("POSRES", DefineValue.flag true)]) "#ifdef POSRES"
        = .ok { initPState [("POSRES", DefineValue.flag true)] with
            activeConditions := [("POSRES", true)] } := by decide
    rw [h1, exbind_pure_ok, List.foldlM_append]
    have hfoldA := @foldlM_plain_conds true A
      (initPState [("POSRES", DefineValue.flag true)]) [("POSRES", true)]
      hA rfl (by decide) (by decide)
    rw [hfoldA]
    rcases hA2 : A.foldlM (processLine true true true)
        (initPState [("POSRES", DefineValue.flag true)]) with e | sA
    · rfl
    · obtain ⟨haA, hdA, hpA⟩ := @foldlM_plain_state true true A
        (initPState [("POSRES", DefineValue.flag true)]) sA hA rfl hA2
      rw [show (initPState
        [("POSRES", DefineValue.flag true)]).activeConditions
          = [] from rfl] at haA
      rw [show (initPState
        [("POSRES", DefineValue.flag true)]).activeDefinitions
          = [("POSRES", DefineValue.flag true)] from rfl] at hdA
      show ((("#else" :: (B ++ ["#endif"])).foldlM
          (processLine true true true)
          { sA with activeConditions := [("POSRES", true)] }).map (·.top))
        = (Except.ok sA).map (·.top)
      rw [List.foldlM_cons]
      have helse := @elseStepR true
        ({ sA with activeConditions := [("POSRES", true)] } : PState) rfl
        (by show sA.activeDefinitions = _; exact hdA)
        (by show sA.previous = ""; exact hpA)
      rw [helse, exbind_pure_ok]
      show (((B ++ ["#endif"]).foldlM (processLine true true true)
          { sA with activeConditions := [("POSRES", false)] }).map (·.top))
        = (Except.ok sA).map (·.top)
      rw [List.foldlM_append]
      have hfoldB := @foldlM_plain_suppressed true B
        ({ sA with activeConditions := [("POSRES", false)] } : PState) hB
        (by show sA.previous = ""; exact hpA)
        (by show suppressedB [("POSRES", false)] sA.activeDefinitions = true
            rw [hdA]
            decide)
      rw [hfoldB, exbind_pure_ok, List.foldlM_cons]
      have hend := @endifStepR true
        ({ sA with activeConditions := [("POSRES", false)] } : PState) rfl
        (by show sA.previous = ""; exact hpA)
      rw [hend, exbind_pure_ok]
      show (Except.ok ({ sA with
          activeConditions := ([] : List (String × Bool)) } : PState)).map
        (·.top) = (Except.ok sA).map (·.top)
      rw [pstate_ac_eta haA]
  · intro t ht
    have hWF : WF t := readLines_WF ht
    obtain ⟨order, hC, _⟩ := hWF
    unfold parseGmx readLines at ht
    obtain ⟨sA, hfold, htop⟩ := exmap_ok.1 ht
    have hnc : NoCondVals t := by
      rw [← htop]
      exact @foldlM_plain_nocond true true A
        (initPState [("POSRES", DefineValue.flag true)]) sA hA rfl
        emptyTop_WF noCondVals_emptyTop hfold
    exact conditionsResolved_of_nocond hC hnc

theorem claim_C4_witness :
    (parseGmx ["#ifdef POSRES", "alpha 1", "#else", "beta 2", "#endif"]
        [("POSRES", DefineValue.flag true)] true
      = parseGmx ["alpha 1"] [("POSRES", DefineValue.flag true)] true) ∧
    ∀ t, parseGmx ["alpha 1"]
        [("POSRES", DefineValue.flag true)] true = .ok t →
      conditionsResolved t = .ok true :=
  claim_C4 (A := ["alpha 1"]) (B := ["beta 2"]) (by decide) (by decide)

/-! ### Preserve-mode condition-node structure -/

/-- The condition data visible at chain position `i`: node id, key,
required value and complement reference. -/
def condOf (t : Top) (i : Nat) :
    Option (Nat × String × Option Bool × Option Ref) :=
  match valueF t.heap i with
  | some v =>
    match v.data with
    | .condition k b r => some (i, k, b, r)
    | _ => none
  | none => none

theorem condOf_cond {t : Top} {i : Nat} {v : NodeValue} {k : String}
    {cb : Option Bool} {cr : Option Ref} (h : valueF t.heap i = some v)
    (hd : v.data = .condition k cb cr) : condOf t i = some (i, k, cb, cr) := by
  unfold condOf
  rw [h]
  show (match v.data with
    | NVData.condition k b r => some (i, k, b, r)
    | _ => none) = some (i, k, cb, cr)
  rw [hd]

theorem condOf_none_of_val {t : Top} {i : Nat} {v : NodeValue}
    (h : valueF t.heap i = some v) (hv : v.data.isCondD = false) :
    condOf t i = none := by
  unfold condOf
  rw [h]
  show (match v.data with
    | NVData.condition k b r => some (i, k, b, r)
    | _ => none) = none
  rcases hd : v.data <;> first
    | rfl
    | (rw [hd] at hv; simp [NVData.isCondD] at hv)

theorem condOf_none_of_none {t : Top} {i : Nat}
    (h : valueF t.heap i = none) : condOf t i = none := by
  unfold condOf
  rw [h]

theorem condOf_elim {t : Top} {i : Nat}
    {x : Nat × String × Option Bool × Option Ref}
    (h : condOf t i = some x) :
    ∃ v, valueF t.heap i = some v ∧
      ∃ k cb cr, v.data = .condition k cb cr ∧ x = (i, k, cb, cr) := by
  unfold condOf at h
  rcases hv : valueF t.heap i with _ | v
  · rw [hv] at h
    simp at h
  · rw [hv] at h
    have h2 : (match v.data with
      | NVData.condition k b r => some (i, k, b, r)
      | _ => none) = some x := h
    rcases hd : v.data with _ | _ | ⟨k, cb2, cr2⟩ | _ | _ | _ | _ | _ <;>
      rw [hd] at h2 <;> cases h2
    exact ⟨v, rfl, k, cb2, cr2, hd, rfl⟩

/-- The per-node test inside the `find_complement` walk. -/
def condHit (h : Heap) (key : String) (i : Nat) : Bool :=
  match (getH h i).value with
  | some v =>
    match v.data with
    | .condition k _ _ => k == key
    | _ => false
  | none => false

theorem condHit_false {t : Top} {key : String} {i : Nat}
    (h : condOf t i = none) : condHit t.heap key i = false := by
  unfold condOf at h
  unfold condHit
  rw [show (getH t.heap i).value = valueF t.heap i from rfl]
  rcases hv : valueF t.heap i with _ | v
  · rfl
  · rw [hv] at h
    have h2 : (match v.data with
      | NVData.condition k b r => some (i, k, b, r)
      | _ => none) = none := h
    show (match v.data with
      | NVData.condition k _ _ => k == key
      | _ => false) = false
    rcases hd : v.data <;> rw [hd] at h2 <;> first
      | rfl
      | cases h2

theorem condHit_true {t : Top} {key : String} {i : Nat} {cb : Option Bool}
    {cr : Option Ref} (h : condOf t i = some (i, key, cb, cr)) :
    condHit t.heap key i = true := by
  obtain ⟨v, hv, k, cb2, cr2, hd, hx⟩ := condOf_elim h
  unfold condHit
  rw [show (getH t.heap i).value = valueF t.heap i from rfl, hv]
  show (match v.data with
    | NVData.condition k _ _ => k == key
    | _ => false) = true
  rw [hd]
  have hk : k = key := by
    have := congrArg (fun y => y.2.1) hx
    simpa using this.symm
  simp [hk]

/-- First hit of the walk over an explicit visit order. -/
def firstCondMatch (h : Heap) (key : String) : List Nat → Option Nat
  | [] => none
  | i :: rest =>
    if condHit h key i then some i else firstCondMatch h key rest

theorem firstCondMatch_append_none {h : Heap} {key : String}
    {l1 l2 : List Nat} (hn : ∀ i ∈ l1, condHit h key i = false) :
    firstCondMatch h key (l1 ++ l2) = firstCondMatch h key l2 := by
  induction l1 with
  | nil => rfl
  | cons a l1 ih =>
    show (if condHit h key a then some a else
      firstCondMatch h key (l1 ++ l2)) = _
    rw [hn a (by simp), if_neg (by simp)]
    exact ih (fun i hi => hn i (by simp [hi]))

theorem firstCondMatch_cons_hit {h : Heap} {key : String} {i : Nat}
    {l : List Nat} (hh : condHit h key i = true) :
    firstCondMatch h key (i :: l) = some i := by
  show (if condHit h key i then some i else firstCondMatch h key l) = _
  rw [hh, if_pos rfl]

theorem filterMap_none {α β : Type} {f : α → Option β} {l : List α}
    (h : ∀ a ∈ l, f a = none) : l.filterMap f = [] := by
  induction l with
  | nil => rfl
  | cons a l ih =>
    rw [List.filterMap_cons, h a (by simp)]
    exact ih (fun x hx => h x (by simp [hx]))

/-- The backward `find_complement` walk from the predecessor of the node
after chain prefix `L` visits exactly `L.reverse` and returns its first
condition-key hit. -/
theorem findCompAux_prev_walk {t : Top} {key : String} :
    ∀ {L R : List Nat} {fuel : Nat} {a : Nat}, ChainOK t (L ++ R) →
    L.length < fuel →
    a = ((0 : Nat) :: L).getLast (by simp) →
    findCompAux t.heap key true fuel (some (Ref.mk true a))
      = firstCondMatch t.heap key L.reverse := by
  intro L
  induction L using List.reverseRecOn with
  | nil =>
    intro R fuel a hC hfuel ha
    rcases fuel with _ | f
    · omega
    · subst ha
      rfl
  | append_singleton L a0 ih =>
    intro R fuel a hC hfuel ha
    have hCa : ChainOK t (L ++ (a0 :: R)) := by
      rw [show L ++ (a0 :: R) = (L ++ [a0]) ++ R by simp]
      exact hC
    have han : a0 ≠ 0 := by
      obtain ⟨-, hb, -, -⟩ := hC
      exact (hb a0 (by simp)).1
    have hlast : (((0 : Nat) :: (L ++ [a0])).getLast (by simp)) = a0 := by
      have h1 : ((0 : Nat) :: (L ++ [a0])).getLast? = some a0 := by
        rw [show ((0 : Nat) :: (L ++ [a0])) = ((0 :: L) ++ [a0]) from by simp]
        exact List.getLast?_concat _
      rw [List.getLast?_eq_getLast _ (by simp)] at h1
      exact Option.some.inj h1
    have haa : a = a0 := ha.trans hlast
    subst haa
    rcases fuel with _ | f
    · omega
    · show (if a = 0 then none
        else if condHit t.heap key a then some a
        else findCompAux t.heap key true f (getH t.heap a).prev)
        = firstCondMatch t.heap key ((L ++ [a]).reverse)
      rw [if_neg han]
      have hgap := chain_gap hCa
      have hhead : (((a :: R) ++ [0] : List Nat)).head (by simp) = a := rfl
      have hprevA : (getH t.heap a).prev
          = some (Ref.mk true (((0 : Nat) :: L).getLast (by simp))) := by
        have h2 := hgap.2
        rw [hhead] at h2
        exact h2
      rw [List.reverse_append, List.reverse_singleton]
      rcases hhit : condHit t.heap key a with _ | _
      · have hnf : ¬ (false = true) := by simp
        rw [if_neg hnf, hprevA, ih hCa (by simp at hfuel ⊢; omega) rfl]
        have hfm : firstCondMatch t.heap key (([a] ++ L.reverse : List Nat))
            = if condHit t.heap key a then some a
              else firstCondMatch t.heap key L.reverse := rfl
        rw [hfm, hhit, if_neg hnf]
      · rw [if_pos rfl]
        have hfm : firstCondMatch t.heap key (([a] ++ L.reverse : List Nat))
            = if condHit t.heap key a then some a
              else firstCondMatch t.heap key L.reverse := rfl
        rw [hfm, hhit, if_pos rfl]

/-- One plain line in any mode: the chain gains at most one non-condition
node at the end; condition data of existing nodes is untouched. -/
theorem step_plain_condOf {rc vb : Bool} {s s' : PState} {l : String}
    {order : List Nat} (hpl : plainB l = true) (hprev : s.previous = "")
    (hC : ChainOK s.top order)
    (hok : processLine rc true vb s l = .ok s') :
    ∃ ext, ChainOK s'.top (order ++ ext) ∧
      s.top.heap.length ≤ s'.top.heap.length ∧
      (∀ i ∈ ext, condOf s'.top i = none) ∧
      (∀ i, i < s.top.heap.length → condOf s'.top i = condOf s.top i) := by
  obtain ⟨_, _, _, htop⟩ := processLine_plain_shape hpl hprev hok
  rcases htop with heq | ⟨k, v, hv, hadd⟩
  · exact ⟨[], by rw [heq]; simpa using hC, by rw [heq],
      by simp, fun i hi => by rw [heq]⟩
  · obtain ⟨_, hlen, _, hC', _, hval, hold⟩ := add_shape hC hadd
    refine ⟨[s.top.heap.length], hC', by omega, ?_, ?_⟩
    · intro i hi
      rw [List.mem_singleton] at hi
      rw [hi]
      exact condOf_none_of_val hval hv
    · intro i hi
      unfold condOf
      rw [(hold i hi).2]

theorem foldlM_plain_condOf {rc vb : Bool} {A : List String} :
    ∀ {s s' : PState} {order : List Nat}, (∀ l ∈ A, plainB l = true) →
    s.previous = "" → ChainOK s.top order →
    A.foldlM (processLine rc true vb) s = .ok s' →
    ∃ ext, ChainOK s'.top (order ++ ext) ∧
      s.top.heap.length ≤ s'.top.heap.length ∧
      (∀ i ∈ ext, condOf s'.top i = none) ∧
      (∀ i, i < s.top.heap.length → condOf s'.top i = condOf s.top i) := by
  induction A with
  | nil =>
    intro s s' order _ _ hC hok
    simp only [List.foldlM_nil] at hok
    cases hok
    exact ⟨[], by simpa using hC, le_refl _, by simp, fun i _ => rfl⟩
  | cons l A ih =>
    intro s s' order hA hprev hC hok
    rw [List.foldlM_cons] at hok
    obtain ⟨s1, h1, h2⟩ := exbind_ok.1 hok
    obtain ⟨ext1, hC1, hle1, hext1, hold1⟩ :=
      step_plain_condOf (hA l (by simp)) hprev hC h1
    obtain ⟨-, -, hp, -⟩ := processLine_plain_shape (hA l (by simp)) hprev h1
    obtain ⟨ext2, hC2, hle2, hext2, hold2⟩ :=
      ih (fun x hx => hA x (by simp [hx])) hp hC1 h2
    refine ⟨ext1 ++ ext2, by rw [← List.append_assoc]; exact hC2,
      le_trans hle1 hle2, ?_, ?_⟩
    · intro i hi
      rcases List.mem_append.1 hi with hi1 | hi2
      · have hilt : i < s1.top.heap.length :=
          hC1.mem_lt (List.mem_cons_of_mem _ (by simp [hi1]))
        rw [hold2 i hilt]
        exact hext1 i hi1
      · exact hext2 i hi2
    · intro i hi
      rw [hold2 i (by omega), hold1 i hi]

theorem valueF_setComplementF_eq {h : Heap} {i : Nat} {r : Option Ref}
    (hi : i < h.length) :
    valueF (setComplementF h i r) i
      = (valueF h i).map (fun v => setComplement v r) := by
  unfold setComplementF
  rw [valueF_setValueF_eq hi]
  rfl

theorem valueF_setComplementF_ne {h : Heap} {i j : Nat} {r : Option Ref}
    (hij : i ≠ j) :
    valueF (setComplementF h i r) j = valueF h j := by
  unfold setComplementF
  exact valueF_setValueF_ne hij

theorem setComplement_data {v : NodeValue} {k : String} {b : Option Bool}
    {r0 r : Option Ref} (hd : v.data = .condition k b r0) :
    (setComplement v r).data = .condition k b r := by
  unfold setComplement
  show (match v.data with
    | NVData.condition k b _ => NVData.condition k b r
    | d => d) = _
  rw [hd]

/-- Preserve-mode `#else` on a singleton `POSRES` stack: two `Condition`
nodes are appended (the closer, then the flipped opener) and the stack entry
flips. -/
theorem elseStepP {vb : Bool} {s s' : PState} {order : List Nat}
    (hac : s.activeConditions = [("POSRES", true)])
    (hprev : s.previous = "")
    (hC : ChainOK s.top order)
    (hok : processLine false true vb s "#else" = .ok s') :
    ChainOK s'.top (order ++ [s.top.heap.length, s.top.heap.length + 1]) ∧
    s'.top.heap.length = s.top.heap.length + 2 ∧
    condOf s'.top s.top.heap.length
      = some (s.top.heap.length, "POSRES", none, none) ∧
    condOf s'.top (s.top.heap.length + 1)
      = some (s.top.heap.length + 1, "POSRES", some false, none) ∧
    (∀ i, i < s.top.heap.length → condOf s'.top i = condOf s.top i) ∧
    s'.activeConditions = [("POSRES", false)] ∧
    s'.activeDefinitions = s.activeDefinitions ∧
    s'.previous = "" := by
  unfold processLine at hok
  have hn0 : ¬ (pyEnds (pyStrip "#else") "\\" = true) := by decide
  rw [if_neg hn0, hprev] at hok
  have hok1 : processLineTail false true vb { s with previous := "" }
      "#else" = .ok s' := hok
  clear hok
  unfold processLineTail at hok1
  have hb1 : ¬ (("#else" : String) = "" ∨ ("#else" : String) = "\n" ∨
      ("#else" : String) = "\n\r") := by decide
  have hb2 : ¬ (pyStarts "#else" "#define" = true) := by decide
  have hb3 : ¬ (pyStarts "#else" "#undef" = true) := by decide
  have hb4 : ¬ (pyStarts "#else" "#ifdef" = true) := by decide
  have hb5 : ¬ (pyStarts "#else" "#ifndef" = true) := by decide
  have hb6 : pyStarts "#else" "#else" = true := by decide
  rw [if_neg hb1, if_neg hb2, if_neg hb3, if_neg hb4, if_neg hb5,
    if_pos hb6] at hok1
  dsimp only [] at hok1
  rw [hac] at hok1
  have hok2 : elsePreserve
      { s with
        activeConditions := [("POSRES", false)],
        previous := "" } "POSRES" false = .ok s' := hok1
  clear hok1
  unfold elsePreserve at hok2
  obtain ⟨sx, haddA, haddB⟩ := exbind_ok.1 hok2
  obtain ⟨haxc, haxd, haxp, k1, v1, hv1d, haddA'⟩ := addNodeTo_shape haddA
  obtain ⟨hbxc, hbxd, hbxp, k2, v2, hv2d, haddB'⟩ := addNodeTo_shape haddB
  have haddA2 : s.top.add k1 v1 = .ok sx.top := haddA'
  obtain ⟨-, hlen1, -, hC1, -, hval1, hold1⟩ := add_shape hC haddA2
  obtain ⟨-, hlen2, -, hC2, -, hval2, hold2⟩ := add_shape hC1 haddB'
  rw [hlen1] at hC2 hval2 hlen2
  rw [List.append_assoc] at hC2
  refine ⟨hC2, by omega, ?_, ?_, ?_, ?_, ?_, ?_⟩
  · have hv : valueF s'.top.heap s.top.heap.length = some v1 := by
      rw [(hold2 s.top.heap.length (by omega)).2]
      exact hval1
    exact condOf_cond hv hv1d
  · exact condOf_cond hval2 hv2d
  · intro i hi
    unfold condOf
    rw [(hold2 i (by omega)).2, (hold1 i hi).2]
  · rw [hbxc, haxc]
  · rw [hbxd, haxd]
  · rw [hbxp, haxp]

/-- Preserve-mode `#endif` on a singleton flipped stack: one `Condition`
node is appended and cross-linked with the nearest preceding condition node
carrying the same key (the `#else` opener), leaving all other complements
untouched. -/
theorem endifStepP {vb : Bool} {s s' : PState} {pre suf : List Nat}
    {n3 : Nat}
    (hac : s.activeConditions = [("POSRES", false)])
    (hprev : s.previous = "")
    (hC : ChainOK s.top (pre ++ n3 :: suf))
    (hn3 : condOf s.top n3 = some (n3, "POSRES", some false, none))
    (hsuf : ∀ i ∈ suf, condOf s.top i = none)
    (hok : processLine false true vb s "#endif" = .ok s') :
    s'.top.heap.length = s.top.heap.length + 1 ∧
    ChainOK s'.top ((pre ++ n3 :: suf) ++ [s.top.heap.length]) ∧
    condOf s'.top n3 = some (n3, "POSRES", some false,
      some (Ref.mk true s.top.heap.length)) ∧
    condOf s'.top s.top.heap.length
      = some (s.top.heap.length, "POSRES", none, some (Ref.mk true n3)) ∧
    (∀ i, i < s.top.heap.length → i ≠ n3 →
      condOf s'.top i = condOf s.top i) ∧
    s'.activeConditions = [] ∧
    s'.activeDefinitions = s.activeDefinitions ∧
    s'.previous = "" := by
  unfold processLine at hok
  have hn0 : ¬ (pyEnds (pyStrip "#endif") "\\" = true) := by decide
  rw [if_neg hn0, hprev] at hok
  have hok1 : processLineTail false true vb { s with previous := "" }
      "#endif" = .ok s' := hok
  clear hok
  unfold processLineTail at hok1
  have hb1 : ¬ (("#endif" : String) = "" ∨ ("#endif" : String) = "\n" ∨
      ("#endif" : String) = "\n\r") := by decide
  have hb2 : ¬ (pyStarts "#endif" "#define" = true) := by decide
  have hb3 : ¬ (pyStarts "#endif" "#undef" = true) := by decide
  have hb4 : ¬ (pyStarts "#endif" "#ifdef" = true) := by decide
  have hb5 : ¬ (pyStarts "#endif" "#ifndef" = true) := by decide
  have hb6 : ¬ (pyStarts "#endif" "#else" = true) := by decide
  have hb7 : pyStarts "#endif" "#endif" = true := by decide
  rw [if_neg hb1, if_neg hb2, if_neg hb3, if_neg hb4, if_neg hb5,
    if_neg hb6, if_pos hb7] at hok1
  dsimp only [] at hok1
  rw [hac] at hok1
  have hok2 : endifPreserve
      { s with
        activeConditions := [],
        previous := "" } "POSRES" = .ok s' := hok1
  clear hok1
  unfold endifPreserve at hok2
  rw [show mkValue
      { s with
        activeConditions := ([] : List (String × Bool)),
        previous := "" } (.condition "POSRES" none none)
    = ((mkValue
      { s with
        activeConditions := ([] : List (String × Bool)),
        previous := "" } (.condition "POSRES" none none)).1,
      (mkValue
      { s with
        activeConditions := ([] : List (String × Bool)),
        previous := "" } (.condition "POSRES" none none)).2.1,
      (mkValue
      { s with
        activeConditions := ([] : List (String × Bool)),
        previous := "" } (.condition "POSRES" none none)).2.2) from rfl]
    at hok2
  dsimp only [] at hok2
  obtain ⟨t1, haddT, hrest⟩ := exbind_ok.1 hok2
  have haddT2 : s.top.add
      (mkValue
        { s with
          activeConditions := ([] : List (String × Bool)),
          previous := "" } (.condition "POSRES" none none)).1
      (mkValue
        { s with
          activeConditions := ([] : List (String × Bool)),
          previous := "" } (.condition "POSRES" none none)).2.1
      = .ok t1 := haddT
  obtain ⟨-, hlen1, -, hC1, -, hval1, hold1⟩ := add_shape hC haddT2
  have hvd : (mkValue
      { s with
        activeConditions := ([] : List (String × Bool)),
        previous := "" } (.condition "POSRES" none none)).2.1.data
      = NVData.condition "POSRES" none none := rfl
  have hlen0 : 0 < s.top.heap.length := hC.1
  -- the predecessor link of the freshly added node
  have hgap := chain_gap (show ChainOK t1
    ((pre ++ n3 :: suf) ++ [s.top.heap.length]) from hC1)
  have hhead : (([s.top.heap.length] ++ [0] : List Nat)).head (by simp)
      = s.top.heap.length := rfl
  have hprevL : prevF t1.heap s.top.heap.length
      = some (Ref.mk true
        (((0 : Nat) :: (pre ++ n3 :: suf)).getLast (by simp))) := by
    have h2 := hgap.2
    rw [hhead] at h2
    exact h2
  -- `top[-1]` returns the unproxied new node
  have hget : getItemInt t1 (-1) = .ok (some (realRef s.top.heap.length)) := by
    unfold getItemInt
    rw [if_pos (by norm_num)]
    rw [bwdRefs_spec hC1]
    have hel : ((((pre ++ n3 :: suf) ++ [s.top.heap.length]).reverse.map
        (Ref.mk true)))[((-(-1 : Int)) - 1).toNat]?
        = some (Ref.mk true s.top.heap.length) := by
      rw [show ((-(-1 : Int)) - 1).toNat = 0 from by decide,
        List.reverse_append, List.reverse_singleton]
      simp
    rw [exbind_pure_ok, hel]
    show Except.ok (unproxyTry t1 (Ref.mk true s.top.heap.length))
      = Except.ok (some (realRef s.top.heap.length))
    unfold unproxyTry
    rw [show (getH t1.heap (Ref.mk true s.top.heap.length).id).prev
      = prevF t1.heap s.top.heap.length from rfl, hprevL]
    have hnx := hgap.1
    rw [hhead] at hnx
    show Except.ok (nextF t1.heap
      (((0 : Nat) :: (pre ++ n3 :: suf)).getLast (by simp)))
      = Except.ok (some (realRef s.top.heap.length))
    rw [hnx, fwdRef_pos (by omega)]
  have hfuel : (pre ++ n3 :: suf).length < t1.heap.length + 1 := by
    have hbl := nodup_bound_length hC1.2.2.1
      (fun i hi => (hC1.2.1 i hi).2)
    rw [List.length_append] at hbl
    omega
  have hn3lt : n3 < s.top.heap.length :=
    hC.mem_lt (List.mem_cons_of_mem _ (by simp))
  have hn3t1 : condOf t1 n3 = some (n3, "POSRES", some false, none) := by
    unfold condOf
    rw [(hold1 n3 hn3lt).2]
    exact hn3
  have hfc : findComplement t1 s.top.heap.length = some n3 := by
    unfold findComplement
    rw [show (getH t1.heap s.top.heap.length).value
      = valueF t1.heap s.top.heap.length from rfl, hval1]
    show findCompAux t1.heap "POSRES" true (t1.heap.length + 1)
      (getH t1.heap s.top.heap.length).prev = some n3
    rw [show (getH t1.heap s.top.heap.length).prev
      = prevF t1.heap s.top.heap.length from rfl, hprevL]
    rw [findCompAux_prev_walk (R := [s.top.heap.length]) hC1 hfuel rfl]
    rw [show (pre ++ n3 :: suf).reverse
      = suf.reverse ++ (n3 :: pre.reverse) from by simp]
    rw [firstCondMatch_append_none (fun i hi => condHit_false
      (by
        rw [List.mem_reverse] at hi
        unfold condOf
        rw [(hold1 i (hC.mem_lt (List.mem_cons_of_mem _
          (by simp [hi])))).2]
        exact hsuf i hi))]
    exact firstCondMatch_cons_hit (condHit_true hn3t1)
  rw [hget, exbind_pure_ok] at hrest
  dsimp only [] at hrest
  rw [show (realRef s.top.heap.length).id = s.top.heap.length from rfl,
    hfc] at hrest
  dsimp only [] at hrest
  simp only [Except.ok.injEq] at hrest
  -- facts about the final heap
  have hlt1 : s.top.heap.length < t1.heap.length := by omega
  have hne3L : n3 ≠ s.top.heap.length := by omega
  obtain ⟨v3, hv3, k3, cb3, cr3, hd3, hx3⟩ := condOf_elim hn3t1
  have hk3 : k3 = "POSRES" := by
    have := congrArg (fun y => y.2.1) hx3
    simpa using this.symm
  have hcb3 : cb3 = some false := by
    have := congrArg (fun y => y.2.2.1) hx3
    simpa using this.symm
  obtain ⟨V, hValV, hVd⟩ : ∃ V, valueF t1.heap s.top.heap.length = some V ∧
      V.data = NVData.condition "POSRES" none none := ⟨_, hval1, hvd⟩
  have hGlen : (setComplementF (setComplementF t1.heap s.top.heap.length
      (some (Ref.mk true n3))) n3
      (some (Ref.mk true s.top.heap.length))).length = t1.heap.length := by
    simp [setComplementF]
  refine ⟨?_, ?_, ?_, ?_, ?_, ?_, ?_, ?_⟩
  · rw [← hrest]
    show (setComplementF (setComplementF t1.heap s.top.heap.length
      (some (Ref.mk true n3))) n3
      (some (Ref.mk true s.top.heap.length))).length
      = s.top.heap.length + 1
    rw [hGlen]
    exact hlen1
  · rw [← hrest]
    show ChainOK
      { heap := setComplementF (setComplementF t1.heap s.top.heap.length
          (some (Ref.mk true n3))) n3
          (some (Ref.mk true s.top.heap.length)),
        table := t1.table } ((pre ++ n3 :: suf) ++ [s.top.heap.length])
    refine chainOK_heap_congr (show ChainOK
      { heap := t1.heap, table := t1.table }
      ((pre ++ n3 :: suf) ++ [s.top.heap.length]) from hC1) hGlen ?_ ?_
    · intro j
      simp [setComplementF]
    · intro j
      simp [setComplementF]
  · rw [← hrest]
    have hvG3 : valueF (setComplementF (setComplementF t1.heap
        s.top.heap.length (some (Ref.mk true n3))) n3
        (some (Ref.mk true s.top.heap.length))) n3
        = some (setComplement v3 (some (Ref.mk true s.top.heap.length))) := by
      rw [valueF_setComplementF_eq (by rw [show (setComplementF t1.heap
        s.top.heap.length (some (Ref.mk true n3))).length
          = t1.heap.length from by simp [setComplementF]]; omega)]
      rw [valueF_setComplementF_ne (Ne.symm hne3L), hv3]
      rfl
    have hdata3 : (setComplement v3
        (some (Ref.mk true s.top.heap.length))).data
        = NVData.condition "POSRES" (some false)
          (some (Ref.mk true s.top.heap.length)) := by
      rw [setComplement_data hd3, hk3, hcb3]
    exact condOf_cond hvG3 hdata3
  · rw [← hrest]
    have hvGL : valueF (setComplementF (setComplementF t1.heap
        s.top.heap.length (some (Ref.mk true n3))) n3
        (some (Ref.mk true s.top.heap.length))) s.top.heap.length
        = some (setComplement V (some (Ref.mk true n3))) := by
      rw [valueF_setComplementF_ne hne3L, valueF_setComplementF_eq hlt1,
        hValV]
      rfl
    exact condOf_cond hvGL (setComplement_data hVd)
  · intro i hi hin3
    have hvi : valueF (setComplementF (setComplementF t1.heap
        s.top.heap.length (some (Ref.mk true n3))) n3
        (some (Ref.mk true s.top.heap.length))) i = valueF s.top.heap i := by
      rw [valueF_setComplementF_ne (Ne.symm hin3),
        valueF_setComplementF_ne (show s.top.heap.length ≠ i from by omega),
        (hold1 i hi).2]
    rw [← hrest]
    unfold condOf
    dsimp only []
    rw [hvi]
  · rw [← hrest]
    rfl
  · rw [← hrest]
    rfl
  · rw [← hrest]
    rfl

/-- The state after the opening `#ifdef POSRES` of a preserve-mode parse. -/
def c5Start : PState :=
  match processLine false true true (initPState []) "#ifdef POSRES" with
  | .ok s => s
  | .error _ => initPState []

/-- C5 (amended): a preserve-mode parse of `#ifdef POSRES`, plain lines A,
`#else`, plain lines B, `#endif` yields exactly four `Condition` nodes, in
chain order: the opener (complement unset), the `#else` closer (complement
unset), the `#else` opener and the `#endif` closer — only the latter two are
cross-linked by `find_complement`. -/
theorem claim_C5 {A B : List String}
    (hA : ∀ l ∈ A, plainB l = true) (hB : ∀ l ∈ B, plainB l = true)
    {t : Top}
    (hok : parseGmx ("#ifdef POSRES" :: (A ++ "#else" :: (B ++ ["#endif"])))
      [] false = .ok t) :
    ∃ order i2 i3 i4, ChainOK t order ∧
      order.filterMap (condOf t)
        = [(1, "POSRES", some true, none),
           (i2, "POSRES", none, none),
           (i3, "POSRES", some false, some (Ref.mk true i4)),
           (i4, "POSRES", none, some (Ref.mk true i3))] := by
  unfold parseGmx readLines at hok
  obtain ⟨sF, hfold, htopF⟩ := exmap_ok.1 hok
  rw [List.foldlM_cons] at hfold
  have hstep1 : processLine false true true (initPState []) "#ifdef POSRES"
      = .ok c5Start := by decide
  rw [hstep1, exbind_pure_ok, List.foldlM_append] at hfold
  obtain ⟨sA, hfoldA, hrest⟩ := exbind_ok.1 hfold
  obtain ⟨extA, hCA, hlenA, hextA, holdA⟩ :=
    @foldlM_plain_condOf false true A c5Start sA [1] hA (by decide)
      (by decide) hfoldA
  obtain ⟨hacA, hdefA, hprevA⟩ := @foldlM_plain_state false true A
    c5Start sA hA (by decide) hfoldA
  rw [show c5Start.activeConditions = [("POSRES", true)] from by decide]
    at hacA
  rw [List.foldlM_cons] at hrest
  obtain ⟨sE, hstepE, hrest2⟩ := exbind_ok.1 hrest
  obtain ⟨hCE, hlenE, hcondE2, hcondE3, holdE, hacE, hdefE, hprevE⟩ :=
    elseStepP hacA hprevA hCA hstepE
  rw [List.foldlM_append] at hrest2
  obtain ⟨sB, hfoldB, hrest3⟩ := exbind_ok.1 hrest2
  obtain ⟨extB, hCB, hlenB, hextB, holdB⟩ :=
    @foldlM_plain_condOf false true B sE sB
      (([1] ++ extA) ++ [sA.top.heap.length, sA.top.heap.length + 1])
      hB hprevE hCE hfoldB
  obtain ⟨hacB, hdefB, hprevB⟩ := @foldlM_plain_state false true B
    sE sB hB hprevE hfoldB
  rw [hacE] at hacB
  rw [List.foldlM_cons] at hrest3
  obtain ⟨sZ, hstepZ, hrest4⟩ := exbind_ok.1 hrest3
  simp only [List.foldlM_nil] at hrest4
  have hZF : sZ = sF := by simpa using hrest4
  subst hZF
  have h2A : (2 : Nat) ≤ sA.top.heap.length := by
    have h0 := hlenA
    rw [show c5Start.top.heap.length = 2 from by decide] at h0
    exact h0
  have hCB' : ChainOK sB.top
      ((([1] ++ extA) ++ [sA.top.heap.length]) ++
        (sA.top.heap.length + 1) :: extB) := by
    rw [show (([1] ++ extA) ++ [sA.top.heap.length]) ++
        (sA.top.heap.length + 1) :: extB
      = ((([1] ++ extA) ++
          [sA.top.heap.length, sA.top.heap.length + 1]) ++ extB)
      from by simp]
    exact hCB
  have hn3B : condOf sB.top (sA.top.heap.length + 1)
      = some (sA.top.heap.length + 1, "POSRES", some false, none) := by
    rw [holdB _ (by omega)]
    exact hcondE3
  obtain ⟨hlenZ, hCZ, hcZ3, hcZ4, holdZ, hacZ, hdefZ, hprevZ⟩ :=
    endifStepP hacB hprevB hCB' hn3B hextB hstepZ
  have hc1Z : condOf sZ.top 1 = some (1, "POSRES", some true, none) := by
    rw [holdZ 1 (by omega) (by omega), holdB 1 (by omega),
      holdE 1 (by omega), holdA 1 (by decide)]
    decide
  have hextAZ : ∀ i ∈ extA, condOf sZ.top i = none := by
    intro i hi
    have hiL0 : i < sA.top.heap.length :=
      hCA.mem_lt (List.mem_cons_of_mem _ (by simp [hi]))
    rw [holdZ i (by omega) (by omega), holdB i (by omega), holdE i hiL0]
    exact hextA i hi
  have hcL0Z : condOf sZ.top sA.top.heap.length
      = some (sA.top.heap.length, "POSRES", none, none) := by
    rw [holdZ _ (by omega) (by omega), holdB _ (by omega)]
    exact hcondE2
  have hextBZ : ∀ i ∈ extB, condOf sZ.top i = none := by
    intro i hi
    have hiB : i < sB.top.heap.length :=
      hCB.mem_lt (List.mem_cons_of_mem _ (by simp [hi]))
    have hine : i ≠ sA.top.heap.length + 1 := by
      have hnd2 : ((sA.top.heap.length + 1) :: extB).Nodup :=
        (List.nodup_append.1 hCB'.2.2.1).2.1
      intro he
      exact (List.nodup_cons.1 hnd2).1 (he ▸ hi)
    rw [holdZ i hiB hine]
    exact hextB i hi
  refine ⟨(((([1] ++ extA) ++ [sA.top.heap.length]) ++
      (sA.top.heap.length + 1) :: extB) ++ [sB.top.heap.length]),
    sA.top.heap.length, sA.top.heap.length + 1, sB.top.heap.length,
    ?_, ?_⟩
  · rw [← htopF]
    exact hCZ
  · rw [← htopF]
    have hfmA : List.filterMap (condOf sZ.top) extA = [] :=
      filterMap_none hextAZ
    have hfmB : List.filterMap (condOf sZ.top) extB = [] :=
      filterMap_none hextBZ
    simp [List.filterMap_append, List.filterMap_cons, hc1Z, hcL0Z, hcZ3,
      hcZ4, hfmA, hfmB]

def c5Top : Top :=
  match parseGmx ["#ifdef POSRES", "aline x", "#else", "bline y", "#endif"]
      [] false with
  | .ok t => t
  | .error _ => emptyTop

/-- C5 counterexample: in the preserve-mode parse of a concrete
`#ifdef`/`#else`/`#endif` stream the `#ifdef` opener (node 1) keeps
`complement = None` even though its closing `#endif` node exists, and the
`#endif` node's complement references the `#else` opener (node 4) instead —
the pairs are not all cross-linked. -/
theorem claim_C5_counterexample :
    parseGmx ["#ifdef POSRES", "aline x", "#else", "bline y", "#endif"]
        [] false = .ok c5Top ∧
    condOf c5Top 1 = some (1, "POSRES", some true, none) ∧
    condOf c5Top 6 = some (6, "POSRES", none, some (Ref.mk true 4)) :=
  ⟨by decide, by decide, by decide⟩

theorem claim_C5_witness :
    ∃ order i2 i3 i4, ChainOK c5Top order ∧
      order.filterMap (condOf c5Top)
        = [(1, "POSRES", some true, none),
           (i2, "POSRES", none, none),
           (i3, "POSRES", some false, some (Ref.mk true i4)),
           (i4, "POSRES", none, some (Ref.mk true i3))] :=
  claim_C5 (A := ["aline x"]) (B := ["bline y"]) (by decide) (by decide)
    (by decide)

end MDParser
